import Mathlib

/-!
# fgtparser — a verification development

A shallow embedding of the fgtparser FortiGate configuration parser
(`fgtparser/_config.py` and `fgtparser/_parser.py`) together with proofs
about its lexer, recursive-descent parser, configuration tree, traversal
and serialization.

Modelling conventions:
* Python strings are lists of characters (`Tok`); the character read from
  an exhausted stream (Python's empty string) is `Option.none`.
* Python exceptions are an explicit `Except` error channel; diagnostic
  message strings are abstracted to structured error kinds.
* Python dictionaries are association lists with insertion-order
  semantics (`dictInsert` updates in place, appends fresh keys).
* The parser's unbounded recursion is driven by an explicit fuel
  parameter; the top-level entry point supplies fuel amply larger than
  the input, and the round-trip theorems prove the supplied fuel enough.
-/

namespace Fgt

/-- A Python string, as the parser manipulates it: a list of characters. -/
abbrev Tok := List Char

/-- The result of reading one character: `none` models the empty string
returned by `stream.read(1)` at end of stream. -/
abbrev PChar := Option Char

/-- Python `str.isspace` on the ASCII whitespace characters (the
configuration format is ASCII). -/
def pyIsSpace (c : Char) : Bool :=
  c = ' ' ∨ c = '\t' ∨ c = '\n' ∨ c = '\r' ∨ c = Char.ofNat 11 ∨ c = Char.ofNat 12

/-- Python `str.replace(p, r)` for a one-character pattern `p`. -/
def pyReplace1 (p : Char) (r : List Char) : List Char → List Char
  | [] => []
  | c :: rest =>
      if c = p then r ++ pyReplace1 p r rest else c :: pyReplace1 p r rest

/-- Python `str.replace(pq, r)` for a two-character pattern `p ++ q` and a
one-character replacement `r`: leftmost, non-overlapping. -/
def pyReplace2 (p q r : Char) : List Char → List Char
  | [] => []
  | [c] => [c]
  | c1 :: c2 :: rest =>
      if c1 = p ∧ c2 = q then r :: pyReplace2 p q r rest
      else c1 :: pyReplace2 p q r (c2 :: rest)

/--
`uqs` (`_config.py`): unquote a string by removing surrounding double
quotes and unescaping escaped quotes and backslashes.
Python: `arg.replace('\\"', '"').replace('\\\\', '\\')[1:-1]` guarded by
the length and delimiter checks.
-/
def uqs (arg : Tok) : Tok :=
  if arg.length < 2 then arg
  else if arg.head? ≠ some '"' ∨ arg.getLast? ≠ some '"' then arg
  else ((pyReplace2 '\\' '"' '"' arg |> pyReplace2 '\\' '\\' '\\').drop 1).dropLast

/--
`qus` (`_config.py`): quote a string by wrapping it in double quotes after
escaping backslashes and double quotes.
Python: `'"{...}"'.format(arg.replace('\\', '\\\\').replace('"', '\\"'))`.
-/
def qus (arg : Tok) : Tok :=
  '"' :: pyReplace1 '"' ['\\', '"'] (pyReplace1 '\\' ['\\', '\\'] arg) ++ ['"']

/-! ### Quoting symmetry: auxiliary functions for the analysis of `uqs ∘ qus` -/

/-- The composite escaping performed inside `qus`, fused to one pass. -/
def escF : List Char → List Char
  | [] => []
  | c :: rest =>
      (if c = '\\' then ['\\', '\\'] else if c = '"' then ['\\', '"'] else [c])
        ++ escF rest

/-- Outcome of the first replacement of `uqs` on an escaped body followed
by the closing quote. -/
def gF : List Char → List Char
  | [] => ['"']
  | c :: xs =>
      if c = '\\' then
        match xs with
        | [] => ['\\', '"']
        | _ :: _ => '\\' :: '\\' :: gF xs
      else c :: gF xs

/-! ## Errors

The Python exception hierarchy, abstracted to structured kinds:
`FgtConfigSyntaxError` carries a kind in place of its message string, and
`FgtConfigEosError` (its subclass) is the separate `eosError` value.
`outOfFuel` is an artifact of the fueled embedding of the parser's
unbounded recursion; the entry points supply fuel amply larger than the
input. -/

/-- The distinct messages with which `FgtConfigSyntaxError` is raised. -/
inductive SynKind where
  | unbalancedQuote
  | escapeError
  | unexpectedComment
  | invalidSet
  | invalidUnset
  | invalidEntry
  | invalidTable
  | invalidConfig
deriving DecidableEq

inductive FgtError where
  | syntaxError (kind : SynKind)
  | eosError
  | typeError
  | valueError
  | keyError
  | outOfFuel
deriving DecidableEq

/-- Is the error a `FgtConfigSyntaxError` (which includes the
`FgtConfigEosError` subclass)? -/
def FgtError.isSyntaxError : FgtError → Bool
  | .syntaxError _ => true
  | .eosError => true
  | _ => false

/-- Is the error the `FgtConfigEosError` subclass? -/
def FgtError.isEosError : FgtError → Bool
  | .eosError => true
  | _ => false

/-! ## The configuration tree (`_config.py`)

The abstract class `FgtConfigNode` with its concrete classes
`FgtConfigSet`, `FgtConfigUnset`, `FgtConfigObject` and `FgtConfigTable`
becomes one inductive type with four constructors.  The Python
`dict[str, FgtConfigNode]` containers become association lists with
insertion-order semantics. -/

inductive FgtConfigNode where
  | set (params : List Tok)
  | unset
  | object (entries : List (Tok × FgtConfigNode))
  | table (entries : List (Tok × FgtConfigNode))

/-- The entry list of a configuration dictionary. -/
abbrev Entries := List (Tok × FgtConfigNode)

/-- Python `dict` lookup (`d.get(k)`). -/
def dictGet {α : Type} (d : List (Tok × α)) (k : Tok) : Option α :=
  match d with
  | [] => none
  | (k', v) :: rest => if k' = k then some v else dictGet rest k

/-- Python `dict` assignment `d[k] = v`: updates in place, appends a fresh
key at the end (insertion order preserved). -/
def dictInsert {α : Type} (d : List (Tok × α)) (k : Tok) (v : α) :
    List (Tok × α) :=
  match d with
  | [] => [(k, v)]
  | (k', v') :: rest =>
      if k' = k then (k', v) :: rest else (k', v') :: dictInsert rest k v

/-- Python truthiness of a node: `FgtConfigSet`/`FgtConfigObject`/
`FgtConfigTable` are containers (truthy iff nonempty), `FgtConfigUnset`
has `__len__ = 0`, hence is falsy. -/
def pyTruthy : FgtConfigNode → Bool
  | .set ps => !ps.isEmpty
  | .unset => false
  | .object es => !es.isEmpty
  | .table es => !es.isEmpty

/-- `isinstance(v, (FgtConfigObject, FgtConfigTable))`. -/
def isBody : FgtConfigNode → Bool
  | .object _ => true
  | .table _ => true
  | _ => false

def isObject : FgtConfigNode → Bool
  | .object _ => true
  | _ => false

def isTable : FgtConfigNode → Bool
  | .table _ => true
  | _ => false

def isSet : FgtConfigNode → Bool
  | .set _ => true
  | _ => false

/-- An item of a configuration dictionary (`FgtConfigItem`). -/
abbrev Item := Tok × FgtConfigNode

/-- The traversal stack (`FgtConfigStack`); the most recently appended
parent (Python `parents[-1]`) is at the head. -/
abbrev Stack := List Item

/-! ### Traversal (`FgtConfigNode.traverse`)

The Python callback mutates its `data` argument; here the callback maps a
state to a state and the traversal threads the state through. -/

mutual

/-- `FgtConfigBody.traverse` / `FgtConfigSet.traverse` /
`FgtConfigUnset.traverse`: enter callback, children in insertion order,
leave callback for the two body classes; a single enter callback for the
two leaf classes. -/
def FgtConfigNode.traverse {σ : Type} (fn : Bool → Item → Stack → σ → σ) :
    FgtConfigNode → Tok → Stack → σ → σ
  | .set ps, key, parents, s => fn true (key, .set ps) parents s
  | .unset, key, parents, s => fn true (key, .unset) parents s
  | .object es, key, parents, s =>
      fn false (key, .object es) parents
        (travList fn es ((key, .object es) :: parents)
          (fn true (key, .object es) parents s))
  | .table es, key, parents, s =>
      fn false (key, .table es) parents
        (travList fn es ((key, .table es) :: parents)
          (fn true (key, .table es) parents s))

/-- The `for item_key, item_value in self.items()` loop of
`FgtConfigBody.traverse`. -/
def travList {σ : Type} (fn : Bool → Item → Stack → σ → σ) :
    Entries → Stack → σ → σ
  | [], _, s => s
  | (k, v) :: rest, parents, s =>
      travList fn rest parents (FgtConfigNode.traverse fn v k parents s)

end

/-- `FgtConfigRoot.traverse`: traverses the children only, without
callbacks for the root itself. -/
def traverseRoot {σ : Type} (fn : Bool → Item → Stack → σ → σ)
    (es : Entries) (parents : Stack) (s : σ) : σ :=
  travList fn es parents s

/-! ### Typed accessors (`FgtConfigObject`, `FgtConfigTable`) -/

/-- `FgtConfigObject.c_table`. -/
def c_table (es : Entries) (key : Tok) (default : Option FgtConfigNode) :
    Except FgtError (Option FgtConfigNode) :=
  let value : Option FgtConfigNode :=
    match dictGet es key with
    | some v => some v
    | none => default
  match value with
  | some v => if isTable v then .ok (some v) else .error .typeError
  | none => .ok none

/-- `FgtConfigObject.c_object`. -/
def c_object (es : Entries) (key : Tok) (default : Option FgtConfigNode) :
    Except FgtError (Option FgtConfigNode) :=
  let value : Option FgtConfigNode :=
    match dictGet es key with
    | some v => some v
    | none => default
  match value with
  | some v => if isObject v then .ok (some v) else .error .typeError
  | none => .ok none

/-- `FgtConfigObject.c_set`. -/
def c_set (es : Entries) (key : Tok) (default : Option FgtConfigNode) :
    Except FgtError (Option FgtConfigNode) :=
  let value : Option FgtConfigNode :=
    match dictGet es key with
    | some v => some v
    | none => default
  match value with
  | some v => if isSet v then .ok (some v) else .error .typeError
  | none => .ok none

/-- The possible results of `FgtConfigObject.param`: Python returns the
lone string value, or `None`, or (for a present but empty set, which the
parser never produces) the empty `FgtConfigSet` itself. -/
inductive ParamRet where
  | vnone
  | vstr (t : Tok)
  | vset (ps : List Tok)
deriving DecidableEq

/-- `FgtConfigObject.param`: the value of a simple one-argument SET
command; `FgtConfigSet([default]) if default else None` is the default
passed to `c_set` (note the Python truthiness test on the string). -/
def param (es : Entries) (key : Tok) (default : Option Tok) :
    Except FgtError ParamRet :=
  let dflt : Option FgtConfigNode :=
    match default with
    | some d => if d ≠ [] then some (.set [d]) else none
    | none => none
  match c_set es key dflt with
  | .error e => .error e
  | .ok none => .ok .vnone
  | .ok (some (.set ps)) =>
      if ps ≠ [] then
        if ps.length ≠ 1 then .error .valueError
        else .ok (.vstr (ps.headD []))
      else .ok (.vset ps)
  | .ok (some _) => .ok .vnone

/-- Decimal rendering of the integer keys accepted by
`FgtConfigTable.__getitem__` (Python `str(item)`). -/
def natToTok (n : Nat) : Tok := (Nat.repr n).data

/-- `FgtConfigTable.__getitem__`: an integer key is looked up by its
decimal form, a string key by its quoted form (`qus`); a truthy value
that is not an `FgtConfigObject` raises `TypeError`.  The absent-key case
returns `None` (Python `dict.get`), it does not raise `KeyError`. -/
def table_getitem (es : Entries) (item : Nat ⊕ Tok) :
    Except FgtError (Option FgtConfigNode) :=
  let value : Option FgtConfigNode :=
    match item with
    | .inl n => dictGet es (natToTok n)
    | .inr s => dictGet es (qus s)
  match value with
  | some v =>
      if pyTruthy v ∧ ¬ isObject v then .error .typeError else .ok (some v)
  | none => .ok none

/-- `FgtConfigTable.c_entry` (`_config.py`): `self[key]` with
`except KeyError: return default`. -/
def c_entry (es : Entries) (key : Nat ⊕ Tok) (default : Option FgtConfigNode) :
    Except FgtError (Option FgtConfigNode) :=
  match table_getitem es key with
  | .error .keyError => .ok default
  | .error e => .error e
  | .ok v => .ok v

/-! ### Comments (`FgtConfigComments`) -/

def strT (s : String) : Tok := s.data

/-- `FgtConfigComments._config_version_comment`. -/
def config_version_tag : Tok := strT "#config-version="

/-- Python `str.split(sep)` for a one-character separator. -/
def pySplit (sep : Char) : Tok → List Tok
  | [] => [[]]
  | c :: rest =>
      match pySplit sep rest with
      | [] => [[c]]
      | t :: ts => if c = sep then [] :: t :: ts else (c :: t) :: ts

/-- Python `str.index(ch)`: position of the first occurrence, raising
`ValueError` when absent. -/
def pyIndex (ch : Char) : Tok → Except FgtError Nat
  | [] => .error .valueError
  | c :: rest =>
      if c = ch then .ok 0
      else match pyIndex ch rest with
        | .error e => .error e
        | .ok n => .ok (n + 1)

/-- `FgtConfigComments._config_version`: the `:`-split fields of the last
`#config-version=` comment, defaulting to `["?-?"]`. -/
def config_version_fields (comments : List Tok) : List Tok :=
  comments.foldl
    (fun version comment =>
      if config_version_tag.isPrefixOf comment then
        pySplit ':' (comment.drop config_version_tag.length)
      else version)
    [strT "?-?"]

/-- `FgtConfigComments.version`: everything after the first `-` of the
first field. -/
def comments_version (comments : List Tok) : Except FgtError Tok :=
  let cv := (config_version_fields comments).headD []
  match pyIndex '-' cv with
  | .error e => .error e
  | .ok i => .ok (cv.drop (i + 1))

/-- `FgtConfigComments.model`: everything before the first `-` of the
first field. -/
def comments_model (comments : List Tok) : Except FgtError Tok :=
  let cv := (config_version_fields comments).headD []
  match pyIndex '-' cv with
  | .error e => .error e
  | .ok i => .ok (cv.take i)

/-! ### The configuration (`FgtConfig`) -/

structure FgtConfig where
  comments : List Tok
  root : Entries
  vdoms : List (Tok × Entries)

/-- The `FgtConfig` constructor: raises `ValueError` unless every value of
the root dictionary is an `FgtConfigObject` or `FgtConfigTable`. -/
def FgtConfig.make (comments : List Tok) (root : Entries)
    (vdoms : List (Tok × Entries)) : Except FgtError FgtConfig :=
  if root.all (fun kv => isBody kv.2) then .ok ⟨comments, root, vdoms⟩
  else .error .valueError

/-- `FgtConfig.multi_vdom`. -/
def FgtConfig.multi_vdom (c : FgtConfig) : Bool := !c.vdoms.isEmpty

/-- Python `' '.join`. -/
def joinSp : List Tok → Tok
  | [] => []
  | [t] => t
  | t :: t' :: ts => t ++ ' ' :: joinSp (t' :: ts)

/-- Python `'\n'.join`. -/
def joinNL : List Tok → Tok
  | [] => []
  | [t] => t
  | t :: t' :: ts => t ++ '\n' :: joinNL (t' :: ts)

/-- `isinstance(parents[-1][1], FgtConfigObject)` on the traversal stack
(the most recently appended parent is the head). -/
def headIsObject (parents : Stack) : Bool :=
  match parents.head? with
  | some (_, .object _) => true
  | _ => false

/-- The `append_entry` callback of `FgtConfig.make_config` (with
`self._indent = 4`); the caller-supplied `item_filter` has its `data`
argument already applied. -/
def append_entry (item_filter : Option (Item → Stack → Bool)) :
    Bool → Item → Stack → List Tok → List Tok :=
  fun begin_of_section item parents output_list =>
    let skip : Bool :=
      match item_filter with
      | some f => !f item parents
      | none => false
    if skip then output_list
    else
      let key := item.1
      let line : Tok :=
        match item.2 with
        | .set ps => strT "set " ++ key ++ [' '] ++ joinSp ps
        | .unset => strT "unset " ++ key
        | .object _ =>
            if parents.length = 0 ∨ headIsObject parents then
              if begin_of_section then strT "config " ++ key else strT "end"
            else
              if begin_of_section then strT "edit " ++ key else strT "next"
        | .table _ =>
            if parents.length = 0 ∨ headIsObject parents then
              if begin_of_section then strT "config " ++ key else strT "end"
            else
              if begin_of_section then strT "edit " ++ key else strT "next"
      output_list ++ [List.replicate (parents.length * 4) ' ' ++ line]

/-- `FgtConfig.make_config`: the configuration as a list of lines. -/
def FgtConfig.make_config (c : FgtConfig)
    (item_filter : Option (Item → Stack → Bool) := none) : List Tok :=
  if c.multi_vdom then
    let output : List Tok := [[]]
    let output := output ++ [strT "config vdom"]
    let output := c.vdoms.foldl
      (fun o kv => o ++ [strT "edit " ++ kv.1, strT "next"]) output
    let output := output ++ [strT "end", [], strT "config global"]
    let output := traverseRoot (append_entry item_filter) c.root [] output
    let output := output ++ [strT "end", []]
    c.vdoms.foldl
      (fun o kv =>
        let o := o ++ [strT "config vdom", strT "edit " ++ kv.1]
        let o := traverseRoot (append_entry item_filter) kv.2 [] o
        o ++ [strT "end", []])
      output
  else
    traverseRoot (append_entry item_filter) c.root [] []

/-- `FgtConfig.write`: the text written to the output file — comments (if
requested and present) and the body, each newline-joined and
newline-terminated. -/
def FgtConfig.write (c : FgtConfig) (include_comments : Bool)
    (item_filter : Option (Item → Stack → Bool) := none) : Tok :=
  (if include_comments ∧ c.comments ≠ [] then joinNL c.comments ++ ['\n'] else [])
    ++ joinNL (c.make_config item_filter) ++ ['\n']

/-! ## The lexer (`FgtConfigParser.Lexer`, `_parser.py`)

The lexer state holds the remaining input stream, the single-slot
pushed-back character `self._char` (which can be the end-of-stream marker
itself, hence `Option PChar`), and the single-slot pushed-back token
`self._token`.  Row/column tracking feeds only diagnostic messages and is
abstracted away together with them. -/

structure Lexer where
  stream : List Char
  char : Option PChar
  tokenPB : Option Tok
deriving DecidableEq

/-- `Lexer._next`: the pushed-back character if any, else one character
from the stream (`none` at end of stream). -/
def lexNext (lx : Lexer) : PChar × Lexer :=
  match lx.char with
  | some c => (c, { lx with char := none })
  | none =>
      match lx.stream with
      | [] => (none, lx)
      | c :: rest => (some c, { lx with stream := rest })

/-- `Lexer._unget`. -/
def lexUnget (c : PChar) (lx : Lexer) : Lexer := { lx with char := some c }

/-- `Lexer._is_eol` on a character: `'\n'` or end of stream. -/
def isEolC (c : PChar) : Bool :=
  match c with
  | some ch => ch = '\n'
  | none => true

/-- Python `c.isspace()` on a read result (the empty string at end of
stream is not a space). -/
def pyIsSpaceP (c : PChar) : Bool :=
  match c with
  | some ch => pyIsSpace ch
  | none => false

/-- The skipping loop of `Lexer._next_ns` once reading from the stream:
consume spaces that are not `'\n'`, return the first other character
(consumed) and the rest. -/
def skipSpaces : List Char → PChar × List Char
  | [] => (none, [])
  | c :: rest =>
      if pyIsSpace c ∧ c ≠ '\n' then skipSpaces rest else (some c, rest)

/-- `Lexer._next_ns`: next non-space character (`'\n'` is a delimiter, not
a space). -/
def lexNextNS (lx : Lexer) : PChar × Lexer :=
  match lx.char with
  | some c =>
      if pyIsSpaceP c ∧ ¬ isEolC c then
        let (d, rest) := skipSpaces lx.stream
        (d, { lx with char := none, stream := rest })
      else (c, { lx with char := none })
  | none =>
      let (d, rest) := skipSpaces lx.stream
      (d, { lx with stream := rest })

/-- The comment branch of `Lexer.next_token`: accumulate to end of line;
the terminating newline is consumed and dropped. -/
def scanComment (acc : Tok) : List Char → Tok × List Char
  | [] => (acc, [])
  | c :: rest =>
      if c = '\n' then (acc, rest) else scanComment (acc ++ [c]) rest

/-- The quoted-string branch of `Lexer.next_token`, after the opening
quote: copy verbatim, an escape always takes the following character,
stop at the unescaped closing quote.  End of stream raises the
`unbalanced quote` syntax error, or the `escape error` one right after an
escape character. -/
def scanQuoted (acc : Tok) : List Char → Except FgtError (Tok × List Char)
  | [] => .error (.syntaxError .unbalancedQuote)
  | c :: rest =>
      if c = '\\' then
        match rest with
        | [] => .error (.syntaxError .escapeError)
        | d :: rest2 => scanQuoted (acc ++ [c, d]) rest2
      else if c = '"' then .ok (acc ++ [c], rest)
      else scanQuoted (acc ++ [c]) rest

/-- The word branch of `Lexer.next_token`: accumulate until a space,
newline or end of stream; the delimiter is pushed back (also the
end-of-stream marker). -/
def scanWord (acc : Tok) : List Char → Tok × PChar × List Char
  | [] => (acc, none, [])
  | c :: rest =>
      if pyIsSpace c then (acc, some c, rest) else scanWord (acc ++ [c]) rest

/-- `Lexer.is_eos` on a token. -/
def tok_is_eos (t : Tok) : Bool := t.isEmpty

/-- `Lexer._is_eol` on a token: the EOL token or the EOS token. -/
def tok_is_eol (t : Tok) : Bool := t = ['\n'] || t.isEmpty

/-- `Lexer.is_comment`: first character is `#`. -/
def tok_is_comment (t : Tok) : Bool := t.head? = some '#'

/-- `Lexer.push_token`. -/
def push_token (t : Tok) (lx : Lexer) : Lexer := { lx with tokenPB := some t }

/-- `Lexer.next_token`. -/
def next_token (lx : Lexer) : Except FgtError (Tok × Lexer) :=
  match lx.tokenPB with
  | some t => .ok (t, { lx with tokenPB := none })
  | none =>
      let (c, lx1) := lexNextNS lx
      match c with
      | none => .ok ([], lx1)
      | some ch =>
          if ch = '\n' then .ok (['\n'], lx1)
          else if ch = '#' then
            let (t, rest) := scanComment ['#'] lx1.stream
            .ok (t, { lx1 with stream := rest })
          else if ch = '"' then
            match scanQuoted ['"'] lx1.stream with
            | .error e => .error e
            | .ok (t, rest) => .ok (t, { lx1 with stream := rest })
          else
            let (t, d, rest) := scanWord [ch] lx1.stream
            .ok (t, { lx1 with char := some d, stream := rest })

/-- Measure cost of the character pushback slot (a pushed-back
end-of-stream marker costs nothing). -/
def cpbCost : Option PChar → Nat
  | some (some _) => 1
  | _ => 0

/-- Measure cost of the token pushback slot. -/
def tpbCost : Option Tok → Nat
  | some _ => 1
  | none => 0

/-- Termination measure for the token-level loops: remaining stream plus
the two pushback slots. -/
def Lexer.mu (lx : Lexer) : Nat :=
  lx.stream.length + cpbCost lx.char + tpbCost lx.tokenPB

/-- The collection loop of `Lexer.next_parameters`; the fuel is a
termination bound only, `Lexer.mu + 1` always suffices because every
collected token consumes at least one measure unit. -/
def next_parameters_go (fuel : Nat) (lx : Lexer) (acc : List Tok) :
    Except FgtError (List Tok × Lexer) :=
  match fuel with
  | 0 => .error .outOfFuel
  | fuel + 1 =>
      match next_token lx with
      | .error e => .error e
      | .ok (t, lx') =>
          if tok_is_eol t then .ok (acc, lx')
          else if tok_is_comment t then .error (.syntaxError .unexpectedComment)
          else next_parameters_go fuel lx' (acc ++ [t])

/-- `Lexer.next_parameters`: all tokens up to the end of the line;
a comment raises the `unexpected comment` syntax error. -/
def next_parameters (lx : Lexer) : Except FgtError (List Tok × Lexer) :=
  next_parameters_go (lx.mu + 1) lx []

/-- The skipping loop of `Lexer.next_snl_token`. -/
def next_snl_go (fuel : Nat) (lx : Lexer) : Except FgtError (Tok × Lexer) :=
  match fuel with
  | 0 => .error .outOfFuel
  | fuel + 1 =>
      match next_token lx with
      | .error e => .error e
      | .ok (t, lx') =>
          if tok_is_eol t ∧ ¬ tok_is_eos t then next_snl_go fuel lx'
          else .ok (t, lx')

/-- `Lexer.next_snl_token`: skip spaces and newlines; raise
`FgtConfigEosError` at end of stream unless `raise_eos` is false. -/
def next_snl_token (raise_eos : Bool) (lx : Lexer) :
    Except FgtError (Tok × Lexer) :=
  match next_snl_go (lx.mu + 1) lx with
  | .error e => .error e
  | .ok (t, lx') =>
      if raise_eos ∧ tok_is_eos t then .error .eosError else .ok (t, lx')

/-! ## The parser (`FgtConfigParser`, `_parser.py`) -/

/-- `FgtConfigParser.VDOM`. -/
def VDOM : Tok := strT "vdom"

/-- `FgtConfigParser._parse_set_command`. -/
def _parse_set_command (lx : Lexer) :
    Except FgtError ((Tok × FgtConfigNode) × Lexer) :=
  match next_parameters lx with
  | .error e => .error e
  | .ok (tokens, lx') =>
      if tokens.length < 2 then .error (.syntaxError .invalidSet)
      else .ok ((tokens.headD [], .set (tokens.drop 1)), lx')

/-- `FgtConfigParser._parse_unset_command`. -/
def _parse_unset_command (lx : Lexer) :
    Except FgtError ((Tok × FgtConfigNode) × Lexer) :=
  match next_parameters lx with
  | .error e => .error e
  | .ok (tokens, lx') =>
      if tokens.length ≠ 1 then .error (.syntaxError .invalidUnset)
      else .ok ((tokens.headD [], .unset), lx')

mutual

/-- `FgtConfigParser._parse_config_command`: dispatch on the entry
keyword. -/
def _parse_config_command (fuel : Nat) (entry : Tok) (lx : Lexer) :
    Except FgtError ((Tok × FgtConfigNode) × Lexer) :=
  match fuel with
  | 0 => .error .outOfFuel
  | fuel + 1 =>
      if entry = strT "set" then _parse_set_command lx
      else if entry = strT "unset" then _parse_unset_command lx
      else if entry = strT "config" then _parse_config fuel lx
      else .error (.syntaxError .invalidEntry)

/-- `FgtConfigParser._parse_table_entry`: commands after EDIT up to the
NEXT delimiter (`end` also accepted, and pushed back, inside a tenant
table). -/
def _parse_table_entry (fuel : Nat) (vdom : Bool) (lx : Lexer) :
    Except FgtError ((Tok × FgtConfigNode) × Lexer) :=
  match fuel with
  | 0 => .error .outOfFuel
  | fuel + 1 =>
      match next_parameters lx with
      | .error e => .error e
      | .ok (edit_key, lx1) =>
          if edit_key.length ≠ 1 then .error (.syntaxError .invalidTable)
          else
            match table_entry_loop fuel vdom [] lx1 with
            | .error e => .error e
            | .ok (cfg, lx2) => .ok ((edit_key.headD [], .object cfg), lx2)

/-- The command loop of `_parse_table_entry`. -/
def table_entry_loop (fuel : Nat) (vdom : Bool) (cfg : Entries) (lx : Lexer) :
    Except FgtError (Entries × Lexer) :=
  match fuel with
  | 0 => .error .outOfFuel
  | fuel + 1 =>
      match next_snl_token true lx with
      | .error e => .error e
      | .ok (token, lx1) =>
          if token = strT "next" ∨ (vdom ∧ token = strT "end") then
            if vdom ∧ token = strT "end" then .ok (cfg, push_token token lx1)
            else .ok (cfg, lx1)
          else
            match _parse_config_command fuel token lx1 with
            | .error e => .error e
            | .ok ((k, v), lx2) => table_entry_loop fuel vdom (dictInsert cfg k v) lx2

/-- `FgtConfigParser._parse_config`: commands after CONFIG up to the END
delimiter; a first `edit` token makes the block a table, anything else an
object. -/
def _parse_config (fuel : Nat) (lx : Lexer) :
    Except FgtError ((Tok × FgtConfigNode) × Lexer) :=
  match fuel with
  | 0 => .error .outOfFuel
  | fuel + 1 =>
      match next_parameters lx with
      | .error e => .error e
      | .ok (config_keys, lx1) =>
          if config_keys.length = 0 then .error (.syntaxError .invalidConfig)
          else
            match next_snl_token true lx1 with
            | .error e => .error e
            | .ok (token, lx2) =>
                if token = strT "edit" then
                  match config_table_loop fuel
                      (decide (config_keys.headD [] = VDOM)) token [] lx2 with
                  | .error e => .error e
                  | .ok (cfg, lx3) => .ok ((joinSp config_keys, .table cfg), lx3)
                else
                  match config_object_loop fuel token [] lx2 with
                  | .error e => .error e
                  | .ok (cfg, lx3) => .ok ((joinSp config_keys, .object cfg), lx3)

/-- The entry loop of the table branch of `_parse_config`. -/
def config_table_loop (fuel : Nat) (vdom : Bool) (token : Tok) (cfg : Entries)
    (lx : Lexer) : Except FgtError (Entries × Lexer) :=
  match fuel with
  | 0 => .error .outOfFuel
  | fuel + 1 =>
      if token = strT "end" then .ok (cfg, lx)
      else
        match _parse_table_entry fuel vdom lx with
        | .error e => .error e
        | .ok ((tk, tv), lx1) =>
            match next_snl_token true lx1 with
            | .error e => .error e
            | .ok (token', lx2) =>
                config_table_loop fuel vdom token' (dictInsert cfg tk tv) lx2

/-- The command loop of the object branch of `_parse_config`. -/
def config_object_loop (fuel : Nat) (token : Tok) (cfg : Entries) (lx : Lexer) :
    Except FgtError (Entries × Lexer) :=
  match fuel with
  | 0 => .error .outOfFuel
  | fuel + 1 =>
      if token = strT "end" then .ok (cfg, lx)
      else
        match _parse_config_command fuel token lx with
        | .error e => .error e
        | .ok ((ck, cv), lx1) =>
            match next_snl_token true lx1 with
            | .error e => .error e
            | .ok (token', lx2) =>
                config_object_loop fuel token' (dictInsert cfg ck cv) lx2

end

/-- The leading comment collection loop of `FgtConfigParser.parse`. -/
def comments_loop (fuel : Nat) (comments : List Tok) (lx : Lexer) :
    Except FgtError (List Tok × Tok × Lexer) :=
  match fuel with
  | 0 => .error .outOfFuel
  | fuel + 1 =>
      match next_snl_token false lx with
      | .error e => .error e
      | .ok (token, lx1) =>
          if tok_is_comment token then comments_loop fuel (comments ++ [token]) lx1
          else .ok (comments, token, lx1)

/-- The items of a parsed CONFIG block (`v.items()` in
`FgtConfigParser.parse`; `v` is always an object or a table there). -/
def bodyItems : FgtConfigNode → Entries
  | .object es => es
  | .table es => es
  | _ => []

/-- The `for entry, value in v.items()` loop of the vdom branch of
`FgtConfigParser.parse`: each object value is wrapped into a root by the
default factory (whose `comments.version` argument is evaluated first and
can raise), any other value raises `TypeError`. -/
def add_vdoms (comments : List Tok) (items : Entries)
    (vdoms : List (Tok × Entries)) : Except FgtError (List (Tok × Entries)) :=
  match items with
  | [] => .ok vdoms
  | (entry, value) :: rest =>
      match value with
      | .object es =>
          match comments_version comments with
          | .error e => .error e
          | .ok _ => add_vdoms comments rest (dictInsert vdoms entry es)
      | _ => .error .typeError

/-- The statement loop of `FgtConfigParser.parse`. -/
def top_loop (fuel : Nat) (comments : List Tok) (token : Tok)
    (global_config : Entries) (vdoms_config : List (Tok × Entries)) (lx : Lexer) :
    Except FgtError (Entries × List (Tok × Entries) × Lexer) :=
  match fuel with
  | 0 => .error .outOfFuel
  | fuel + 1 =>
      if tok_is_eos token then .ok (global_config, vdoms_config, lx)
      else if token = strT "config" then
        match _parse_config fuel lx with
        | .error e => .error e
        | .ok ((k, v), lx1) =>
            match
              (if k = VDOM then add_vdoms comments (bodyItems v) vdoms_config
               else .ok vdoms_config : Except FgtError (List (Tok × Entries))) with
            | .error e => .error e
            | .ok vdoms' =>
                let global' :=
                  if k = VDOM then global_config else dictInsert global_config k v
                match next_snl_token false lx1 with
                | .error e => .error e
                | .ok (token', lx2) =>
                    top_loop fuel comments token' global' vdoms' lx2
      else .error (.syntaxError .invalidEntry)

/-- `FgtConfigParser.parse` on a whole input: collect leading comments,
parse the top-level `config` statements, resolve the tenant/global split,
and build the `FgtConfig` (whose constructor checks the root values).
The default root factory is used; its `comments.version` argument is
evaluated and can raise `ValueError`. -/
def parse (stream : Tok) : Except FgtError FgtConfig :=
  let fuel := 2 * stream.length + 16
  match comments_loop fuel [] ⟨stream, none, none⟩ with
  | .error e => .error e
  | .ok (comments, token, lx1) =>
      match top_loop fuel comments token [] [] lx1 with
      | .error e => .error e
      | .ok (global_config, vdoms_config, _) =>
          match
            (if vdoms_config.isEmpty then .ok global_config
             else
               match dictGet global_config (strT "global") with
               | none => .error .keyError
               | some v => .ok (bodyItems v) : Except FgtError Entries) with
          | .error e => .error e
          | .ok config_section =>
              match comments_version comments with
              | .error e => .error e
              | .ok _ => FgtConfig.make comments config_section vdoms_config



/-! ## Input classification helpers (used in theorem statements only) -/

/-- The quoted-string scan of this suffix reaches end of stream with no
closing quote, the final character not being an escape character. -/
def unterminated : List Char → Bool
  | [] => true
  | c :: rest =>
      if c = '\\' then
        match rest with
        | [] => false
        | _ :: r2 => unterminated r2
      else if c = '"' then false
      else unterminated rest

/-- The quoted-string scan of this suffix reaches an escape character as
the very last character before end of stream. -/
def endsInEscape : List Char → Bool
  | [] => false
  | c :: rest =>
      if c = '\\' then
        match rest with
        | [] => true
        | _ :: r2 => endsInEscape r2
      else if c = '"' then false
      else endsInEscape rest

/-- Traversal instrumented to record (enter?, key) events. -/
def traverseEvents (n : FgtConfigNode) (key : Tok) : List (Bool × Tok) :=
  FgtConfigNode.traverse (fun b item _ acc => acc ++ [(b, item.1)]) n key [] []


/-! ## Canonical rendering and well-formedness (analysis helpers)

`renderItem`/`renderList` compute, structurally, the very lines that
`FgtConfig.make_config` emits through the traversal callback (proved
below); the `Wf` predicates characterize the trees the parser itself
produces, for which serialize-then-parse is exact. -/

/-- The indentation prefix at stack depth `d` (`self._indent = 4`). -/
def ind (d : Nat) : Tok := List.replicate (d * 4) ' '

/-- The keyword/terminator choice of `append_entry`, reduced to a flag:
`true` when the parent is a table (emit `edit`/`next`), `false` at the
root or under an object (emit `config`/`end`). -/
def tableFlag (parents : Stack) : Bool :=
  !(parents.isEmpty || headIsObject parents)

mutual

/-- The lines `make_config` emits for one dictionary item at depth `d`. -/
def renderItem (inTable : Bool) (d : Nat) (k : Tok) (v : FgtConfigNode) :
    List Tok :=
  match v with
  | .set ps => [ind d ++ strT "set " ++ k ++ [' '] ++ joinSp ps]
  | .unset => [ind d ++ strT "unset " ++ k]
  | .object es =>
      (ind d ++ (if inTable then strT "edit " else strT "config ") ++ k)
        :: (renderList false (d + 1) es
          ++ [ind d ++ (if inTable then strT "next" else strT "end")])
  | .table es =>
      (ind d ++ (if inTable then strT "edit " else strT "config ") ++ k)
        :: (renderList true (d + 1) es
          ++ [ind d ++ (if inTable then strT "next" else strT "end")])

/-- The lines `make_config` emits for a dictionary at depth `d`. -/
def renderList (inTable : Bool) (d : Nat) : Entries → List Tok
  | [] => []
  | (k, v) :: rest => renderItem inTable d k v ++ renderList inTable d rest

end

/-- A list of lines as newline-terminated text. -/
def linesText : List Tok → Tok
  | [] => []
  | l :: ls => l ++ '\n' :: linesText ls

/-- Measure cost of a possibly pushed-back character. -/
def pbCost : PChar → Nat
  | some _ => 1
  | none => 0

/-- The pushback-resolved remaining input of a lexer state. -/
def vstream (lx : Lexer) : Tok :=
  (match lx.char with | some (some c) => [c] | _ => []) ++ lx.stream

/-- A word token as the lexer produces it: nonempty, whitespace-free, not
opening a comment or a quoted string. -/
def wfWord (t : Tok) : Bool :=
  match t with
  | [] => false
  | c :: rest =>
      !pyIsSpace c && !(c == '"') && !(c == '#') &&
        rest.all (fun d => !pyIsSpace d)

/-- The tail of a well-formed quoted token after the opening quote: a
well-escaped body followed by the closing quote, with no unescaped quote
in between. -/
def wfQTail : List Char → Bool
  | [] => false
  | c :: rest =>
      if c = '\\' then
        match rest with
        | [] => false
        | _ :: r2 => wfQTail r2
      else if c = '"' then rest.isEmpty
      else wfQTail rest

/-- A quoted token as the lexer produces it. -/
def wfQuoted (t : Tok) : Bool :=
  match t with
  | '"' :: rest => wfQTail rest
  | _ => false

/-- A parameter token: a word or a quoted string. -/
def wfTok (t : Tok) : Bool := wfWord t || wfQuoted t

/-- A dictionary key as built by `_parse_config`: one or more parameter
tokens joined by single spaces (`" ".join`). -/
def WfKey (k : Tok) : Prop :=
  ∃ ts : List Tok, ts ≠ [] ∧ (∀ t ∈ ts, wfTok t = true) ∧ k = joinSp ts

/-- The key of an object entry: `set`/`unset` keys are single parameter
tokens, nested block keys are joined parameter tokens. -/
def WfEntryKey (k : Tok) (v : FgtConfigNode) : Prop :=
  match v with
  | .set _ => wfTok k = true
  | .unset => wfTok k = true
  | _ => WfKey k

mutual

/-- The trees the parser produces: sets are nonempty with parameter
tokens, object keys are joined parameter tokens, tables are nonempty with
single-token keys and object entries, and all dictionaries have distinct
keys. -/
def WfNode : FgtConfigNode → Prop
  | .set ps => ps ≠ [] ∧ ∀ p ∈ ps, wfTok p = true
  | .unset => True
  | .object es => WfObjEntries es
  | .table es => es ≠ [] ∧ WfTabEntries es

def WfObjEntries : Entries → Prop
  | [] => True
  | (k, v) :: rest =>
      WfEntryKey k v ∧ WfNode v ∧ dictGet rest k = none ∧ WfObjEntries rest

def WfTabEntries : Entries → Prop
  | [] => True
  | (k, v) :: rest =>
      wfTok k = true ∧ isObject v = true ∧ WfNode v ∧
        dictGet rest k = none ∧ WfTabEntries rest

end

/-- The leading comments the parser collects: `#`-started tokens holding
no newline, and a parseable (or absent) `#config-version=` line — the
parser evaluated `comments.version` successfully. -/
def WfComments (cs : List Tok) : Prop :=
  (∀ c ∈ cs, c.head? = some '#' ∧ '\n' ∉ c) ∧
    ∃ v, comments_version cs = .ok v

/-- The tenant dictionary: distinct keys with object-entry roots. -/
def WfVdoms : List (Tok × Entries) → Prop
  | [] => True
  | (k, es) :: rest =>
      WfKey k ∧ WfObjEntries es ∧ dictGet rest k = none ∧ WfVdoms rest

/-- A configuration as `FgtConfigParser.parse` returns it.  In the
single-vdom case the top-level keys cannot be the reserved tenant
keyword, because `parse` diverts such blocks into the tenant map. -/
def WfConfig (C : FgtConfig) : Prop :=
  WfComments C.comments ∧ WfObjEntries C.root ∧
    (∀ kv ∈ C.root, isBody kv.2 = true) ∧ WfVdoms C.vdoms ∧
    (C.vdoms = [] → ∀ kv ∈ C.root, kv.1 ≠ VDOM)

/-- Every tenant key is a single parameter token — true whenever the
tenant blocks of the source document were `edit`-structured, but not for
an object-bodied `config vdom` block. -/
def TenantKeysWf (C : FgtConfig) : Prop :=
  ∀ kv ∈ C.vdoms, wfTok kv.1 = true

/-- A token as `Lexer.next_token` can produce it: the end-of-stream
token, the end-of-line token, a comment holding no newline, or a
parameter token. -/
def ClassTok (t : Tok) : Prop :=
  tok_is_eos t = true ∨ t = ['\n'] ∨ (t.head? = some '#' ∧ '\n' ∉ t)
    ∨ wfTok t = true

/-- A lexer state whose pushed-back token, if any, was produced by
`next_token`. -/
def WfLexer (lx : Lexer) : Prop :=
  ∀ t, lx.tokenPB = some t → ClassTok t

/-- The statement keyword that opens the rendered form of a node. -/
def kwOf : FgtConfigNode → Tok
  | .set _ => strT "set"
  | .unset => strT "unset"
  | _ => strT "config"

/-- The lexer state right after a statement for this node has been parsed
from its rendered text followed by `s`: a `set`/`unset` line is consumed
including its newline, while a block consumed its `end` word and pushed
the following newline back as a character. -/
def lxPost : FgtConfigNode → List Char → Lexer
  | .set _, s => ⟨s, none, none⟩
  | .unset, s => ⟨s, none, none⟩
  | _, s => ⟨s, some (some '\n'), none⟩

/-- All keys of an association list are distinct. -/
def dictNodup {α : Type} : List (Tok × α) → Prop
  | [] => True
  | (k, _) :: rest => dictGet rest k = none ∧ dictNodup rest

/-- Sequential dictionary insertion, as the parser loops perform it. -/
def dictFold {α : Type} (cfg : List (Tok × α)) (es : List (Tok × α)) :
    List (Tok × α) :=
  es.foldl (fun c kv => dictInsert c kv.1 kv.2) cfg

mutual

/-- Fuel consumed by `_parse_config_command` on the rendered form of a
node. -/
def costN : FgtConfigNode → Nat
  | .set _ => 1
  | .unset => 1
  | .object es => 2 + costLoopO es
  | .table es => 2 + costLoopT es

/-- Fuel consumed by `config_object_loop` / `table_entry_loop` on a
rendered entry list. -/
def costLoopO : Entries → Nat
  | [] => 1
  | (_, v) :: rest => 1 + costN v + costLoopO rest

/-- Fuel consumed by `config_table_loop` on rendered table entries. -/
def costLoopT : Entries → Nat
  | [] => 1
  | (_, .object es) :: rest => 2 + costLoopO es + costLoopT rest
  | (_, _) :: rest => 2 + costLoopT rest

end

/-- The table entries that the parsed tenant-enumeration block holds:
one empty object per tenant name. -/
def enumEntries (l : List (Tok × Entries)) : Entries :=
  l.map (fun kv => (kv.1, FgtConfigNode.object []))

/-- The tenant dictionary right after the enumeration block was parsed:
every tenant name mapped to an empty root. -/
def vdomSkel (l : List (Tok × Entries)) : List (Tok × Entries) :=
  l.map (fun kv => (kv.1, ([] : Entries)))

/-- Fuel consumed by the per-tenant `config vdom` blocks of `top_loop`. -/
def costVB : List (Tok × Entries) → Nat
  | [] => 1
  | (_, es) :: rest => 4 + costLoopO es + costVB rest

/-- The enumeration lines of the synthetic first `config vdom` block. -/
def vdomEnumLines : List (Tok × Entries) → List Tok
  | [] => []
  | (k, _) :: rest => (strT "edit " ++ k) :: strT "next" :: vdomEnumLines rest

/-- The per-tenant `config vdom` blocks emitted by `make_config`. -/
def vdomBodyLines : List (Tok × Entries) → List Tok
  | [] => []
  | (k, es) :: rest =>
      strT "config vdom" :: (strT "edit " ++ k)
        :: (renderList false 0 es ++ (strT "end" :: [] :: vdomBodyLines rest))

/-- Python `str.split(chr(10))` on character lists. -/
def splitLines (t : Tok) : List Tok :=
  match t with
  | [] => [[]]
  | c :: r =>
      if c = '\n' then [] :: splitLines r
      else
        match splitLines r with
        | [] => [[c]]
        | l :: ls => (c :: l) :: ls

/-- Drop leading whitespace (Python `str.lstrip`). -/
def pyLStrip : Tok → Tok
  | [] => []
  | c :: r => if pyIsSpace c then pyLStrip r else c :: r

/-- Python `str.strip`. -/
def pyStrip (t : Tok) : Tok := (pyLStrip (pyLStrip t.reverse).reverse)

/-! # Theorems -/

/-! ## Lexer end-of-stream behaviour inside quoted strings -/

theorem scanQuoted_unterm (n : Nat) :
    ∀ (s : List Char) (acc : Tok), s.length ≤ n → unterminated s = true →
      scanQuoted acc s = .error (.syntaxError .unbalancedQuote) := by
  induction n with
  | zero =>
      intro s acc hlen _
      have hs : s = [] := List.length_eq_zero.mp (Nat.le_zero.mp hlen)
      subst hs
      rfl
  | succ n ih =>
      intro s acc hlen hu
      match s with
      | [] => rfl
      | c :: rest =>
          by_cases hb : c = '\\'
          · subst hb
            match rest with
            | [] => simp [unterminated] at hu
            | d :: r2 =>
                simp only [scanQuoted]
                rw [if_pos trivial]
                apply ih
                · simp at hlen; omega
                · simpa [unterminated] using hu
          · by_cases hq : c = '"'
            · subst hq
              rw [unterminated.eq_def] at hu
              simp at hu
            · rw [scanQuoted.eq_def]
              simp only []
              rw [if_neg hb, if_neg hq]
              apply ih
              · simp at hlen; omega
              · rw [unterminated.eq_def] at hu
                simpa [hb, hq] using hu

theorem scanQuoted_escape (n : Nat) :
    ∀ (s : List Char) (acc : Tok), s.length ≤ n → endsInEscape s = true →
      scanQuoted acc s = .error (.syntaxError .escapeError) := by
  induction n with
  | zero =>
      intro s acc hlen hu
      have hs : s = [] := List.length_eq_zero.mp (Nat.le_zero.mp hlen)
      subst hs
      simp [endsInEscape] at hu
  | succ n ih =>
      intro s acc hlen hu
      match s with
      | [] => simp [endsInEscape] at hu
      | c :: rest =>
          by_cases hb : c = '\\'
          · subst hb
            match rest with
            | [] => rfl
            | d :: r2 =>
                simp only [scanQuoted]
                rw [if_pos trivial]
                apply ih
                · simp at hlen; omega
                · simpa [endsInEscape] using hu
          · by_cases hq : c = '"'
            · subst hq
              rw [endsInEscape.eq_def] at hu
              simp at hu
            · rw [scanQuoted.eq_def]
              simp only []
              rw [if_neg hb, if_neg hq]
              apply ih
              · simp at hlen; omega
              · rw [endsInEscape.eq_def] at hu
                simpa [hb, hq] using hu

/-- `next_token` on a stream opening a quoted string hands the rest to the
quoted-string scan. -/
theorem next_token_quote (s : List Char) :
    next_token ⟨'"' :: s, none, none⟩ =
      match scanQuoted ['"'] s with
      | .error e => .error e
      | .ok (t, rest) => .ok (t, ⟨rest, none, none⟩) := by
  simp [next_token, lexNextNS, skipSpaces, pyIsSpace]

/-! ## Lexer lemmas on canonical states -/

theorem scanWord_app (w : List Char) :
    ∀ (acc : Tok) (d : Char) (s : List Char),
      (∀ c ∈ w, pyIsSpace c = false) → pyIsSpace d = true →
      scanWord acc (w ++ d :: s) = (acc ++ w, some d, s) := by
  induction w with
  | nil =>
      intro acc d s _ hd
      simp [scanWord, hd]
  | cons c w ih =>
      intro acc d s hw hd
      have hc : pyIsSpace c = false := hw c (by simp)
      simp only [List.cons_append, scanWord, hc]
      rw [if_neg (by simp [hc])]
      simp only [List.append_eq]
      rw [ih (acc ++ [c]) d s (fun x hx => hw x (by simp [hx])) hd]
      simp

theorem scanQuoted_app (n : Nat) :
    ∀ (b : List Char) (acc : Tok) (s : List Char), b.length ≤ n →
      wfQTail b = true → scanQuoted acc (b ++ s) = .ok (acc ++ b, s) := by
  induction n with
  | zero =>
      intro b acc s hlen hb
      have : b = [] := List.length_eq_zero.mp (Nat.le_zero.mp hlen)
      subst this
      simp [wfQTail] at hb
  | succ n ih =>
      intro b acc s hlen hb
      match b with
      | [] => simp [wfQTail] at hb
      | [c] =>
          by_cases hbs : c = '\\'
          · subst hbs
            rw [wfQTail.eq_def] at hb
            simp at hb
          · by_cases hbq : c = '"'
            · subst hbq
              simp only [List.cons_append, List.nil_append]
              rw [scanQuoted.eq_def]
              simp
            · rw [wfQTail.eq_def] at hb
              simp [hbs, hbq, wfQTail] at hb
      | c :: d :: rest =>
          by_cases hbs : c = '\\'
          · subst hbs
            rw [wfQTail.eq_def] at hb
            simp at hb
            simp only [List.cons_append, scanQuoted]
            rw [if_pos trivial]
            simp only [List.append_eq]
            have := ih rest (acc ++ ['\\', d]) s (by simp at hlen; omega) hb
            rw [this]
            simp
          · have hbq : ¬ c = '"' := by
              intro hc
              subst hc
              rw [wfQTail.eq_def] at hb
              simp at hb
            rw [wfQTail.eq_def] at hb
            simp [hbs, hbq] at hb
            simp only [List.cons_append, scanQuoted]
            rw [if_neg hbs, if_neg hbq]
            simp only [List.append_eq, List.cons_append]
            have := ih (d :: rest) (acc ++ [c]) s
              (by simp at hlen ⊢; omega) hb
            simp only [List.cons_append] at this
            rw [this]
            simp

theorem scanComment_app (body : List Char) :
    ∀ (acc : Tok) (s : List Char), '\n' ∉ body →
      scanComment acc (body ++ '\n' :: s) = (acc ++ body, s) := by
  induction body with
  | nil =>
      intro acc s _
      simp [scanComment]
  | cons c rest ih =>
      intro acc s hb
      have hc : ¬ c = '\n' := by
        intro h
        exact hb (by simp [h])
      simp only [List.cons_append, scanComment]
      rw [if_neg hc]
      simp only [List.append_eq]
      rw [ih (acc ++ [c]) s (fun h => hb (by simp [h]))]
      simp

theorem next_token_pbchar (s : List Char) (d : Char) :
    next_token ⟨s, some (some d), none⟩ = next_token ⟨d :: s, none, none⟩ := by
  by_cases h : pyIsSpace d = true ∧ ¬ d = '\n'
  · simp only [next_token, lexNextNS, pyIsSpaceP, isEolC]
    rw [if_pos (by simpa using h)]
    rw [show skipSpaces (d :: s) = skipSpaces s from by
      simp only [skipSpaces]; rw [if_pos (by simpa using h)]]
  · simp only [next_token, lexNextNS, pyIsSpaceP, isEolC]
    rw [if_neg (by simpa using h)]
    rw [show skipSpaces (d :: s) = (some d, s) from by
      simp only [skipSpaces]; rw [if_neg (by simpa using h)]]

theorem next_token_pbeos (s : List Char) :
    next_token ⟨s, some none, none⟩ = .ok ([], ⟨s, none, none⟩) := by
  simp [next_token, lexNextNS, pyIsSpaceP]

theorem next_token_space (s : List Char) :
    next_token ⟨' ' :: s, none, none⟩ = next_token ⟨s, none, none⟩ := by
  simp only [next_token, lexNextNS]
  rw [show skipSpaces (' ' :: s) = skipSpaces s from by
    simp [skipSpaces, pyIsSpace]]

theorem next_token_nl (s : List Char) :
    next_token ⟨'\n' :: s, none, none⟩ = .ok (['\n'], ⟨s, none, none⟩) := by
  simp only [next_token, lexNextNS]
  rw [show skipSpaces ('\n' :: s) = (some '\n', s) from by simp [skipSpaces]]
  simp

theorem next_token_word (t : Tok) (d : Char) (s : List Char)
    (ht : wfWord t = true) (hd : pyIsSpace d = true) :
    next_token ⟨t ++ d :: s, none, none⟩ = .ok (t, ⟨s, some (some d), none⟩) := by
  match t with
  | [] => simp [wfWord] at ht
  | c :: w =>
      simp only [wfWord, Bool.and_eq_true, beq_iff_eq, Bool.not_eq_true',
        List.all_eq_true] at ht
      obtain ⟨⟨⟨hc, hcq⟩, hch⟩, hw⟩ := ht
      have hcq' : ¬ c = '"' := by simpa using hcq
      have hch' : ¬ c = '#' := by simpa using hch
      have hcn : ¬ c = '\n' := by
        intro h
        subst h
        simp [pyIsSpace] at hc
      simp only [List.cons_append, next_token, lexNextNS]
      rw [show skipSpaces (c :: (w ++ d :: s)) = (some c, w ++ d :: s) from by
        simp [skipSpaces, hc]]
      simp only []
      rw [if_neg hcn, if_neg hch', if_neg hcq']
      rw [scanWord_app w [c] d s (fun x hx => by simpa using hw x hx) hd]
      simp

theorem next_token_quoted (t : Tok) (s : List Char)
    (ht : wfQuoted t = true) :
    next_token ⟨t ++ s, none, none⟩ = .ok (t, ⟨s, none, none⟩) := by
  match t with
  | [] => simp [wfQuoted] at ht
  | c :: rest =>
      have hc : c = '"' := by
        by_contra h
        rw [wfQuoted.eq_def] at ht
        match c, rest with
        | '"', _ => exact h rfl
        | _, _ => simp_all [wfQuoted]
      subst hc
      rw [wfQuoted.eq_def] at ht
      simp only [] at ht
      simp only [List.cons_append, next_token, lexNextNS]
      rw [show skipSpaces ('"' :: (rest ++ s)) = (some '"', rest ++ s) from by
        simp [skipSpaces, pyIsSpace]]
      simp only []
      rw [if_pos trivial]
      rw [scanQuoted_app rest.length rest ['"'] s le_rfl ht]
      simp

theorem next_token_comment (body : List Char) (s : List Char)
    (hb : '\n' ∉ body) :
    next_token ⟨('#' :: body) ++ '\n' :: s, none, none⟩
      = .ok ('#' :: body, ⟨s, none, none⟩) := by
  simp only [List.cons_append, next_token, lexNextNS]
  rw [show skipSpaces ('#' :: (body ++ '\n' :: s)) = (some '#', body ++ '\n' :: s)
    from by simp [skipSpaces, pyIsSpace]]
  simp only []
  rw [if_pos trivial]
  rw [scanComment_app body ['#'] s hb]
  simp

/-! ## Measure lemmas for the token-level loops -/

theorem skipSpaces_len (s : List Char) :
    (skipSpaces s).2.length + pbCost (skipSpaces s).1 ≤ s.length := by
  induction s with
  | nil => simp [skipSpaces, pbCost]
  | cons c rest ih =>
      by_cases h : pyIsSpace c = true ∧ ¬ c = '\n'
      · rw [show skipSpaces (c :: rest) = skipSpaces rest from by
          simp only [skipSpaces]; rw [if_pos h]]
        simp
        omega
      · rw [show skipSpaces (c :: rest) = (some c, rest) from by
          simp only [skipSpaces]; rw [if_neg h]]
        simp [pbCost]

theorem scanWord_len (s : List Char) :
    ∀ (acc : Tok),
      (scanWord acc s).2.2.length + pbCost (scanWord acc s).2.1 ≤ s.length := by
  induction s with
  | nil => intro acc; simp [scanWord, pbCost]
  | cons c rest ih =>
      intro acc
      by_cases h : pyIsSpace c = true
      · rw [show scanWord acc (c :: rest) = (acc, some c, rest) from by
          simp [scanWord, h]]
        simp [pbCost]
      · rw [show scanWord acc (c :: rest) = scanWord (acc ++ [c]) rest from by
          simp [scanWord, h]]
        calc (scanWord (acc ++ [c]) rest).2.2.length
              + pbCost (scanWord (acc ++ [c]) rest).2.1
            ≤ rest.length := ih (acc ++ [c])
          _ ≤ (c :: rest).length := by simp

theorem scanQuoted_len (n : Nat) :
    ∀ (s : List Char) (acc t : Tok) (s' : List Char), s.length ≤ n →
      scanQuoted acc s = .ok (t, s') → s'.length ≤ s.length := by
  induction n with
  | zero =>
      intro s acc t s' hlen h
      have : s = [] := List.length_eq_zero.mp (Nat.le_zero.mp hlen)
      subst this
      simp [scanQuoted] at h
  | succ n ih =>
      intro s acc t s' hlen h
      match s with
      | [] => simp [scanQuoted] at h
      | c :: rest =>
          by_cases hb : c = '\\'
          · subst hb
            match rest with
            | [] => simp [scanQuoted] at h
            | d :: r2 =>
                rw [scanQuoted.eq_def] at h
                simp only [] at h
                rw [if_pos trivial] at h
                have := ih r2 (acc ++ ['\\', d]) t s' (by simp at hlen; omega) h
                simp
                omega
          · by_cases hq : c = '"'
            · subst hq
              rw [scanQuoted.eq_def] at h
              simp only [] at h
              rw [if_neg (by decide), if_pos trivial] at h
              cases h
              simp
            · rw [scanQuoted.eq_def] at h
              simp only [] at h
              rw [if_neg hb, if_neg hq] at h
              have := ih rest (acc ++ [c]) t s' (by simp at hlen; omega) h
              simp
              omega

theorem scanComment_len (s : List Char) :
    ∀ (acc : Tok), (scanComment acc s).2.length ≤ s.length := by
  induction s with
  | nil => intro acc; simp [scanComment]
  | cons c rest ih =>
      intro acc
      by_cases h : c = '\n'
      · rw [show scanComment acc (c :: rest) = (acc, rest) from by
          simp [scanComment, h]]
        simp
      · rw [show scanComment acc (c :: rest) = scanComment (acc ++ [c]) rest from by
          simp [scanComment, h]]
        calc (scanComment (acc ++ [c]) rest).2.length
            ≤ rest.length := ih (acc ++ [c])
          _ ≤ (c :: rest).length := by simp

theorem lexNextNS_spec (lx : Lexer) :
    (lexNextNS lx).2.tokenPB = lx.tokenPB ∧ (lexNextNS lx).2.char = none ∧
    (lexNextNS lx).2.stream.length + pbCost (lexNextNS lx).1
      ≤ lx.stream.length + cpbCost lx.char := by
  match lx with
  | ⟨stream, none, tpb⟩ =>
      refine ⟨rfl, rfl, ?_⟩
      simpa [lexNextNS, cpbCost] using skipSpaces_len stream
  | ⟨stream, some none, tpb⟩ =>
      exact ⟨rfl, rfl, by simp [lexNextNS, pyIsSpaceP, pbCost, cpbCost]⟩
  | ⟨stream, some (some c), tpb⟩ =>
      refine ⟨?_, ?_, ?_⟩
      · simp only [lexNextNS]
        split <;> rfl
      · simp only [lexNextNS]
        split <;> rfl
      · simp only [lexNextNS, pyIsSpaceP, isEolC]
        by_cases h : pyIsSpace c = true ∧ ¬ c = '\n'
        · rw [if_pos (by simpa using h)]
          have := skipSpaces_len stream
          simp [cpbCost]
          omega
        · rw [if_neg (by simpa using h)]
          simp [pbCost, cpbCost]

theorem next_token_mu (lx : Lexer) (t : Tok) (lx' : Lexer)
    (h : next_token lx = .ok (t, lx')) :
    Lexer.mu lx' ≤ Lexer.mu lx ∧
      (tok_is_eos t = false → Lexer.mu lx' < Lexer.mu lx) := by
  match hpb : lx.tokenPB with
  | some pt =>
      simp only [next_token, hpb] at h
      cases h
      simp only [Lexer.mu, tpbCost, hpb]
      constructor
      · simp
      · intro _
        simp
  | none =>
      simp only [next_token, hpb] at h
      obtain ⟨htp, hcp, hlen⟩ := lexNextNS_spec lx
      have hmu : (lexNextNS lx).2.stream.length + pbCost (lexNextNS lx).1
          ≤ Lexer.mu lx := by
        simp only [Lexer.mu, hpb, tpbCost]
        omega
      have hmuout : ∀ st : List Char,
          Lexer.mu ⟨st, (lexNextNS lx).2.char, (lexNextNS lx).2.tokenPB⟩
            = st.length := by
        intro st
        simp [Lexer.mu, hcp, htp, hpb, cpbCost, tpbCost]
      cases hc : (lexNextNS lx).1 with
      | none =>
          rw [hc] at h
          simp only [] at h
          cases h
          have h0 : pbCost (none : PChar) = 0 := rfl
          refine ⟨?_, ?_⟩
          · have : Lexer.mu (lexNextNS lx).2 = (lexNextNS lx).2.stream.length := by
              simp [Lexer.mu, hcp, htp, hpb, cpbCost, tpbCost]
            omega
          · intro he
            simp [tok_is_eos] at he
      | some ch =>
          have hmu2 : (lexNextNS lx).2.stream.length + 1 ≤ Lexer.mu lx := by
            have h1 : pbCost (some ch) = 1 := rfl
            rw [hc] at hmu
            omega
          rw [hc] at h
          simp only [] at h
          by_cases hnl : ch = '\n'
          · rw [if_pos hnl] at h
            cases h
            have : Lexer.mu (lexNextNS lx).2 = (lexNextNS lx).2.stream.length := by
              simp [Lexer.mu, hcp, htp, hpb, cpbCost, tpbCost]
            exact ⟨by omega, fun _ => by omega⟩
          · rw [if_neg hnl] at h
            by_cases hcm : ch = '#'
            · rw [if_pos hcm] at h
              cases h
              have hsc := scanComment_len (lexNextNS lx).2.stream ['#']
              rw [hmuout]
              exact ⟨by omega, fun _ => by omega⟩
            · rw [if_neg hcm] at h
              by_cases hqu : ch = '"'
              · rw [if_pos hqu] at h
                cases hsq : scanQuoted ['"'] (lexNextNS lx).2.stream with
                | error e => rw [hsq] at h; cases h
                | ok pr =>
                    obtain ⟨tq, restq⟩ := pr
                    rw [hsq] at h
                    simp only [] at h
                    cases h
                    have hql := scanQuoted_len (lexNextNS lx).2.stream.length
                      (lexNextNS lx).2.stream ['"'] _ _ le_rfl hsq
                    rw [hmuout]
                    exact ⟨by omega, fun _ => by omega⟩
              · rw [if_neg hqu] at h
                cases h
                have hwl := scanWord_len (lexNextNS lx).2.stream [ch]
                have hout : Lexer.mu
                    ⟨(scanWord [ch] (lexNextNS lx).2.stream).2.2,
                      some (scanWord [ch] (lexNextNS lx).2.stream).2.1,
                      (lexNextNS lx).2.tokenPB⟩
                    = (scanWord [ch] (lexNextNS lx).2.stream).2.2.length
                      + pbCost (scanWord [ch] (lexNextNS lx).2.stream).2.1 := by
                  simp only [Lexer.mu, htp, hpb, tpbCost]
                  cases (scanWord [ch] (lexNextNS lx).2.stream).2.1 with
                  | none => simp [cpbCost, pbCost]
                  | some d => simp [cpbCost, pbCost]
                rw [hout]
                exact ⟨by omega, fun _ => by omega⟩

/-! ## Token classification helpers -/

theorem wfWord_class (t : Tok) (h : wfWord t = true) :
    tok_is_eol t = false ∧ tok_is_eos t = false ∧ tok_is_comment t = false := by
  match t with
  | [] => simp [wfWord] at h
  | c :: rest =>
      simp only [wfWord, Bool.and_eq_true, beq_iff_eq, Bool.not_eq_true',
        List.all_eq_true] at h
      obtain ⟨⟨⟨hc, _⟩, hch⟩, _⟩ := h
      refine ⟨?_, rfl, ?_⟩
      · simp only [tok_is_eol, Bool.or_eq_false_iff]
        constructor
        · simp only [decide_eq_false_iff_not]
          intro he
          cases he
          simp [pyIsSpace] at hc
        · rfl
      · simp only [tok_is_comment]
        simp only [List.head?_cons]
        simpa using hch

theorem wfQuoted_class (t : Tok) (h : wfQuoted t = true) :
    tok_is_eol t = false ∧ tok_is_eos t = false ∧ tok_is_comment t = false := by
  match t with
  | [] => simp [wfQuoted] at h
  | c :: rest =>
      have hc : c = '"' := by
        by_contra hcc
        rw [wfQuoted.eq_def] at h
        match c, rest with
        | '"', _ => exact hcc rfl
        | _, _ => simp_all [wfQuoted]
      subst hc
      exact ⟨by simp [tok_is_eol], rfl, by simp [tok_is_comment]⟩

theorem wfTok_class (t : Tok) (h : wfTok t = true) :
    tok_is_eol t = false ∧ tok_is_eos t = false ∧ tok_is_comment t = false := by
  rcases Bool.or_eq_true_iff.mp (by simpa [wfTok] using h) with hw | hq
  · exact wfWord_class t hw
  · exact wfQuoted_class t hq

theorem wfTok_ne_nil (t : Tok) (h : wfTok t = true) : t ≠ [] := by
  intro he
  subst he
  simp [wfTok, wfWord, wfQuoted] at h

/-! ## Fuel insensitivity of the token-level loops -/

/-! ## One-step unfolding of the fueled token loops -/

theorem next_snl_go_step (f : Nat) (lx lx' : Lexer) (t : Tok)
    (h : next_token lx = .ok (t, lx')) :
    next_snl_go (f + 1) lx
      = if tok_is_eol t = true ∧ ¬ tok_is_eos t = true then next_snl_go f lx'
        else .ok (t, lx') := by
  conv_lhs => rw [next_snl_go]
  rw [h]

theorem params_go_step (f : Nat) (lx lx' : Lexer) (acc : List Tok) (t : Tok)
    (h : next_token lx = .ok (t, lx')) :
    next_parameters_go (f + 1) lx acc
      = if tok_is_eol t = true then .ok (acc, lx')
        else if tok_is_comment t = true then
          .error (.syntaxError .unexpectedComment)
        else next_parameters_go f lx' (acc ++ [t]) := by
  conv_lhs => rw [next_parameters_go]
  rw [h]

theorem next_snl_go_congr (f : Nat) (lx1 lx2 : Lexer)
    (h : next_token lx1 = next_token lx2) :
    next_snl_go (f + 1) lx1 = next_snl_go (f + 1) lx2 := by
  simp only [next_snl_go, h]

theorem next_snl_go_eq (f : Nat) :
    ∀ (g : Nat) (lx : Lexer), Lexer.mu lx < f → Lexer.mu lx < g →
      next_snl_go f lx = next_snl_go g lx := by
  induction f with
  | zero => intro g lx h _; exact absurd h (Nat.not_lt_zero _)
  | succ f ih =>
      intro g lx hf hg
      match g with
      | 0 => exact absurd hg (Nat.not_lt_zero _)
      | g + 1 =>
          simp only [next_snl_go]
          cases hnt : next_token lx with
          | error e => rfl
          | ok pr =>
              obtain ⟨t, lx'⟩ := pr
              simp only []
              by_cases hcond : tok_is_eol t = true ∧ ¬ tok_is_eos t = true
              · rw [if_pos hcond, if_pos hcond]
                have hmu := next_token_mu lx t lx' hnt
                have hlt : Lexer.mu lx' < Lexer.mu lx :=
                  hmu.2 (by simpa using hcond.2)
                exact ih g lx' (by omega) (by omega)
              · rw [if_neg hcond, if_neg hcond]

theorem params_go_congr (f : Nat) (lx1 lx2 : Lexer) (acc : List Tok)
    (h : next_token lx1 = next_token lx2) :
    next_parameters_go (f + 1) lx1 acc = next_parameters_go (f + 1) lx2 acc := by
  simp only [next_parameters_go, h]

theorem params_go_eq (f : Nat) :
    ∀ (g : Nat) (lx : Lexer) (acc : List Tok),
      Lexer.mu lx < f → Lexer.mu lx < g →
      next_parameters_go f lx acc = next_parameters_go g lx acc := by
  induction f with
  | zero => intro g lx acc h _; exact absurd h (Nat.not_lt_zero _)
  | succ f ih =>
      intro g lx acc hf hg
      match g with
      | 0 => exact absurd hg (Nat.not_lt_zero _)
      | g + 1 =>
          simp only [next_parameters_go]
          cases hnt : next_token lx with
          | error e => rfl
          | ok pr =>
              obtain ⟨t, lx'⟩ := pr
              simp only []
              by_cases he : tok_is_eol t = true
              · rw [if_pos he, if_pos he]
              · rw [if_neg he, if_neg he]
                by_cases hcm : tok_is_comment t = true
                · rw [if_pos hcm, if_pos hcm]
                · rw [if_neg hcm, if_neg hcm]
                  have hmu := next_token_mu lx t lx' hnt
                  have hne : tok_is_eos t = false := by
                    simp only [tok_is_eos]
                    cases hemp : List.isEmpty t
                    · rfl
                    · exact absurd (by simp [tok_is_eol, hemp]) he
                  have hlt : Lexer.mu lx' < Lexer.mu lx := hmu.2 hne
                  exact ih g lx' (acc ++ [t]) (by omega) (by omega)

/-! ## Wrapper-level lexer lemmas -/

theorem next_snl_token_pb (b : Bool) (d : Char) (s : List Char) :
    next_snl_token b ⟨s, some (some d), none⟩
      = next_snl_token b ⟨d :: s, none, none⟩ := by
  have hmu : Lexer.mu ⟨s, some (some d), none⟩
      = Lexer.mu ⟨d :: s, none, none⟩ := by
    simp [Lexer.mu, cpbCost, tpbCost]
  simp only [next_snl_token, hmu]
  rw [next_snl_go_congr _ _ _ (next_token_pbchar s d)]

theorem next_snl_token_space (b : Bool) (s : List Char) :
    next_snl_token b ⟨' ' :: s, none, none⟩
      = next_snl_token b ⟨s, none, none⟩ := by
  have hm : Lexer.mu ⟨' ' :: s, none, none⟩ = Lexer.mu ⟨s, none, none⟩ + 1 := by
    simp [Lexer.mu, cpbCost, tpbCost]
  simp only [next_snl_token]
  rw [next_snl_go_congr _ _ _ (next_token_space s)]
  rw [next_snl_go_eq (Lexer.mu ⟨' ' :: s, none, none⟩ + 1)
    (Lexer.mu ⟨s, none, none⟩ + 1) ⟨s, none, none⟩ (by omega) (by omega)]

theorem next_snl_token_nl (b : Bool) (s : List Char) :
    next_snl_token b ⟨'\n' :: s, none, none⟩
      = next_snl_token b ⟨s, none, none⟩ := by
  simp only [next_snl_token]
  rw [show Lexer.mu ⟨'\n' :: s, none, none⟩ + 1
      = (Lexer.mu ⟨s, none, none⟩ + 1) + 1 from by
    simp [Lexer.mu, cpbCost, tpbCost]]
  rw [show next_snl_go ((Lexer.mu ⟨s, none, none⟩ + 1) + 1)
        ⟨'\n' :: s, none, none⟩
      = next_snl_go (Lexer.mu ⟨s, none, none⟩ + 1) ⟨s, none, none⟩ from by
    simp only [next_snl_go, next_token_nl]
    rw [if_pos (by simp [tok_is_eol, tok_is_eos])]]

theorem next_snl_token_wsrun (b : Bool) (ws : List Char) :
    ∀ (s : List Char), (∀ c ∈ ws, c = ' ' ∨ c = '\n') →
      next_snl_token b ⟨ws ++ s, none, none⟩
        = next_snl_token b ⟨s, none, none⟩ := by
  induction ws with
  | nil => intro s _; rfl
  | cons c rest ih =>
      intro s hws
      rcases hws c (by simp) with hc | hc
      · subst hc
        rw [List.cons_append, next_snl_token_space,
          ih s (fun x hx => hws x (by simp [hx]))]
      · subst hc
        rw [List.cons_append, next_snl_token_nl,
          ih s (fun x hx => hws x (by simp [hx]))]

theorem next_snl_token_word (b : Bool) (t : Tok) (d : Char) (s : List Char)
    (ht : wfWord t = true) (hd : pyIsSpace d = true) :
    next_snl_token b ⟨t ++ d :: s, none, none⟩
      = .ok (t, ⟨s, some (some d), none⟩) := by
  obtain ⟨heol, heos, _⟩ := wfWord_class t ht
  simp only [next_snl_token]
  rw [show Lexer.mu ⟨t ++ d :: s, none, none⟩ + 1
      = Lexer.mu ⟨t ++ d :: s, none, none⟩ + 1 from rfl]
  rw [show next_snl_go (Lexer.mu ⟨t ++ d :: s, none, none⟩ + 1)
        ⟨t ++ d :: s, none, none⟩
      = .ok (t, ⟨s, some (some d), none⟩) from by
    simp only [next_snl_go, next_token_word t d s ht hd]
    rw [if_neg (by simp [heol])]]
  simp [heos]

theorem next_snl_token_quoted (b : Bool) (t : Tok) (s : List Char)
    (ht : wfQuoted t = true) :
    next_snl_token b ⟨t ++ s, none, none⟩ = .ok (t, ⟨s, none, none⟩) := by
  obtain ⟨heol, heos, _⟩ := wfQuoted_class t ht
  simp only [next_snl_token]
  rw [show next_snl_go (Lexer.mu ⟨t ++ s, none, none⟩ + 1) ⟨t ++ s, none, none⟩
      = .ok (t, ⟨s, none, none⟩) from by
    simp only [next_snl_go, next_token_quoted t s ht]
    rw [if_neg (by simp [heol])]]
  simp [heos]

/-! ## `next_parameters` on a rendered parameter line -/

theorem joinSp_cons (t : Tok) (ts : List Tok) (h : ts ≠ []) :
    joinSp (t :: ts) = t ++ ' ' :: joinSp ts := by
  match ts with
  | [] => exact absurd rfl h
  | t' :: ts' => rfl

theorem joinSp_len (ts : List Tok) (h : ∀ t ∈ ts, t ≠ []) :
    ts.length ≤ (joinSp ts).length := by
  match ts with
  | [] => simp
  | [t] =>
      have ht : t ≠ [] := h t (by simp)
      match t, ht with
      | c :: cs, _ => simp [joinSp]
  | t :: t' :: ts' =>
      have ht : t ≠ [] := h t (by simp)
      have ih := joinSp_len (t' :: ts') (fun x hx => h x (by simp at hx ⊢; tauto))
      rw [joinSp_cons t (t' :: ts') (by simp)]
      simp at ih ⊢
      have : 1 ≤ t.length := by
        match t, ht with
        | c :: cs, _ => simp
      omega

theorem next_parameters_space (s : List Char) :
    next_parameters ⟨' ' :: s, none, none⟩ = next_parameters ⟨s, none, none⟩ := by
  have hm : Lexer.mu ⟨' ' :: s, none, none⟩ = Lexer.mu ⟨s, none, none⟩ + 1 := by
    simp [Lexer.mu, cpbCost, tpbCost]
  simp only [next_parameters]
  rw [params_go_congr _ _ _ _ (next_token_space s)]
  rw [params_go_eq (Lexer.mu ⟨' ' :: s, none, none⟩ + 1)
    (Lexer.mu ⟨s, none, none⟩ + 1) ⟨s, none, none⟩ [] (by omega) (by omega)]

theorem next_parameters_pb (d : Char) (s : List Char) :
    next_parameters ⟨s, some (some d), none⟩
      = next_parameters ⟨d :: s, none, none⟩ := by
  have hm : Lexer.mu ⟨s, some (some d), none⟩
      = Lexer.mu ⟨d :: s, none, none⟩ := by
    simp [Lexer.mu, cpbCost, tpbCost]
  simp only [next_parameters, hm]
  rw [params_go_congr _ _ _ _ (next_token_pbchar s d)]

theorem params_go_join (ts : List Tok) :
    ∀ (f : Nat) (acc : List Tok) (s : List Char),
      ts ≠ [] → (∀ t ∈ ts, wfTok t = true) → ts.length + 1 ≤ f →
      next_parameters_go f ⟨joinSp ts ++ '\n' :: s, none, none⟩ acc
        = .ok (acc ++ ts, ⟨s, none, none⟩) := by
  match ts with
  | [] => intro f acc s h; exact absurd rfl h
  | [t] =>
      intro f acc s _ hwf hf
      have ht : wfTok t = true := hwf t (by simp)
      obtain ⟨heol, heos, hcm⟩ := wfTok_class t ht
      match f, hf with
      | f + 2, _ =>
          rw [show joinSp [t] = t from rfl]
          rcases Bool.or_eq_true_iff.mp (by simpa [wfTok] using ht) with hw | hq
          · rw [params_go_step (f + 1) _ _ acc t
              (next_token_word t '\n' s hw (by simp [pyIsSpace]))]
            rw [if_neg (by simp [heol]), if_neg (by simp [hcm])]
            rw [params_go_step f _ _ (acc ++ [t]) ['\n']
              (by rw [next_token_pbchar, next_token_nl])]
            rw [if_pos (by simp [tok_is_eol])]
          · rw [show t ++ '\n' :: s = t ++ ('\n' :: s) from rfl]
            rw [params_go_step (f + 1) _ _ acc t (next_token_quoted t ('\n' :: s) hq)]
            rw [if_neg (by simp [heol]), if_neg (by simp [hcm])]
            rw [params_go_step f _ _ (acc ++ [t]) ['\n'] (next_token_nl s)]
            rw [if_pos (by simp [tok_is_eol])]
  | t :: t' :: ts' =>
      intro f acc s _ hwf hf
      have ht : wfTok t = true := hwf t (by simp)
      obtain ⟨heol, heos, hcm⟩ := wfTok_class t ht
      have hwf' : ∀ x ∈ t' :: ts', wfTok x = true :=
        fun x hx => hwf x (by simp at hx ⊢; tauto)
      match f, hf with
      | f + 1, hf1 =>
          have hff : (t' :: ts').length + 1 ≤ f := by
            simp at hf1 ⊢
            omega
          rw [joinSp_cons t (t' :: ts') (by simp)]
          match f, hff with
          | f2 + 1, hff1 =>
              rcases Bool.or_eq_true_iff.mp (by simpa [wfTok] using ht) with hw | hq
              · rw [show (t ++ ' ' :: joinSp (t' :: ts')) ++ '\n' :: s
                    = t ++ ' ' :: (joinSp (t' :: ts') ++ '\n' :: s) from by simp]
                rw [params_go_step (f2 + 1) _ _ acc t
                  (next_token_word t ' ' (joinSp (t' :: ts') ++ '\n' :: s) hw
                    (by simp [pyIsSpace]))]
                rw [if_neg (by simp [heol]), if_neg (by simp [hcm])]
                rw [params_go_congr f2 _ _ _
                  (next_token_pbchar (joinSp (t' :: ts') ++ '\n' :: s) ' ')]
                rw [params_go_congr f2 _ _ _
                  (next_token_space (joinSp (t' :: ts') ++ '\n' :: s))]
                rw [params_go_join (t' :: ts') (f2 + 1) (acc ++ [t]) s
                  (by simp) hwf' hff1]
                simp
              · rw [show (t ++ ' ' :: joinSp (t' :: ts')) ++ '\n' :: s
                    = t ++ (' ' :: (joinSp (t' :: ts') ++ '\n' :: s)) from by simp]
                rw [params_go_step (f2 + 1) _ _ acc t
                  (next_token_quoted t (' ' :: (joinSp (t' :: ts') ++ '\n' :: s)) hq)]
                rw [if_neg (by simp [heol]), if_neg (by simp [hcm])]
                rw [params_go_congr f2 _ _ _
                  (next_token_space (joinSp (t' :: ts') ++ '\n' :: s))]
                rw [params_go_join (t' :: ts') (f2 + 1) (acc ++ [t]) s
                  (by simp) hwf' hff1]
                simp

theorem next_parameters_join (ts : List Tok) (s : List Char)
    (hne : ts ≠ []) (hwf : ∀ t ∈ ts, wfTok t = true) :
    next_parameters ⟨joinSp ts ++ '\n' :: s, none, none⟩
      = .ok (ts, ⟨s, none, none⟩) := by
  have hlen : ts.length ≤ (joinSp ts).length :=
    joinSp_len ts (fun t ht => wfTok_ne_nil t (hwf t ht))
  have hmu : (joinSp ts).length + s.length + 1
      = Lexer.mu ⟨joinSp ts ++ '\n' :: s, none, none⟩ := by
    simp [Lexer.mu, cpbCost, tpbCost]
    omega
  have := params_go_join ts (Lexer.mu ⟨joinSp ts ++ '\n' :: s, none, none⟩ + 1)
    [] s hne hwf (by omega)
  simpa [next_parameters] using this

/-- The parameter line as read right after a keyword word: the separating
space is in the character pushback. -/
theorem next_parameters_line (ts : List Tok) (s : List Char)
    (hne : ts ≠ []) (hwf : ∀ t ∈ ts, wfTok t = true) :
    next_parameters ⟨joinSp ts ++ '\n' :: s, some (some ' '), none⟩
      = .ok (ts, ⟨s, none, none⟩) := by
  rw [next_parameters_pb, next_parameters_space,
    next_parameters_join ts s hne hwf]

/-! ## Helper lemmas about the top-level parse result -/

theorem make_ok {cs : List Tok} {r : Entries} {vd : List (Tok × Entries)}
    {C : FgtConfig} (h : FgtConfig.make cs r vd = .ok C) :
    C.root.all (fun kv => isBody kv.2) = true ∧ C = ⟨cs, r, vd⟩ := by
  unfold FgtConfig.make at h
  split at h
  · rename_i hall
    cases h
    exact ⟨hall, rfl⟩
  · cases h

theorem parse_ok_make {D : Tok} {C : FgtConfig} (h : parse D = .ok C) :
    ∃ cs r vd, FgtConfig.make cs r vd = .ok C := by
  simp only [parse] at h
  split at h
  · cases h
  · split at h
    · cases h
    · split at h
      · cases h
      · split at h
        · cases h
        · exact ⟨_, _, _, h⟩

/-! ## Comments defaulting -/

theorem config_version_fields_skip (cs : List Tok) (init : List Tok)
    (h : ∀ c ∈ cs, config_version_tag.isPrefixOf c = false) :
    cs.foldl
      (fun version comment =>
        if config_version_tag.isPrefixOf comment then
          pySplit ':' (comment.drop config_version_tag.length)
        else version) init = init := by
  induction cs generalizing init with
  | nil => rfl
  | cons c rest ih =>
      simp only [List.foldl_cons]
      rw [if_neg (by simp [h c (by simp)])]
      exact ih init (fun d hd => h d (by simp [hd]))

theorem config_version_fields_default (cs : List Tok)
    (h : ∀ c ∈ cs, config_version_tag.isPrefixOf c = false) :
    config_version_fields cs = [strT "?-?"] :=
  config_version_fields_skip cs [strT "?-?"] h

/-! ## Quoting symmetry (`uqs`, `qus`) -/

theorem pyReplace1_append (p : Char) (r : List Char) (a b : List Char) :
    pyReplace1 p r (a ++ b) = pyReplace1 p r a ++ pyReplace1 p r b := by
  induction a with
  | nil => simp [pyReplace1]
  | cons c rest ih => by_cases h : c = p <;> simp [pyReplace1, h, ih]

theorem qus_escF (x : Tok) :
    pyReplace1 '"' ['\\', '"'] (pyReplace1 '\\' ['\\', '\\'] x) = escF x := by
  induction x with
  | nil => rfl
  | cons c rest ih =>
      by_cases hb : c = '\\'
      · simp [pyReplace1, escF, hb, pyReplace1_append, ih]
      · by_cases hq : c = '"' <;> simp [pyReplace1, escF, hb, hq, ih]

@[simp] theorem pyReplace2_nil (p q r : Char) : pyReplace2 p q r [] = [] := by
  simp [pyReplace2]

@[simp] theorem pyReplace2_one (p q r c : Char) : pyReplace2 p q r [c] = [c] := by
  simp [pyReplace2]

theorem pyReplace2_hit (p q r : Char) (rest : List Char) :
    pyReplace2 p q r (p :: q :: rest) = r :: pyReplace2 p q r rest := by
  simp [pyReplace2]

theorem pyReplace2_miss (p q r c1 c2 : Char) (rest : List Char)
    (h : ¬(c1 = p ∧ c2 = q)) :
    pyReplace2 p q r (c1 :: c2 :: rest) = c1 :: pyReplace2 p q r (c2 :: rest) := by
  simp [pyReplace2, h]

/-- `pyReplace2` passes over a head character that cannot start a match. -/
theorem pyReplace2_skip (p q r c : Char) (t : List Char) (h : c ≠ p) :
    pyReplace2 p q r (c :: t) = c :: pyReplace2 p q r t := by
  cases t with
  | nil => simp
  | cons d rest => exact pyReplace2_miss p q r c d rest (by simp [h])

theorem escF_cons_b (xs : List Char) : escF ('\\' :: xs) = '\\' :: '\\' :: escF xs := by
  simp [escF]

theorem escF_cons_q (xs : List Char) : escF ('"' :: xs) = '\\' :: '"' :: escF xs := by
  simp [escF]

theorem escF_cons_o (c : Char) (xs : List Char) (hb : c ≠ '\\') (hq : c ≠ '"') :
    escF (c :: xs) = c :: escF xs := by
  simp [escF, hb, hq]

theorem gF_cons_b (y : Char) (ys : List Char) :
    gF ('\\' :: y :: ys) = '\\' :: '\\' :: gF (y :: ys) := by
  simp [gF]

theorem gF_cons_o (c : Char) (xs : List Char) (hb : c ≠ '\\') :
    gF (c :: xs) = c :: gF xs := by
  simp [gF, hb]

theorem repQ_escF (x : Tok) :
    pyReplace2 '\\' '"' '"' (escF x ++ ['"']) = gF x := by
  induction x with
  | nil => rfl
  | cons c xs ih =>
      by_cases hb : c = '\\'
      · subst hb
        cases xs with
        | nil => rfl
        | cons y ys =>
            rw [gF_cons_b, escF_cons_b]
            have hhead : ∃ d rest, escF (y :: ys) ++ ['"'] = d :: rest ∧ d ≠ '"' := by
              by_cases hyb : y = '\\'
              · exact ⟨'\\', '\\' :: (escF ys ++ ['"']), by simp [hyb, escF_cons_b],
                  by decide⟩
              · by_cases hyq : y = '"'
                · exact ⟨'\\', '"' :: (escF ys ++ ['"']), by simp [hyq, escF_cons_q],
                    by decide⟩
                · exact ⟨y, escF ys ++ ['"'], by simp [escF_cons_o y ys hyb hyq], hyq⟩
            obtain ⟨d, rest, hdr, hdq⟩ := hhead
            have step : ('\\' :: '\\' :: escF (y :: ys)) ++ ['"'] =
                '\\' :: '\\' :: (d :: rest) := by
              simp [hdr]
            rw [step,
              pyReplace2_miss _ _ _ _ _ _ (by simp),
              pyReplace2_miss _ _ _ _ _ _ (by simp [hdq]),
              ← hdr, ih]
      · by_cases hq : c = '"'
        · subst hq
          rw [escF_cons_q]
          have step : ('\\' :: '"' :: escF xs) ++ ['"'] =
              '\\' :: '"' :: (escF xs ++ ['"']) := by simp
          rw [step, pyReplace2_hit, ih]
          simp [gF]
        · rw [escF_cons_o c xs hb hq]
          have step : (c :: escF xs) ++ ['"'] = c :: (escF xs ++ ['"']) := by simp
          rw [step, pyReplace2_skip _ _ _ _ _ hb, ih, gF_cons_o c xs hb]

theorem repB_gF (x : Tok) :
    pyReplace2 '\\' '\\' '\\' (gF x) = x ++ ['"'] := by
  induction x with
  | nil => rfl
  | cons c xs ih =>
      by_cases hb : c = '\\'
      · subst hb
        cases xs with
        | nil => rfl
        | cons y ys => rw [gF_cons_b, pyReplace2_hit, ih]; rfl
      · rw [gF_cons_o c xs hb, pyReplace2_skip _ _ _ _ _ hb, ih]; rfl

/-- `uqs` inverts `qus` exactly. -/
theorem uqs_qus (x : Tok) : uqs (qus x) = x := by
  have hq : qus x = '"' :: (escF x ++ ['"']) := by
    simp [qus, qus_escF]
  have hlen : ¬(qus x).length < 2 := by
    rw [hq]; simp
  have hhead : (qus x).head? = some '"' := by rw [hq]; rfl
  have hlast : (qus x).getLast? = some '"' := by
    rw [hq, show ('"' :: (escF x ++ ['"'])) = ('"' :: escF x) ++ ['"'] from by simp]
    exact List.getLast?_concat _
  rw [uqs, if_neg hlen, if_neg (by simp [hhead, hlast])]
  rw [hq, pyReplace2_skip _ _ _ _ _ (by decide), repQ_escF,
    pyReplace2_skip _ _ _ _ _ (by decide), repB_gF]
  simp

/-- `uqs` is the identity on any string not wrapped in matching quotes. -/
theorem uqs_id (t : Tok)
    (h : t.length < 2 ∨ t.head? ≠ some '"' ∨ t.getLast? ≠ some '"') :
    uqs t = t := by
  rw [uqs]
  rcases h with h | h
  · rw [if_pos h]
  · by_cases hl : t.length < 2
    · rw [if_pos hl]
    · rw [if_neg hl, if_pos h]

/-! ## Claim theorems (first group) -/

/-- C5: for every string in the image of `qus`, `qus (uqs s) = s`
(equivalently, `qus (uqs (qus x)) = qus x` for all `x`); and `uqs` is the
identity on every string not wrapped in matching double quotes (length
less than 2, or first or last character not a double quote). -/
theorem C5_quoting_symmetry (x t : Tok)
    (h : t.length < 2 ∨ t.head? ≠ some '"' ∨ t.getLast? ≠ some '"') :
    qus (uqs (qus x)) = qus x ∧ uqs t = t :=
  ⟨by rw [uqs_qus], uqs_id t h⟩

theorem C5_quoting_symmetry_witness :
    ((strT "ab").length < 2 ∨ (strT "ab").head? ≠ some '"' ∨
      (strT "ab").getLast? ≠ some '"') ∧
    (qus (uqs (qus (strT "a\"b\\"))) = qus (strT "a\"b\\") ∧
      uqs (strT "ab") = strT "ab") :=
  ⟨by decide, C5_quoting_symmetry (strT "a\"b\\") (strT "ab") (by decide)⟩

/-- C8: depth-first traversal fires the visitor on entry of a mapping node
before its children, visits the children in insertion order, and fires the
visitor on exit after all children; `set`/`unset` leaves fire the callback
exactly once (entry, never an exit).  On `config a` containing `config b`
followed by the sibling `config c`, the recorded events are exactly
enter a, enter b, exit b, enter c, exit c, exit a; in particular the
entered keys are `["a", "b", "c"]` and the exit of `b` precedes the entry
of `c`. -/
theorem C8_traversal_order :
    (∀ (σ : Type) (fn : Bool → Item → Stack → σ → σ) (ps : List Tok)
        (key : Tok) (parents : Stack) (s : σ),
      FgtConfigNode.traverse fn (.set ps) key parents s
        = fn true (key, .set ps) parents s) ∧
    (∀ (σ : Type) (fn : Bool → Item → Stack → σ → σ) (key : Tok)
        (parents : Stack) (s : σ),
      FgtConfigNode.traverse fn .unset key parents s
        = fn true (key, .unset) parents s) ∧
    (∀ (σ : Type) (fn : Bool → Item → Stack → σ → σ) (es : Entries)
        (key : Tok) (parents : Stack) (s : σ),
      FgtConfigNode.traverse fn (.object es) key parents s
        = fn false (key, .object es) parents
            (travList fn es ((key, .object es) :: parents)
              (fn true (key, .object es) parents s))) ∧
    (∀ (σ : Type) (fn : Bool → Item → Stack → σ → σ) (k : Tok)
        (v : FgtConfigNode) (rest : Entries) (parents : Stack) (s : σ),
      travList fn ((k, v) :: rest) parents s
        = travList fn rest parents (FgtConfigNode.traverse fn v k parents s)) ∧
    traverseEvents (.object [(strT "b", .object []), (strT "c", .object [])])
        (strT "a")
      = [(true, strT "a"), (true, strT "b"), (false, strT "b"),
         (true, strT "c"), (false, strT "c"), (false, strT "a")] ∧
    ((traverseEvents (.object [(strT "b", .object []), (strT "c", .object [])])
        (strT "a")).filter (fun e => e.1)).map (fun e => e.2)
      = [strT "a", strT "b", strT "c"] :=
  ⟨fun _ _ _ _ _ _ => rfl, fun _ _ _ _ _ => rfl, fun _ _ _ _ _ _ => rfl,
   fun _ _ _ _ _ _ _ => rfl, by decide, by decide⟩

/-- C6 counterexample: the claim asserts that an unterminated quoted
string raises the end-of-stream subtype `FgtConfigEosError`; the code
raises the base `FgtConfigSyntaxError` (message `unbalanced quote`),
which is not of the end-of-stream subtype. -/
theorem C6_counterexample :
    next_token ⟨strT "\"abc", none, none⟩
      = .error (.syntaxError .unbalancedQuote) ∧
    (FgtError.syntaxError .unbalancedQuote).isEosError = false :=
  ⟨rfl, rfl⟩

/-- C6 (amended): when the stream ends inside a quoted string,
`Lexer.next_token` raises the base `FgtConfigSyntaxError` of kind
`unbalanced quote` (not the `FgtConfigEosError` subtype), and when the
escape character is the last character before end of stream it raises the
base `FgtConfigSyntaxError` of kind `escape error`. -/
theorem C6_eos_in_quoted_string (s1 s2 : List Char)
    (h1 : unterminated s1 = true) (h2 : endsInEscape s2 = true) :
    next_token ⟨'"' :: s1, none, none⟩ = .error (.syntaxError .unbalancedQuote) ∧
    (FgtError.syntaxError .unbalancedQuote).isSyntaxError = true ∧
    (FgtError.syntaxError .unbalancedQuote).isEosError = false ∧
    next_token ⟨'"' :: s2, none, none⟩ = .error (.syntaxError .escapeError) ∧
    (FgtError.syntaxError .escapeError).isSyntaxError = true ∧
    (FgtError.syntaxError .escapeError).isEosError = false := by
  refine ⟨?_, rfl, rfl, ?_, rfl, rfl⟩
  · rw [next_token_quote, scanQuoted_unterm s1.length s1 ['"'] le_rfl h1]
  · rw [next_token_quote, scanQuoted_escape s2.length s2 ['"'] le_rfl h2]

theorem C6_eos_in_quoted_string_witness :
    unterminated (strT "abc") = true ∧ endsInEscape (strT "ab\\") = true ∧
    (next_token ⟨'"' :: strT "abc", none, none⟩
        = .error (.syntaxError .unbalancedQuote) ∧
      (FgtError.syntaxError .unbalancedQuote).isSyntaxError = true ∧
      (FgtError.syntaxError .unbalancedQuote).isEosError = false ∧
      next_token ⟨'"' :: strT "ab\\", none, none⟩
        = .error (.syntaxError .escapeError) ∧
      (FgtError.syntaxError .escapeError).isSyntaxError = true ∧
      (FgtError.syntaxError .escapeError).isEosError = false) :=
  ⟨by decide, by decide,
   C6_eos_in_quoted_string (strT "abc") (strT "ab\\") (by decide) (by decide)⟩

/-- C7: the claim (and the docstring of `FgtConfigTable.__getitem__`, as
well as the dead `except KeyError` of `c_entry`) promise a `KeyError` for
an absent key without default and the default verbatim otherwise.  The
code instead uses `dict.get`: evaluated at the failing inputs, an absent
key yields `None` from every accessor — no `KeyError` is ever raised —
and `FgtConfigTable.c_entry` returns `None` even when a default is
supplied.  The typed object accessors and `param` do return a supplied
default. -/
theorem C7_absent_key_behaviour :
    c_table [] (strT "k") (some (.table [])) = .ok (some (.table [])) ∧
    c_table [] (strT "k") none = .ok none ∧
    c_object [] (strT "k") (some (.object [])) = .ok (some (.object [])) ∧
    c_object [] (strT "k") none = .ok none ∧
    c_set [] (strT "k") (some (.set [strT "v"])) = .ok (some (.set [strT "v"])) ∧
    c_set [] (strT "k") none = .ok none ∧
    param [] (strT "k") (some (strT "d")) = .ok (.vstr (strT "d")) ∧
    param [] (strT "k") none = .ok .vnone ∧
    table_getitem [(strT "\"opt1\"", .object [])] (.inr (strT "missing"))
      = .ok none ∧
    c_entry [(strT "\"opt1\"", .object [])] (.inr (strT "missing"))
        (some (.object [(strT "d", .unset)]))
      = .ok none :=
  ⟨rfl, rfl, rfl, rfl, rfl, rfl, rfl, rfl, rfl, rfl⟩

/-- C4 counterexample: for the table parsed from `edit "opt1"`, the claim
asserts that looking up the raw quoted token returns the same object as
the bare string; the code quotes string keys before matching, so the raw
quoted token finds nothing (`None`) while the bare string finds the
entry. -/
theorem C4_counterexample :
    parse (strT "config t\nedit \"opt1\"\nnext\nend")
      = .ok ⟨[], [(strT "t", .table [(strT "\"opt1\"", .object [])])], []⟩ ∧
    table_getitem [(strT "\"opt1\"", .object [])] (.inr (strT "opt1"))
      = .ok (some (.object [])) ∧
    table_getitem [(strT "\"opt1\"", .object [])] (.inr (strT "\"opt1\""))
      = .ok none ∧
    (Except.ok (some (FgtConfigNode.object []))
        : Except FgtError (Option FgtConfigNode)) ≠ .ok none := by
  refine ⟨rfl, rfl, rfl, ?_⟩
  intro h
  simp at h

/-- C4 (amended): for a table entry created by parsing `edit "opt1"`,
lookup by the bare string returns the entry (string keys are quoted with
`qus` before matching) and lookup by the raw quoted token returns `None`;
an integer key is converted to its decimal string form and matched
against the raw token, so it resolves entries created with unquoted
numeric keys (`edit 1`), which the equivalent string key does not
resolve. -/
theorem C4_table_key_lookup :
    parse (strT "config t\nedit \"opt1\"\nnext\nend")
      = .ok ⟨[], [(strT "t", .table [(strT "\"opt1\"", .object [])])], []⟩ ∧
    table_getitem [(strT "\"opt1\"", .object [])] (.inr (strT "opt1"))
      = .ok (some (.object [])) ∧
    c_entry [(strT "\"opt1\"", .object [])] (.inr (strT "opt1")) none
      = .ok (some (.object [])) ∧
    table_getitem [(strT "\"opt1\"", .object [])] (.inr (strT "\"opt1\""))
      = .ok none ∧
    parse (strT "config t\nedit 1\nnext\nend")
      = .ok ⟨[], [(strT "t", .table [(strT "1", .object [])])], []⟩ ∧
    table_getitem [(strT "1", .object [])] (.inl 1) = .ok (some (.object [])) ∧
    table_getitem [(strT "1", .object [])] (.inr (strT "1")) = .ok none ∧
    (∀ (es : Entries) (s : Tok), dictGet es (qus s) = none →
      table_getitem es (.inr s) = .ok none) ∧
    (∀ (es : Entries) (n : Nat), dictGet es (natToTok n) = none →
      table_getitem es (.inl n) = .ok none) := by
  refine ⟨rfl, rfl, rfl, rfl, rfl, rfl, rfl, ?_, ?_⟩
  · intro es s h
    simp only [table_getitem]
    rw [h]
  · intro es n h
    simp only [table_getitem]
    rw [h]

/-- C9: every value held directly under a parsed configuration root is an
object or a table: the `FgtConfig` constructor raises `ValueError` for a
root dictionary holding a value of another variant, and every
successfully parsed configuration passes that check. -/
theorem C9_root_invariant (cs : List Tok) (root : Entries)
    (vd : List (Tok × Entries)) (k : Tok) (v : FgtConfigNode)
    (hmem : (k, v) ∈ root) (hv : isBody v = false)
    (D : Tok) (C : FgtConfig) (hp : parse D = .ok C) :
    FgtConfig.make cs root vd = .error .valueError ∧
    ∀ kv ∈ C.root, isBody kv.2 = true := by
  constructor
  · unfold FgtConfig.make
    rw [if_neg]
    intro hall
    have := (List.all_eq_true.mp hall) (k, v) hmem
    simp [hv] at this
  · intro kv hkv
    obtain ⟨cs', r', vd', hmk⟩ := parse_ok_make hp
    have ⟨hall, _⟩ := make_ok hmk
    exact List.all_eq_true.mp hall kv hkv

theorem C9_root_invariant_witness :
    ((strT "x", FgtConfigNode.unset) ∈
        ([(strT "x", FgtConfigNode.unset)] : Entries)) ∧
    isBody FgtConfigNode.unset = false ∧
    parse (strT "config a\nend")
      = .ok ⟨[], [(strT "a", FgtConfigNode.object [])], []⟩ ∧
    (FgtConfig.make [] [(strT "x", FgtConfigNode.unset)] []
        = .error .valueError ∧
      ∀ kv ∈ (FgtConfig.mk [] [(strT "a", FgtConfigNode.object [])] []).root,
        isBody kv.2 = true) :=
  ⟨by simp, rfl, rfl,
   C9_root_invariant [] [(strT "x", FgtConfigNode.unset)] []
     (strT "x") FgtConfigNode.unset (by simp) rfl
     (strT "config a\nend") ⟨[], [(strT "a", FgtConfigNode.object [])], []⟩ rfl⟩

/-- C10: with no `#config-version=` comment, `version` and `model` both
return `"?"`; when the selected first `:`-field of such a comment has no
hyphen, both raise `ValueError` (Python `str.index`), and since `parse`
evaluates `comments.version` while building the roots, the `ValueError`
propagates out of `parse` for an otherwise syntactically valid
document. -/
theorem C10_version_model (cs cs2 : List Tok)
    (h : ∀ c ∈ cs, config_version_tag.isPrefixOf c = false)
    (h2 : pyIndex '-' ((config_version_fields cs2).headD []) = .error .valueError) :
    comments_version cs = .ok (strT "?") ∧
    comments_model cs = .ok (strT "?") ∧
    comments_version cs2 = .error .valueError ∧
    comments_model cs2 = .error .valueError ∧
    parse (strT "#config-version=XYZ:opmode=0\nconfig a\nend")
      = .error .valueError := by
  have hd := config_version_fields_default cs h
  refine ⟨?_, ?_, ?_, ?_, rfl⟩
  · rw [comments_version, hd]; rfl
  · rw [comments_model, hd]; rfl
  · rw [comments_version, h2]
  · rw [comments_model, h2]

theorem C10_version_model_witness :
    (∀ c ∈ [strT "# a comment"], config_version_tag.isPrefixOf c = false) ∧
    pyIndex '-'
        ((config_version_fields [strT "#config-version=XYZ:opmode=0"]).headD [])
      = .error .valueError ∧
    (comments_version [strT "# a comment"] = .ok (strT "?") ∧
      comments_model [strT "# a comment"] = .ok (strT "?") ∧
      comments_version [strT "#config-version=XYZ:opmode=0"]
        = .error .valueError ∧
      comments_model [strT "#config-version=XYZ:opmode=0"]
        = .error .valueError ∧
      parse (strT "#config-version=XYZ:opmode=0\nconfig a\nend")
        = .error .valueError) :=
  ⟨by decide, rfl,
   C10_version_model [strT "# a comment"] [strT "#config-version=XYZ:opmode=0"]
     (by decide) rfl⟩

/-- C2 counterexample: the claim ties acceptance of `end` as an `edit`
terminator to the joined config key being exactly `vdom`; the code tests
only the first key token (`config_keys[0] == VDOM`), so in the block
`config vdom x` (joined key `vdom x`) an `edit ... end` with no `next`
is accepted rather than raising `FgtConfigSyntaxError`. -/
theorem C2_counterexample :
    parse (strT "config vdom x\nedit a\nend")
      = .ok ⟨[], [(strT "vdom x",
          FgtConfigNode.table [(strT "a", FgtConfigNode.object [])])], []⟩ :=
  rfl

/-- C2 (amended): an `edit` entry accepts `end` as a terminator (in place
of `next`) exactly when the vdom flag passed by `_parse_config` is set,
and that flag compares the FIRST token of the config key list with the
reserved keyword `vdom` case-sensitively (`config_keys[0] == VDOM`), not
the joined config key; when set, the `end` token is pushed back so the
enclosing config loop still consumes it to close the block, and when
unset the `end` reaches `_parse_config_command`, which raises
`FgtConfigSyntaxError`. -/
theorem C2_tenant_terminator (fuel : Nat) (vdom : Bool) (cfg : Entries)
    (lx lx1 : Lexer) (h : next_snl_token true lx = .ok (strT "end", lx1)) :
    table_entry_loop (fuel + 2) vdom cfg lx =
      (if vdom then .ok (cfg, push_token (strT "end") lx1)
       else .error (.syntaxError .invalidEntry)) ∧
    parse (strT "config vdom\nedit a\nend\nconfig global\nend")
      = .ok ⟨[], [], [(strT "a", [])]⟩ ∧
    parse (strT "config t\nedit a\nend")
      = .error (.syntaxError .invalidEntry) ∧
    parse (strT "config VDOM\nedit a\nend")
      = .error (.syntaxError .invalidEntry) := by
  refine ⟨?_, rfl, rfl, rfl⟩
  rw [show fuel + 2 = (fuel + 1) + 1 from rfl]
  rw [table_entry_loop.eq_def]
  simp only [h]
  cases vdom
  · rw [if_neg (by simp [strT])]
    rw [_parse_config_command.eq_def]
    simp [strT]
  · rw [if_pos (by simp [strT])]
    simp [strT]

theorem C2_tenant_terminator_witness :
    next_snl_token true ⟨strT "end ", none, none⟩
      = .ok (strT "end", ⟨[], some (some ' '), none⟩) ∧
    (table_entry_loop 2 true [] ⟨strT "end ", none, none⟩
      = (if true then .ok (([] : Entries),
          push_token (strT "end") ⟨[], some (some ' '), none⟩)
         else .error (.syntaxError .invalidEntry)) ∧
    parse (strT "config vdom\nedit a\nend\nconfig global\nend")
      = .ok ⟨[], [], [(strT "a", [])]⟩ ∧
    parse (strT "config t\nedit a\nend")
      = .error (.syntaxError .invalidEntry) ∧
    parse (strT "config VDOM\nedit a\nend")
      = .error (.syntaxError .invalidEntry)) :=
  ⟨rfl, C2_tenant_terminator 0 true [] ⟨strT "end ", none, none⟩
    ⟨[], some (some ' '), none⟩ rfl⟩

/-! ### `make_config` produces exactly the rendered lines -/

/-- `tableFlag` is false exactly when `append_entry` takes its
`config`/`end` branch. -/
theorem tableFlag_false_iff (parents : Stack) :
    tableFlag parents = false ↔
      (parents.length = 0 ∨ headIsObject parents = true) := by
  simp [tableFlag, List.isEmpty_iff_length_eq_zero]
  tauto

/-- The traversal with the `append_entry` callback appends exactly the
rendered lines: joint statement for one item and for an entry list,
by strong induction on size. -/
theorem traverse_render_aux (n : Nat) :
    (∀ (v : FgtConfigNode), sizeOf v ≤ n →
      ∀ (k : Tok) (parents : Stack) (out : List Tok),
        FgtConfigNode.traverse (append_entry none) v k parents out
          = out ++ renderItem (tableFlag parents) parents.length k v) ∧
    (∀ (es : Entries), sizeOf es ≤ n →
      ∀ (parents : Stack) (out : List Tok),
        travList (append_entry none) es parents out
          = out ++ renderList (tableFlag parents) parents.length es) := by
  induction n using Nat.strong_induction_on with
  | _ n ih =>
  constructor
  · intro v hv k parents out
    match v with
    | .set ps =>
        simp [FgtConfigNode.traverse, append_entry, renderItem, ind]
    | .unset =>
        simp [FgtConfigNode.traverse, append_entry, renderItem, ind]
    | .object es =>
        have hes : sizeOf es < n := by
          have h1 : sizeOf es < sizeOf (FgtConfigNode.object es) := by
            simp [FgtConfigNode.object.sizeOf_spec]
          omega
        have ihes := (ih (sizeOf es) hes).2 es le_rfl
        have hflag : tableFlag ((k, FgtConfigNode.object es) :: parents)
            = false := by
          simp [tableFlag, headIsObject]
        have hlen : ((k, FgtConfigNode.object es) :: parents).length
            = parents.length + 1 := by simp
        by_cases hc : parents.length = 0 ∨ headIsObject parents = true
        · have hfc : tableFlag parents = false :=
            (tableFlag_false_iff parents).mpr hc
          simp only [FgtConfigNode.traverse, append_entry, if_pos hc,
            if_neg (Bool.false_ne_true), if_pos trivial]
          rw [ihes, hflag, hlen]
          simp [renderItem, hfc, ind, List.append_assoc]
        · have hfc : tableFlag parents = true := by
            cases hft : tableFlag parents with
            | false => exact absurd ((tableFlag_false_iff parents).mp hft) hc
            | true => rfl
          simp only [FgtConfigNode.traverse, append_entry, if_neg hc,
            if_neg (Bool.false_ne_true), if_pos trivial]
          rw [ihes, hflag, hlen]
          simp [renderItem, hfc, ind, List.append_assoc]
    | .table es =>
        have hes : sizeOf es < n := by
          have h1 : sizeOf es < sizeOf (FgtConfigNode.table es) := by
            simp [FgtConfigNode.table.sizeOf_spec]
          omega
        have ihes := (ih (sizeOf es) hes).2 es le_rfl
        have hflag : tableFlag ((k, FgtConfigNode.table es) :: parents)
            = true := by
          simp [tableFlag, headIsObject]
        have hlen : ((k, FgtConfigNode.table es) :: parents).length
            = parents.length + 1 := by simp
        by_cases hc : parents.length = 0 ∨ headIsObject parents = true
        · have hfc : tableFlag parents = false :=
            (tableFlag_false_iff parents).mpr hc
          simp only [FgtConfigNode.traverse, append_entry, if_pos hc,
            if_neg (Bool.false_ne_true), if_pos trivial]
          rw [ihes, hflag, hlen]
          simp [renderItem, hfc, ind, List.append_assoc]
        · have hfc : tableFlag parents = true := by
            cases hft : tableFlag parents with
            | false => exact absurd ((tableFlag_false_iff parents).mp hft) hc
            | true => rfl
          simp only [FgtConfigNode.traverse, append_entry, if_neg hc,
            if_neg (Bool.false_ne_true), if_pos trivial]
          rw [ihes, hflag, hlen]
          simp [renderItem, hfc, ind, List.append_assoc]
  · intro es hes parents out
    match es with
    | [] => simp [travList, renderList]
    | (k, v) :: rest =>
        have hv : sizeOf v < n := by
          have h1 : sizeOf v < sizeOf ((k, v) :: rest) := by simp; omega
          omega
        have hr : sizeOf rest < n := by
          have h1 : sizeOf rest < sizeOf ((k, v) :: rest) := by simp
          omega
        have ihv := (ih (sizeOf v) hv).1 v le_rfl
        have ihr := (ih (sizeOf rest) hr).2 rest le_rfl
        simp only [travList, renderList]
        rw [ihv, ihr, List.append_assoc]

/-- List form of the render equality, as `traverseRoot` uses it. -/
theorem travList_render (es : Entries) (parents : Stack) (out : List Tok) :
    travList (append_entry none) es parents out
      = out ++ renderList (tableFlag parents) parents.length es :=
  (traverse_render_aux (sizeOf es)).2 es le_rfl parents out

/-- `'\n'.join` of a nonempty line list, newline-terminated, is the
concatenation of newline-terminated lines. -/
theorem joinNL_linesText (ls : List Tok) (h : ls ≠ []) :
    joinNL ls ++ ['\n'] = linesText ls := by
  induction ls with
  | nil => exact absurd rfl h
  | cons l rest ihr =>
      cases rest with
      | nil => simp [joinNL, linesText]
      | cons l2 rest2 =>
          have h2 := ihr (by simp)
          conv_rhs => rw [show linesText (l :: l2 :: rest2)
            = l ++ '\n' :: linesText (l2 :: rest2) from rfl, ← h2]
          simp [joinNL]

/-- The tenant-enumeration fold of `make_config` in closed form. -/
theorem vdom_foldl_enum (l : List (Tok × Entries)) :
    ∀ out : List Tok,
      l.foldl (fun o kv => o ++ [strT "edit " ++ kv.1, strT "next"]) out
        = out ++ vdomEnumLines l := by
  induction l with
  | nil => intro out; simp [vdomEnumLines]
  | cons kv rest ihr =>
      intro out
      obtain ⟨k, es⟩ := kv
      simp only [List.foldl_cons]
      rw [ihr]
      simp [vdomEnumLines]

/-- The per-tenant body fold of `make_config` in closed form. -/
theorem vdom_foldl_body (l : List (Tok × Entries)) :
    ∀ out : List Tok,
      l.foldl
        (fun o kv =>
          (travList (append_entry none) kv.2 []
            (o ++ [strT "config vdom", strT "edit " ++ kv.1]))
            ++ [strT "end", []]) out
        = out ++ vdomBodyLines l := by
  induction l with
  | nil => intro out; simp [vdomBodyLines]
  | cons kv rest ihr =>
      intro out
      obtain ⟨k, es⟩ := kv
      simp only [List.foldl_cons]
      rw [ihr]
      rw [travList_render]
      simp [vdomBodyLines, tableFlag]

/-- `make_config` of a single-vdom configuration is the rendered root. -/
theorem make_config_flat (c : FgtConfig) (h : c.vdoms = []) :
    c.make_config none = renderList false 0 c.root := by
  have hm : c.multi_vdom = false := by
    simp [FgtConfig.multi_vdom, h]
  simp only [FgtConfig.make_config, hm, Bool.false_eq_true, if_false,
    traverseRoot]
  rw [travList_render]
  simp [tableFlag]

/-- `make_config` of a multi-vdom configuration in closed form. -/
theorem make_config_vdom (c : FgtConfig) (h : c.multi_vdom = true) :
    c.make_config none
      = ([] : Tok) :: strT "config vdom"
          :: (vdomEnumLines c.vdoms
            ++ strT "end" :: ([] : Tok) :: strT "config global"
              :: (renderList false 0 c.root
                ++ strT "end" :: ([] : Tok) :: vdomBodyLines c.vdoms)) := by
  simp only [FgtConfig.make_config, h, if_true, traverseRoot]
  rw [vdom_foldl_enum, vdom_foldl_body]
  rw [travList_render]
  simp [tableFlag]

/-! ### Dictionary rebuild and text helper lemmas -/

theorem dictGet_mem {α : Type} (l : List (Tok × α)) (k : Tok) (v : α)
    (h : (k, v) ∈ l) : dictGet l k ≠ none := by
  induction l with
  | nil => cases h
  | cons p rest ih =>
      obtain ⟨k', v'⟩ := p
      simp only [dictGet]
      by_cases hk : k' = k
      · simp [hk]
      · rw [if_neg hk]
        rcases List.mem_cons.mp h with h1 | h1
        · cases h1; exact absurd rfl hk
        · exact ih h1

theorem dictInsert_append {α : Type} (l : List (Tok × α)) (k : Tok) (v : α)
    (h : dictGet l k = none) : dictInsert l k v = l ++ [(k, v)] := by
  induction l with
  | nil => rfl
  | cons p rest ih =>
      obtain ⟨k', v'⟩ := p
      simp only [dictGet] at h
      by_cases hk : k' = k
      · rw [if_pos hk] at h; cases h
      · rw [if_neg hk] at h
        simp only [dictInsert, if_neg hk, List.cons_append]
        rw [ih h]

theorem dictGet_append_none {α : Type} (a b : List (Tok × α)) (k : Tok) :
    dictGet (a ++ b) k = none ↔ dictGet a k = none ∧ dictGet b k = none := by
  induction a with
  | nil => simp [dictGet]
  | cons p rest ih =>
      obtain ⟨k', v'⟩ := p
      by_cases hk : k' = k
      · simp [dictGet, hk]
      · simp [dictGet, hk, ih]

theorem dictFold_append {α : Type} (es : List (Tok × α)) :
    ∀ cfg : List (Tok × α), dictNodup es →
      (∀ p ∈ es, dictGet cfg p.1 = none) →
      dictFold cfg es = cfg ++ es := by
  induction es with
  | nil => intro cfg _ _; simp [dictFold]
  | cons p rest ih =>
      intro cfg hnd hget
      obtain ⟨k, v⟩ := p
      obtain ⟨hk, hnd'⟩ := hnd
      have h1 : dictGet cfg k = none := hget (k, v) (by simp)
      show dictFold (dictInsert cfg k v) rest = cfg ++ (k, v) :: rest
      rw [dictInsert_append cfg k v h1]
      rw [ih (cfg ++ [(k, v)]) hnd']
      · simp
      · intro p hp
        rw [dictGet_append_none]
        refine ⟨hget p (by simp [hp]), ?_⟩
        simp only [dictGet]
        have hne : ¬ k = p.1 := by
          intro hkp
          subst hkp
          exact dictGet_mem rest p.1 p.2 (by simpa using hp) hk
        rw [if_neg hne]

theorem dictFold_id {α : Type} (es : List (Tok × α)) (h : dictNodup es) :
    dictFold [] es = es := by
  rw [dictFold_append es [] h (by intro p _; rfl)]
  simp

theorem WfObjEntries_nodup (es : Entries) (h : WfObjEntries es) :
    dictNodup es := by
  induction es with
  | nil => trivial
  | cons p rest ih =>
      obtain ⟨k, v⟩ := p
      obtain ⟨_, _, hk, h'⟩ := h
      exact ⟨hk, ih h'⟩

theorem WfTabEntries_nodup (es : Entries) (h : WfTabEntries es) :
    dictNodup es := by
  induction es with
  | nil => trivial
  | cons p rest ih =>
      obtain ⟨k, v⟩ := p
      obtain ⟨_, _, _, hk, h'⟩ := h
      exact ⟨hk, ih h'⟩

theorem WfVdoms_nodup (vd : List (Tok × Entries)) (h : WfVdoms vd) :
    dictNodup vd := by
  induction vd with
  | nil => trivial
  | cons p rest ih =>
      obtain ⟨k, es⟩ := p
      obtain ⟨_, _, hk, h'⟩ := h
      exact ⟨hk, ih h'⟩

theorem linesText_append (a b : List Tok) :
    linesText (a ++ b) = linesText a ++ linesText b := by
  induction a with
  | nil => rfl
  | cons l rest ih => simp [linesText, ih]

theorem ind_ws (d : Nat) : ∀ c ∈ ind d, c = ' ' ∨ c = '\n' := by
  intro c hc
  left
  exact List.eq_of_mem_replicate hc

theorem strT_set_sp (r : List Char) :
    strT "set " ++ r = strT "set" ++ ' ' :: r := rfl

theorem strT_unset_sp (r : List Char) :
    strT "unset " ++ r = strT "unset" ++ ' ' :: r := rfl

theorem strT_config_sp (r : List Char) :
    strT "config " ++ r = strT "config" ++ ' ' :: r := rfl

theorem strT_edit_sp (r : List Char) :
    strT "edit " ++ r = strT "edit" ++ ' ' :: r := rfl

theorem kwOf_ne (v : FgtConfigNode) :
    kwOf v ≠ strT "end" ∧ kwOf v ≠ strT "next" ∧ kwOf v ≠ strT "edit" := by
  cases v <;> refine ⟨?_, ?_, ?_⟩ <;> exact fun h => by cases h

theorem wfWord_kwOf (v : FgtConfigNode) : wfWord (kwOf v) = true := by
  cases v <;> rfl

theorem next_snl_lxPost (b : Bool) (v : FgtConfigNode) (s : List Char) :
    next_snl_token b (lxPost v s) = next_snl_token b ⟨s, none, none⟩ := by
  cases v with
  | set ps => rfl
  | unset => rfl
  | object es =>
      show next_snl_token b ⟨s, some (some '\n'), none⟩ = _
      rw [next_snl_token_pb, next_snl_token_nl]
  | table es =>
      show next_snl_token b ⟨s, some (some '\n'), none⟩ = _
      rw [next_snl_token_pb, next_snl_token_nl]

/-! ### Reparsing a rendered statement: leaf cases -/

theorem stmt_set (k : Tok) (ps : List Tok) (d f : Nat) (s : List Char)
    (hk : wfTok k = true) (hps : ps ≠ []) (hwf : ∀ p ∈ ps, wfTok p = true)
    (hf : 1 ≤ f) :
    ∃ lx₁,
      next_snl_token true
          ⟨linesText (renderItem false d k (.set ps)) ++ s, none, none⟩
        = .ok (strT "set", lx₁)
      ∧ _parse_config_command f (strT "set") lx₁
        = .ok ((k, FgtConfigNode.set ps), ⟨s, none, none⟩) := by
  obtain ⟨f', rfl⟩ : ∃ f', f = f' + 1 := ⟨f - 1, by omega⟩
  refine ⟨⟨joinSp (k :: ps) ++ '\n' :: s, some (some ' '), none⟩, ?_, ?_⟩
  · have htext : linesText (renderItem false d k (.set ps)) ++ s
        = ind d ++ (strT "set" ++ ' ' :: (joinSp (k :: ps) ++ '\n' :: s)) := by
      simp [renderItem, linesText, joinSp_cons k ps hps, strT_set_sp]
    rw [htext, next_snl_token_wsrun true (ind d) _ (ind_ws d)]
    exact next_snl_token_word true (strT "set") ' ' _ (by rfl) (by rfl)
  · simp only [_parse_config_command]
    rw [if_pos trivial]
    simp only [_parse_set_command]
    rw [next_parameters_line (k :: ps) s (by simp)
      (by
        intro t ht
        rcases List.mem_cons.mp ht with h | h
        · subst h; exact hk
        · exact hwf t h)]
    have hlen : ¬ (k :: ps).length < 2 := by
      have := List.length_pos.mpr hps
      simp
      omega
    simp [hlen]
    exact List.length_pos.mpr hps

theorem stmt_unset (k : Tok) (d f : Nat) (s : List Char)
    (hk : wfTok k = true) (hf : 1 ≤ f) :
    ∃ lx₁,
      next_snl_token true
          ⟨linesText (renderItem false d k .unset) ++ s, none, none⟩
        = .ok (strT "unset", lx₁)
      ∧ _parse_config_command f (strT "unset") lx₁
        = .ok ((k, FgtConfigNode.unset), ⟨s, none, none⟩) := by
  obtain ⟨f', rfl⟩ : ∃ f', f = f' + 1 := ⟨f - 1, by omega⟩
  refine ⟨⟨k ++ '\n' :: s, some (some ' '), none⟩, ?_, ?_⟩
  · have htext : linesText (renderItem false d k .unset) ++ s
        = ind d ++ (strT "unset" ++ ' ' :: (k ++ '\n' :: s)) := by
      simp [renderItem, linesText, strT_unset_sp]
    rw [htext, next_snl_token_wsrun true (ind d) _ (ind_ws d)]
    exact next_snl_token_word true (strT "unset") ' ' _ (by rfl) (by rfl)
  · simp only [_parse_config_command]
    rw [if_neg (by decide), if_pos trivial]
    simp only [_parse_unset_command]
    have hjoin : (k : Tok) ++ '\n' :: s = joinSp [k] ++ '\n' :: s := rfl
    rw [hjoin, next_parameters_line [k] s (by simp)
      (by intro t ht; simp at ht; subst ht; exact hk)]
    simp

/-! ### One-step unfolding of the fueled parser functions -/

theorem cc_set (f : Nat) (lx : Lexer) :
    _parse_config_command (f + 1) (strT "set") lx = _parse_set_command lx := by
  simp only [_parse_config_command]
  rw [if_pos trivial]

theorem cc_unset (f : Nat) (lx : Lexer) :
    _parse_config_command (f + 1) (strT "unset") lx
      = _parse_unset_command lx := by
  simp only [_parse_config_command]
  rw [if_neg (by decide), if_pos trivial]

theorem cc_config (f : Nat) (lx : Lexer) :
    _parse_config_command (f + 1) (strT "config") lx = _parse_config f lx := by
  simp only [_parse_config_command]
  rw [if_neg (by decide), if_neg (by decide), if_pos trivial]

theorem parse_config_obj (f : Nat) (lx lx1 lx2 lx3 : Lexer) (ts : List Tok)
    (token : Tok) (cfg : Entries)
    (h1 : next_parameters lx = .ok (ts, lx1)) (hts : ts ≠ [])
    (h2 : next_snl_token true lx1 = .ok (token, lx2))
    (hnedit : token ≠ strT "edit")
    (h3 : config_object_loop f token [] lx2 = .ok (cfg, lx3)) :
    _parse_config (f + 1) lx = .ok ((joinSp ts, .object cfg), lx3) := by
  conv_lhs => rw [_parse_config]
  rw [h1]
  simp only []
  rw [if_neg (by simpa using hts), h2]
  simp only []
  rw [if_neg hnedit, h3]

theorem parse_config_tab (f : Nat) (lx lx1 lx2 lx3 : Lexer) (ts : List Tok)
    (cfg : Entries)
    (h1 : next_parameters lx = .ok (ts, lx1)) (hts : ts ≠ [])
    (h2 : next_snl_token true lx1 = .ok (strT "edit", lx2))
    (h3 : config_table_loop f (decide (ts.headD [] = VDOM)) (strT "edit") []
        lx2 = .ok (cfg, lx3)) :
    _parse_config (f + 1) lx = .ok ((joinSp ts, .table cfg), lx3) := by
  conv_lhs => rw [_parse_config]
  rw [h1]
  simp only []
  rw [if_neg (by simpa using hts), h2]
  simp only []
  rw [if_pos trivial, h3]

theorem parse_table_entry_ok (f : Nat) (vd : Bool) (lx lx1 lx2 : Lexer)
    (ek : Tok) (cfg : Entries)
    (h1 : next_parameters lx = .ok ([ek], lx1))
    (h2 : table_entry_loop f vd [] lx1 = .ok (cfg, lx2)) :
    _parse_table_entry (f + 1) vd lx = .ok ((ek, .object cfg), lx2) := by
  conv_lhs => rw [_parse_table_entry]
  rw [h1]
  simp only []
  rw [if_neg (by simp), h2]
  rfl

theorem table_entry_loop_exit (f : Nat) (vd : Bool) (cfg : Entries)
    (lx lx1 : Lexer) (token : Tok)
    (h : next_snl_token true lx = .ok (token, lx1))
    (ht : token = strT "next" ∨ (vd = true ∧ token = strT "end")) :
    table_entry_loop (f + 1) vd cfg lx
      = .ok (cfg,
          if vd = true ∧ token = strT "end" then push_token token lx1
          else lx1) := by
  conv_lhs => rw [table_entry_loop]
  rw [h]
  simp only []
  rw [if_pos ht]
  by_cases hc : vd = true ∧ token = strT "end"
  · rw [if_pos hc, if_pos hc]
  · rw [if_neg hc, if_neg hc]

theorem table_entry_loop_cont (f : Nat) (vd : Bool) (cfg : Entries)
    (lx lx1 lx2 : Lexer) (token k : Tok) (v : FgtConfigNode)
    (h : next_snl_token true lx = .ok (token, lx1))
    (hn1 : token ≠ strT "next") (hn2 : token ≠ strT "end")
    (hcc : _parse_config_command f token lx1 = .ok ((k, v), lx2)) :
    table_entry_loop (f + 1) vd cfg lx
      = table_entry_loop f vd (dictInsert cfg k v) lx2 := by
  conv_lhs => rw [table_entry_loop]
  rw [h]
  simp only []
  rw [if_neg (by rintro (h3 | ⟨-, h3⟩); exacts [hn1 h3, hn2 h3]), hcc]

theorem config_object_loop_end (f : Nat) (cfg : Entries) (lx : Lexer) :
    config_object_loop (f + 1) (strT "end") cfg lx = .ok (cfg, lx) := by
  conv_lhs => rw [config_object_loop]
  rw [if_pos rfl]

theorem config_object_loop_cont (f : Nat) (token : Tok) (cfg : Entries)
    (lx lx1 lx2 : Lexer) (k : Tok) (v : FgtConfigNode) (token' : Tok)
    (hne : token ≠ strT "end")
    (hcc : _parse_config_command f token lx = .ok ((k, v), lx1))
    (hsnl : next_snl_token true lx1 = .ok (token', lx2)) :
    config_object_loop (f + 1) token cfg lx
      = config_object_loop f token' (dictInsert cfg k v) lx2 := by
  conv_lhs => rw [config_object_loop]
  rw [if_neg hne, hcc]
  simp only []
  rw [hsnl]

theorem config_table_loop_end (f : Nat) (vd : Bool) (cfg : Entries)
    (lx : Lexer) :
    config_table_loop (f + 1) vd (strT "end") cfg lx = .ok (cfg, lx) := by
  conv_lhs => rw [config_table_loop]
  rw [if_pos rfl]

theorem config_table_loop_cont (f : Nat) (vd : Bool) (token : Tok)
    (cfg : Entries) (lx lx1 lx2 : Lexer) (tk : Tok) (tv : FgtConfigNode)
    (token' : Tok)
    (hne : token ≠ strT "end")
    (hte : _parse_table_entry f vd lx = .ok ((tk, tv), lx1))
    (hsnl : next_snl_token true lx1 = .ok (token', lx2)) :
    config_table_loop (f + 1) vd token cfg lx
      = config_table_loop f vd token' (dictInsert cfg tk tv) lx2 := by
  conv_lhs => rw [config_table_loop]
  rw [if_neg hne, hte]
  simp only []
  rw [hsnl]

theorem costN_pos (v : FgtConfigNode) : 1 ≤ costN v := by
  cases v <;> simp [costN] <;> omega

theorem costLoopO_pos (es : Entries) : 1 ≤ costLoopO es := by
  cases es with
  | nil => simp [costLoopO]
  | cons p rest => obtain ⟨k, v⟩ := p; simp [costLoopO]; omega

theorem table_entry_loop_congr (f : Nat) (vd : Bool) (cfg : Entries)
    (lx lx' : Lexer)
    (h : next_snl_token true lx = next_snl_token true lx') :
    table_entry_loop (f + 1) vd cfg lx
      = table_entry_loop (f + 1) vd cfg lx' := by
  conv_lhs => rw [table_entry_loop]
  conv_rhs => rw [table_entry_loop]
  rw [h]

/-- Reparsing rendered configuration text: joint statement for one
statement (`_parse_config_command` after the keyword read), an object
body (`config_object_loop`), an `edit` entry body (`table_entry_loop`)
and a table body (`config_table_loop`), by strong induction on size. -/
theorem parse_render_aux (n : Nat) :
    (∀ (v : FgtConfigNode), sizeOf v ≤ n →
      ∀ (k : Tok) (d f : Nat) (s : List Char),
        WfEntryKey k v → WfNode v → costN v ≤ f →
        ∃ lx₁,
          next_snl_token true
              ⟨linesText (renderItem false d k v) ++ s, none, none⟩
            = .ok (kwOf v, lx₁)
          ∧ _parse_config_command f (kwOf v) lx₁ = .ok ((k, v), lxPost v s)) ∧
    (∀ (es : Entries), sizeOf es ≤ n →
      ∀ (d : Nat) (ws : List Char) (f : Nat) (cfg : Entries) (s : List Char),
        WfObjEntries es → costLoopO es ≤ f →
        (∀ c ∈ ws, c = ' ' ∨ c = '\n') →
        ∃ tok lx₀,
          next_snl_token true
              ⟨linesText (renderList false d es) ++ ws ++ strT "end"
                ++ '\n' :: s, none, none⟩
            = .ok (tok, lx₀)
          ∧ tok ≠ strT "edit"
          ∧ config_object_loop f tok cfg lx₀
            = .ok (dictFold cfg es, ⟨s, some (some '\n'), none⟩)) ∧
    (∀ (es : Entries), sizeOf es ≤ n →
      ∀ (d : Nat) (ws : List Char) (f : Nat) (vd : Bool) (cfg : Entries)
        (term : Tok) (s : List Char),
        WfObjEntries es → costLoopO es ≤ f →
        (∀ c ∈ ws, c = ' ' ∨ c = '\n') →
        (term = strT "next" ∨ (vd = true ∧ term = strT "end")) →
        table_entry_loop f vd cfg
            ⟨linesText (renderList false d es) ++ ws ++ term ++ '\n' :: s,
              none, none⟩
          = .ok (dictFold cfg es,
              if term = strT "next" then ⟨s, some (some '\n'), none⟩
              else ⟨s, some (some '\n'), some term⟩)) ∧
    (∀ (tes : Entries), sizeOf tes ≤ n →
      ∀ (d : Nat) (ws : List Char) (f : Nat) (vd : Bool) (cfg : Entries)
        (s : List Char),
        WfTabEntries tes → costLoopT tes ≤ f →
        (∀ c ∈ ws, c = ' ' ∨ c = '\n') →
        ∃ tok lx₀,
          next_snl_token true
              ⟨linesText (renderList true d tes) ++ ws ++ strT "end"
                ++ '\n' :: s, none, none⟩
            = .ok (tok, lx₀)
          ∧ (tes ≠ [] → tok = strT "edit")
          ∧ config_table_loop f vd tok cfg lx₀
            = .ok (dictFold cfg tes, ⟨s, some (some '\n'), none⟩)) := by
  induction n using Nat.strong_induction_on with
  | _ n ih =>
  refine ⟨?_, ?_, ?_, ?_⟩
  · -- statements
    intro v hv k d f s hek hwn hf
    cases v with
    | set ps =>
        obtain ⟨hps, hpwf⟩ := hwn
        exact stmt_set k ps d f s hek hps hpwf hf
    | unset =>
        exact stmt_unset k d f s hek hf
    | object es =>
        obtain ⟨ts, hts, htswf, hkts⟩ := hek
        subst hkts
        have hsz : sizeOf es < n := by
          have h1 : sizeOf es < sizeOf (FgtConfigNode.object es) := by
            simp [FgtConfigNode.object.sizeOf_spec]
          omega
        have hf' : 2 + costLoopO es ≤ f := hf
        obtain ⟨f1, rfl⟩ : ∃ f1, f = f1 + 1 := ⟨f - 1, by omega⟩
        obtain ⟨f2, rfl⟩ : ∃ f2, f1 = f2 + 1 := ⟨f1 - 1, by omega⟩
        obtain ⟨tok, lx₀, hsnl, hned, hloop⟩ :=
          (ih (sizeOf es) hsz).2.1 es le_rfl (d + 1) (ind d) f2 [] s hwn
            (by omega) (ind_ws d)
        refine ⟨⟨joinSp ts ++ '\n' ::
            (linesText (renderList false (d + 1) es) ++ ind d ++ strT "end"
              ++ '\n' :: s),
          some (some ' '), none⟩, ?_, ?_⟩
        · have htext :
              linesText (renderItem false d (joinSp ts)
                  (FgtConfigNode.object es)) ++ s
              = ind d ++ (strT "config" ++ ' ' :: (joinSp ts ++ '\n' ::
                  (linesText (renderList false (d + 1) es) ++ ind d
                    ++ strT "end" ++ '\n' :: s))) := by
            simp [renderItem, linesText, linesText_append, strT_config_sp]
          rw [htext, next_snl_token_wsrun true (ind d) _ (ind_ws d)]
          exact next_snl_token_word true (strT "config") ' ' _ (by rfl) (by rfl)
        · have hkw : kwOf (FgtConfigNode.object es) = strT "config" := rfl
          rw [hkw, cc_config (f2 + 1)]
          have heq := parse_config_obj f2 _ _ _ _ ts tok (dictFold [] es)
            (next_parameters_line ts _ hts htswf) hts hsnl hned hloop
          rw [dictFold_id es (WfObjEntries_nodup es hwn)] at heq
          exact heq
    | table tes =>
        obtain ⟨ts, hts, htswf, hkts⟩ := hek
        subst hkts
        obtain ⟨htne, htwf⟩ := hwn
        have hsz : sizeOf tes < n := by
          have h1 : sizeOf tes < sizeOf (FgtConfigNode.table tes) := by
            simp [FgtConfigNode.table.sizeOf_spec]
          omega
        have hf' : 2 + costLoopT tes ≤ f := hf
        obtain ⟨f1, rfl⟩ : ∃ f1, f = f1 + 1 := ⟨f - 1, by omega⟩
        obtain ⟨f2, rfl⟩ : ∃ f2, f1 = f2 + 1 := ⟨f1 - 1, by omega⟩
        obtain ⟨tok, lx₀, hsnl, hedit, hloop⟩ :=
          (ih (sizeOf tes) hsz).2.2.2 tes le_rfl (d + 1) (ind d) f2
            (decide (ts.headD [] = VDOM)) [] s htwf (by omega) (ind_ws d)
        have htok : tok = strT "edit" := hedit htne
        subst htok
        refine ⟨⟨joinSp ts ++ '\n' ::
            (linesText (renderList true (d + 1) tes) ++ ind d ++ strT "end"
              ++ '\n' :: s),
          some (some ' '), none⟩, ?_, ?_⟩
        · have htext :
              linesText (renderItem false d (joinSp ts)
                  (FgtConfigNode.table tes)) ++ s
              = ind d ++ (strT "config" ++ ' ' :: (joinSp ts ++ '\n' ::
                  (linesText (renderList true (d + 1) tes) ++ ind d
                    ++ strT "end" ++ '\n' :: s))) := by
            simp [renderItem, linesText, linesText_append, strT_config_sp]
          rw [htext, next_snl_token_wsrun true (ind d) _ (ind_ws d)]
          exact next_snl_token_word true (strT "config") ' ' _ (by rfl) (by rfl)
        · have hkw : kwOf (FgtConfigNode.table tes) = strT "config" := rfl
          rw [hkw, cc_config (f2 + 1)]
          have heq := parse_config_tab f2 _ _ _ _ ts (dictFold [] tes)
            (next_parameters_line ts _ hts htswf) hts hsnl hloop
          rw [dictFold_id tes (WfTabEntries_nodup tes htwf)] at heq
          exact heq
  · -- object body loop
    intro es hes d ws f cfg s hwf hf hws
    cases es with
    | nil =>
        have hf' : 1 ≤ f := hf
        obtain ⟨f', rfl⟩ : ∃ f', f = f' + 1 := ⟨f - 1, by omega⟩
        refine ⟨strT "end", ⟨s, some (some '\n'), none⟩, ?_, by decide, ?_⟩
        · have htext :
              linesText (renderList false d ([] : Entries)) ++ ws
                  ++ strT "end" ++ '\n' :: s
              = ws ++ (strT "end" ++ '\n' :: s) := by
            simp [renderList, linesText]
          rw [htext, next_snl_token_wsrun true ws _ hws]
          exact next_snl_token_word true (strT "end") '\n' s (by rfl) (by rfl)
        · exact config_object_loop_end f' cfg _
    | cons p rest =>
        obtain ⟨k, v⟩ := p
        obtain ⟨hek, hvwf, hget, hrest⟩ := hwf
        have hszv : sizeOf v < n := by
          have h1 : sizeOf v < sizeOf ((k, v) :: rest) := by simp; omega
          omega
        have hszr : sizeOf rest < n := by
          have h1 : sizeOf rest < sizeOf ((k, v) :: rest) := by simp
          omega
        have hf' : 1 + costN v + costLoopO rest ≤ f := hf
        obtain ⟨f', rfl⟩ : ∃ f', f = f' + 1 := ⟨f - 1, by omega⟩
        obtain ⟨lx₁, hsnl1, hcc⟩ := (ih (sizeOf v) hszv).1 v le_rfl k d f'
          (linesText (renderList false d rest) ++ ws ++ strT "end" ++ '\n' :: s)
          hek hvwf (by omega)
        obtain ⟨tok', lx₀', hsnl2, hned', hloop'⟩ :=
          (ih (sizeOf rest) hszr).2.1 rest le_rfl d ws f' (dictInsert cfg k v)
            s hrest (by omega) hws
        refine ⟨kwOf v, lx₁, ?_, (kwOf_ne v).2.2, ?_⟩
        · have htext :
              linesText (renderList false d ((k, v) :: rest)) ++ ws
                  ++ strT "end" ++ '\n' :: s
              = linesText (renderItem false d k v)
                  ++ (linesText (renderList false d rest) ++ ws ++ strT "end"
                    ++ '\n' :: s) := by
            simp [renderList, linesText_append]
          rw [htext]
          exact hsnl1
        · have hsnl2' : next_snl_token true
              (lxPost v (linesText (renderList false d rest) ++ ws
                ++ strT "end" ++ '\n' :: s))
              = .ok (tok', lx₀') := by
            rw [next_snl_lxPost]
            exact hsnl2
        
          rw [config_object_loop_cont f' (kwOf v) cfg lx₁ _ lx₀' k v tok'
            (kwOf_ne v).1 hcc hsnl2']
          exact hloop'
  · -- edit entry body loop
    intro es hes d ws f vd cfg term s hwf hf hws hterm
    have htermwf : wfWord term = true := by
      rcases hterm with h | ⟨-, h⟩ <;> subst h <;> rfl
    cases es with
    | nil =>
        have hf' : 1 ≤ f := hf
        obtain ⟨f', rfl⟩ : ∃ f', f = f' + 1 := ⟨f - 1, by omega⟩
        have htext :
            linesText (renderList false d ([] : Entries)) ++ ws ++ term
                ++ '\n' :: s
            = ws ++ (term ++ '\n' :: s) := by
          simp [renderList, linesText]
        rw [htext]
        have hsnl : next_snl_token true ⟨ws ++ (term ++ '\n' :: s), none, none⟩
            = .ok (term, ⟨s, some (some '\n'), none⟩) := by
          rw [next_snl_token_wsrun true ws _ hws]
          exact next_snl_token_word true term '\n' s htermwf (by rfl)
        rw [table_entry_loop_exit f' vd cfg _ _ term hsnl hterm]
        rcases hterm with h | ⟨hvd, h⟩
        · subst h
          rw [if_neg (by rintro ⟨-, h2⟩; exact absurd h2 (by decide)),
            if_pos rfl]
          rfl
        · subst h
          subst hvd
          rw [if_pos ⟨rfl, rfl⟩, if_neg (by decide)]
          rfl
    | cons p rest =>
        obtain ⟨k, v⟩ := p
        obtain ⟨hek, hvwf, hget, hrest⟩ := hwf
        have hszv : sizeOf v < n := by
          have h1 : sizeOf v < sizeOf ((k, v) :: rest) := by simp; omega
          omega
        have hszr : sizeOf rest < n := by
          have h1 : sizeOf rest < sizeOf ((k, v) :: rest) := by simp
          omega
        have hf' : 1 + costN v + costLoopO rest ≤ f := hf
        have hp1 := costN_pos v
        have hp2 := costLoopO_pos rest
        obtain ⟨f', rfl⟩ : ∃ f', f = f' + 1 := ⟨f - 1, by omega⟩
        obtain ⟨f'', rfl⟩ : ∃ f'', f' = f'' + 1 := ⟨f' - 1, by omega⟩
        obtain ⟨lx₁, hsnl1, hcc⟩ := (ih (sizeOf v) hszv).1 v le_rfl k d
          (f'' + 1)
          (linesText (renderList false d rest) ++ ws ++ term ++ '\n' :: s)
          hek hvwf (by omega)
        have hD := (ih (sizeOf rest) hszr).2.2.1 rest le_rfl d ws (f'' + 1) vd
          (dictInsert cfg k v) term s hrest (by omega) hws hterm
        have htext :
            linesText (renderList false d ((k, v) :: rest)) ++ ws ++ term
                ++ '\n' :: s
            = linesText (renderItem false d k v)
                ++ (linesText (renderList false d rest) ++ ws ++ term
                  ++ '\n' :: s) := by
          simp [renderList, linesText_append]
        rw [htext]
        rw [table_entry_loop_cont (f'' + 1) vd cfg _ lx₁ _ (kwOf v) k v hsnl1
          (kwOf_ne v).2.1 (kwOf_ne v).1 hcc]
        rw [table_entry_loop_congr f'' vd (dictInsert cfg k v) _ _
          (next_snl_lxPost true v _)]
        exact hD
  · -- table body loop
    intro tes htes d ws f vd cfg s hwf hf hws
    cases tes with
    | nil =>
        have hf' : 1 ≤ f := hf
        obtain ⟨f', rfl⟩ : ∃ f', f = f' + 1 := ⟨f - 1, by omega⟩
        refine ⟨strT "end", ⟨s, some (some '\n'), none⟩, ?_,
          fun h => absurd rfl h, ?_⟩
        · have htext :
              linesText (renderList true d ([] : Entries)) ++ ws
                  ++ strT "end" ++ '\n' :: s
              = ws ++ (strT "end" ++ '\n' :: s) := by
            simp [renderList, linesText]
          rw [htext, next_snl_token_wsrun true ws _ hws]
          exact next_snl_token_word true (strT "end") '\n' s (by rfl) (by rfl)
        · exact config_table_loop_end f' vd cfg _
    | cons p rest =>
        obtain ⟨tk, tv⟩ := p
        obtain ⟨htk, htobj, htvwf, hget, hrest⟩ := hwf
        cases tv with
        | set ps => exact absurd htobj (by simp [isObject])
        | unset => exact absurd htobj (by simp [isObject])
        | table es2 => exact absurd htobj (by simp [isObject])
        | object es =>
        have hszes : sizeOf es < n := by
          have h1 : sizeOf es < sizeOf (FgtConfigNode.object es) := by
            simp [FgtConfigNode.object.sizeOf_spec]
          have h2 : sizeOf (FgtConfigNode.object es)
              < sizeOf ((tk, FgtConfigNode.object es) :: rest) := by
            simp
            omega
          omega
        have hszr : sizeOf rest < n := by
          have h1 : sizeOf rest
              < sizeOf ((tk, FgtConfigNode.object es) :: rest) := by simp
          omega
        have hf' : 2 + costLoopO es + costLoopT rest ≤ f := hf
        obtain ⟨f1, rfl⟩ : ∃ f1, f = f1 + 1 := ⟨f - 1, by omega⟩
        obtain ⟨f2, rfl⟩ : ∃ f2, f1 = f2 + 1 := ⟨f1 - 1, by omega⟩
        have hD := (ih (sizeOf es) hszes).2.2.1 es le_rfl (d + 1) (ind d) f2 vd
          [] (strT "next")
          (linesText (renderList true d rest) ++ ws ++ strT "end" ++ '\n' :: s)
          htvwf (by omega) (ind_ws d) (Or.inl rfl)
        rw [if_pos rfl] at hD
        rw [dictFold_id es (WfObjEntries_nodup es htvwf)] at hD
        obtain ⟨tok', lx₀', hsnlr, hexr, hloopR⟩ :=
          (ih (sizeOf rest) hszr).2.2.2 rest le_rfl d ws (f2 + 1) vd
            (dictInsert cfg tk (FgtConfigNode.object es)) s hrest (by omega)
            hws
        have hte := parse_table_entry_ok f2 vd _ _ _ tk es
          (next_parameters_line [tk] _ (by simp)
            (by intro t ht; simp at ht; subst ht; exact htk))
          hD
        rw [show joinSp [tk] = tk from rfl] at hte
        refine ⟨strT "edit", ⟨tk ++ '\n' ::
            (linesText (renderList false (d + 1) es) ++ ind d ++ strT "next"
              ++ '\n' :: (linesText (renderList true d rest) ++ ws
                ++ strT "end" ++ '\n' :: s)),
          some (some ' '), none⟩, ?_, fun _ => rfl, ?_⟩
        · have htext :
              linesText (renderList true d
                  ((tk, FgtConfigNode.object es) :: rest)) ++ ws
                  ++ strT "end" ++ '\n' :: s
              = ind d ++ (strT "edit" ++ ' ' :: (tk ++ '\n' ::
                  (linesText (renderList false (d + 1) es) ++ ind d
                    ++ strT "next" ++ '\n' ::
                      (linesText (renderList true d rest) ++ ws ++ strT "end"
                        ++ '\n' :: s)))) := by
            simp [renderList, renderItem, linesText, linesText_append,
              strT_edit_sp]
          rw [htext, next_snl_token_wsrun true (ind d) _ (ind_ws d)]
          exact next_snl_token_word true (strT "edit") ' ' _ (by rfl) (by rfl)
        · have hsnl2' : next_snl_token true
              ⟨linesText (renderList true d rest) ++ ws ++ strT "end"
                ++ '\n' :: s, some (some '\n'), none⟩
              = .ok (tok', lx₀') := by
            rw [next_snl_token_pb, next_snl_token_nl]
            exact hsnlr
          rw [config_table_loop_cont (f2 + 1) vd (strT "edit") cfg _ _ lx₀'
            tk (FgtConfigNode.object es) tok' (by decide) hte hsnl2']
          exact hloopR

/-! ### Classification of produced tokens -/

theorem scanComment_shape (s : List Char) :
    ∀ acc : Tok, ∃ body rest, scanComment acc s = (acc ++ body, rest)
      ∧ '\n' ∉ body := by
  induction s with
  | nil => intro acc; exact ⟨[], [], by simp [scanComment], by simp⟩
  | cons c rest ih =>
      intro acc
      by_cases hc : c = '\n'
      · subst hc
        exact ⟨[], rest, by simp [scanComment], by simp⟩
      · obtain ⟨body, r, heq, hb⟩ := ih (acc ++ [c])
        refine ⟨c :: body, r, ?_, ?_⟩
        · simp only [scanComment, if_neg hc]
          rw [heq]
          simp
        · simp [hb]
          intro h
          exact hc h.symm

theorem scanQuoted_wf (n : Nat) :
    ∀ (s : List Char), s.length ≤ n →
      ∀ (acc t : Tok) (r : List Char), scanQuoted acc s = .ok (t, r) →
        ∃ body, t = acc ++ body ∧ wfQTail body = true := by
  induction n with
  | zero =>
      intro s hs acc t r h
      match s, hs with
      | [], _ =>
          rw [scanQuoted.eq_def] at h
          simp at h
  | succ n ih =>
      intro s hs acc t r h
      match s with
      | [] =>
          rw [scanQuoted.eq_def] at h
          simp at h
      | c :: rest =>
          by_cases hb : c = '\\'
          · subst hb
            match rest with
            | [] => simp [scanQuoted] at h
            | d :: r2 =>
                simp only [scanQuoted, if_pos rfl] at h
                obtain ⟨body, ht, hwf⟩ := ih r2
                  (by simp at hs; omega) (acc ++ ['\\', d]) t r h
                refine ⟨'\\' :: d :: body, by simp [ht], ?_⟩
                rw [wfQTail.eq_def]
                simp only [if_pos rfl]
                exact hwf
          · by_cases hq : c = '"'
            · subst hq
              have h1 : ¬ (('"' : Char) = '\\') := by decide
              rw [scanQuoted.eq_def] at h
              simp only [if_neg h1, if_pos rfl] at h
              cases h
              refine ⟨['"'], rfl, ?_⟩
              rw [wfQTail.eq_def]
              simp
            · rw [scanQuoted.eq_def] at h
              simp only [if_neg hb, if_neg hq] at h
              obtain ⟨body, ht, hwf⟩ := ih rest
                (by simp at hs; omega) (acc ++ [c]) t r h
              refine ⟨c :: body, by simp [ht], ?_⟩
              rw [wfQTail.eq_def]
              simp only []
              rw [if_neg hb, if_neg hq]
              exact hwf

theorem scanWord_shape (s : List Char) :
    ∀ (acc t : Tok) (d : PChar) (r : List Char),
      scanWord acc s = (t, d, r) →
      ∃ w, t = acc ++ w ∧ ∀ x ∈ w, pyIsSpace x = false := by
  induction s with
  | nil =>
      intro acc t d r h
      simp only [scanWord] at h
      injection h with h1 h23
      exact ⟨[], by simp [← h1], by simp⟩
  | cons c rest ih =>
      intro acc t d r h
      by_cases hc : pyIsSpace c = true
      · simp only [scanWord, if_pos hc] at h
        injection h with h1 h23
        exact ⟨[], by simp [← h1], by simp⟩
      · simp only [scanWord, if_neg hc] at h
        obtain ⟨w, ht, hw⟩ := ih (acc ++ [c]) t d r h
        refine ⟨c :: w, by simp [ht], ?_⟩
        intro x hx
        rcases List.mem_cons.mp hx with hx | hx
        · subst hx; simpa using hc
        · exact hw x hx

theorem skipSpaces_res (s : List Char) :
    ∀ (c : Char) (r : List Char), skipSpaces s = (some c, r) →
      ¬(pyIsSpace c = true ∧ c ≠ '\n') := by
  induction s with
  | nil => intro c r h; simp [skipSpaces] at h
  | cons x rest ih =>
      intro c r h
      by_cases hx : pyIsSpace x = true ∧ x ≠ '\n'
      · rw [skipSpaces, if_pos hx] at h
        exact ih c r h
      · rw [skipSpaces, if_neg hx] at h
        cases h
        exact hx

theorem lexNextNS_res (lx : Lexer) (ch : Char) (lx1 : Lexer)
    (h : lexNextNS lx = (some ch, lx1)) :
    ¬(pyIsSpace ch = true ∧ ch ≠ '\n') ∧ lx1.tokenPB = lx.tokenPB := by
  rw [lexNextNS.eq_def] at h
  cases hc : lx.char with
  | some c =>
      rw [hc] at h
      simp only [] at h
      by_cases hsc : pyIsSpaceP c = true ∧ ¬ isEolC c = true
      · rw [if_pos hsc] at h
        cases hsk : skipSpaces lx.stream with
        | mk d rest =>
            rw [hsk] at h
            simp only [] at h
            injection h with h1 h2
            subst h1 h2
            exact ⟨skipSpaces_res lx.stream ch rest hsk, rfl⟩
      · rw [if_neg hsc] at h
        injection h with h1 h2
        subst h2
        refine ⟨?_, rfl⟩
        intro ⟨hsp, hnl⟩
        apply hsc
        rw [h1]
        constructor
        · simpa [pyIsSpaceP] using hsp
        · simpa [isEolC] using hnl
  | none =>
      rw [hc] at h
      simp only [] at h
      cases hsk : skipSpaces lx.stream with
      | mk d rest =>
          rw [hsk] at h
          simp only [] at h
          injection h with h1 h2
          subst h1 h2
          exact ⟨skipSpaces_res lx.stream ch rest hsk, rfl⟩

theorem lexNextNS_tpb (lx : Lexer) :
    (lexNextNS lx).2.tokenPB = lx.tokenPB := by
  rw [lexNextNS.eq_def]
  cases lx.char with
  | some c =>
      by_cases hsc : pyIsSpaceP c = true ∧ ¬ isEolC c = true
      · simp only [if_pos hsc]
      · simp only [if_neg hsc]
  | none => simp only []

theorem next_token_class (lx : Lexer) (t : Tok) (lx' : Lexer)
    (hwl : WfLexer lx) (h : next_token lx = .ok (t, lx')) :
    ClassTok t ∧ WfLexer lx' := by
  rw [next_token.eq_def] at h
  cases hpb : lx.tokenPB with
  | some t0 =>
      rw [hpb] at h
      simp only [] at h
      cases h
      exact ⟨hwl _ hpb, by intro x hx; simp at hx⟩
  | none =>
      rw [hpb] at h
      simp only [] at h
      cases hln : lexNextNS lx with
      | mk c lx1 =>
          rw [hln] at h
          simp only [] at h
          have htpb : lx1.tokenPB = none := by
            have := lexNextNS_tpb lx
            rw [hln] at this
            simpa [hpb] using this
          have hwl1 : ∀ lx2 : Lexer, lx2.tokenPB = lx1.tokenPB →
              WfLexer lx2 := by
            intro lx2 h2 x hx
            rw [h2, htpb] at hx
            cases hx
          cases c with
          | none =>
              simp only [] at h
              cases h
              exact ⟨Or.inl rfl, hwl1 _ rfl⟩
          | some ch =>
              simp only [] at h
              by_cases hnl : ch = '\n'
              · rw [if_pos hnl] at h
                cases h
                exact ⟨Or.inr (Or.inl rfl), hwl1 _ rfl⟩
              · rw [if_neg hnl] at h
                by_cases hsh : ch = '#'
                · rw [if_pos hsh] at h
                  obtain ⟨body, rest, hsc, hb⟩ :=
                    scanComment_shape lx1.stream ['#']
                  rw [hsc] at h
                  simp only [] at h
                  cases h
                  refine ⟨Or.inr (Or.inr (Or.inl ⟨by simp, ?_⟩)),
                    hwl1 _ rfl⟩
                  simp [hb]
                · rw [if_neg hsh] at h
                  by_cases hq : ch = '"'
                  · rw [if_pos hq] at h
                    cases hsq : scanQuoted ['"'] lx1.stream with
                    | error e => rw [hsq] at h; simp at h
                    | ok p =>
                        obtain ⟨tq, rest⟩ := p
                        rw [hsq] at h
                        simp only [] at h
                        cases h
                        obtain ⟨body, htq, hwf⟩ :=
                          scanQuoted_wf lx1.stream.length lx1.stream le_rfl
                            ['"'] _ rest hsq
                        refine ⟨Or.inr (Or.inr (Or.inr ?_)), hwl1 _ rfl⟩
                        rw [htq]
                        simp [wfTok, wfQuoted, hwf]
                  · rw [if_neg hq] at h
                    cases hsw : scanWord [ch] lx1.stream with
                    | mk tw p =>
                        obtain ⟨d, rest⟩ := p
                        rw [hsw] at h
                        simp only [] at h
                        cases h
                        obtain ⟨w, htw, hw⟩ :=
                          scanWord_shape lx1.stream [ch] _ d rest hsw
                        have hnsp : pyIsSpace ch = false := by
                          have hres := (lexNextNS_res lx ch lx1 hln).1
                          by_cases hsp : pyIsSpace ch = true
                          · exact absurd ⟨hsp, hnl⟩ hres
                          · simpa using hsp
                        refine ⟨Or.inr (Or.inr (Or.inr ?_)), hwl1 _ rfl⟩
                        rw [htw]
                        simp only [wfTok, wfWord, List.cons_append,
                          List.nil_append, Bool.or_eq_true, Bool.and_eq_true,
                          Bool.not_eq_true', List.all_eq_true]
                        left
                        refine ⟨⟨⟨hnsp, by simpa using hq⟩, by simpa using hsh⟩,
                          ?_⟩
                        intro x hx
                        simpa using hw x hx

theorem next_snl_go_class (f : Nat) :
    ∀ (lx : Lexer) (t : Tok) (lx' : Lexer), WfLexer lx →
      next_snl_go f lx = .ok (t, lx') → ClassTok t ∧ WfLexer lx' := by
  induction f with
  | zero => intro lx t lx' _ h; simp [next_snl_go] at h
  | succ f ih =>
      intro lx t lx' hwl h
      rw [next_snl_go] at h
      cases hnt : next_token lx with
      | error e => rw [hnt] at h; simp at h
      | ok p =>
          obtain ⟨t0, lx0⟩ := p
          rw [hnt] at h
          simp only [] at h
          obtain ⟨hc0, hwl0⟩ := next_token_class lx t0 lx0 hwl hnt
          by_cases hcond : tok_is_eol t0 = true ∧ ¬ tok_is_eos t0 = true
          · rw [if_pos hcond] at h
            exact ih lx0 t lx' hwl0 h
          · rw [if_neg hcond] at h
            cases h
            exact ⟨hc0, hwl0⟩

theorem next_snl_token_class (b : Bool) (lx : Lexer) (t : Tok) (lx' : Lexer)
    (hwl : WfLexer lx) (h : next_snl_token b lx = .ok (t, lx')) :
    ClassTok t ∧ WfLexer lx' := by
  rw [next_snl_token] at h
  cases hgo : next_snl_go (lx.mu + 1) lx with
  | error e => rw [hgo] at h; simp at h
  | ok p =>
      obtain ⟨t0, lx0⟩ := p
      rw [hgo] at h
      simp only [] at h
      by_cases he : b = true ∧ tok_is_eos t0 = true
      · rw [if_pos he] at h; simp at h
      · rw [if_neg he] at h
        cases h
        exact next_snl_go_class _ lx _ _ hwl hgo

theorem params_go_wf (f : Nat) :
    ∀ (lx : Lexer) (acc ts : List Tok) (lx' : Lexer), WfLexer lx →
      (∀ x ∈ acc, wfTok x = true) →
      next_parameters_go f lx acc = .ok (ts, lx') →
      (∀ x ∈ ts, wfTok x = true) ∧ WfLexer lx' := by
  induction f with
  | zero => intro lx acc ts lx' _ _ h; simp [next_parameters_go] at h
  | succ f ih =>
      intro lx acc ts lx' hwl hacc h
      rw [next_parameters_go] at h
      cases hnt : next_token lx with
      | error e => rw [hnt] at h; simp at h
      | ok p =>
          obtain ⟨t0, lx0⟩ := p
          rw [hnt] at h
          simp only [] at h
          obtain ⟨hc0, hwl0⟩ := next_token_class lx t0 lx0 hwl hnt
          by_cases heol : tok_is_eol t0 = true
          · rw [if_pos heol] at h
            cases h
            exact ⟨hacc, hwl0⟩
          · rw [if_neg heol] at h
            by_cases hcom : tok_is_comment t0 = true
            · rw [if_pos hcom] at h
              simp at h
            · rw [if_neg hcom] at h
              refine ih lx0 (acc ++ [t0]) ts lx' hwl0 ?_ h
              intro x hx
              rcases List.mem_append.mp hx with hx | hx
              · exact hacc x hx
              · have hx0 : x = t0 := by simpa using hx
                subst hx0
                rcases hc0 with hc | hc | hc | hc
                · have hxe : x = [] := by
                    simpa [tok_is_eos, List.isEmpty_iff] using hc
                  exact absurd (by simp [tok_is_eol, hxe]
                      : tok_is_eol x = true) heol
                · exact absurd (by simp [tok_is_eol, hc]
                      : tok_is_eol x = true) heol
                · exact absurd (by simp [tok_is_comment, hc.1]
                      : tok_is_comment x = true) hcom
                · exact hc

theorem next_parameters_wf (lx : Lexer) (ts : List Tok) (lx' : Lexer)
    (hwl : WfLexer lx) (h : next_parameters lx = .ok (ts, lx')) :
    (∀ x ∈ ts, wfTok x = true) ∧ WfLexer lx' :=
  params_go_wf (lx.mu + 1) lx [] ts lx' hwl (by intro x hx; cases hx) h

/-! ### Dictionary insertion preserves well-formedness -/

theorem dictGet_insert_other {α : Type} (d : List (Tok × α)) (k k' : Tok)
    (v : α) (hne : ¬ k = k') (hget : dictGet d k' = none) :
    dictGet (dictInsert d k v) k' = none := by
  induction d with
  | nil => simp [dictInsert, dictGet, if_neg hne]
  | cons p rest ih =>
      obtain ⟨k0, v0⟩ := p
      simp only [dictGet] at hget
      by_cases h0 : k0 = k'
      · rw [if_pos h0] at hget
        cases hget
      · rw [if_neg h0] at hget
        simp only [dictInsert]
        by_cases hk0 : k0 = k
        · rw [if_pos hk0]
          simp only [dictGet]
          rw [if_neg h0]
          exact hget
        · rw [if_neg hk0]
          simp only [dictGet]
          rw [if_neg h0]
          exact ih hget

theorem dictInsert_forall {α : Type} (d : List (Tok × α)) (k : Tok) (v : α)
    (P : Tok × α → Prop) (hall : ∀ kv ∈ d, P kv) (hnew : P (k, v)) :
    ∀ kv ∈ dictInsert d k v, P kv := by
  induction d with
  | nil =>
      intro kv hkv
      simp [dictInsert] at hkv
      subst hkv
      exact hnew
  | cons p rest ih =>
      obtain ⟨k0, v0⟩ := p
      intro kv hkv
      simp only [dictInsert] at hkv
      by_cases hk0 : k0 = k
      · rw [if_pos hk0] at hkv
        rcases List.mem_cons.mp hkv with hkv | hkv
        · subst hkv hk0
          exact hnew
        · exact hall kv (by simp [hkv])
      · rw [if_neg hk0] at hkv
        rcases List.mem_cons.mp hkv with hkv | hkv
        · subst hkv
          exact hall (k0, v0) (by simp)
        · exact ih (fun x hx => hall x (by simp [hx])) kv hkv

theorem dictInsert_wf_obj (es : Entries) (k : Tok) (v : FgtConfigNode)
    (hwf : WfObjEntries es) (hek : WfEntryKey k v) (hv : WfNode v) :
    WfObjEntries (dictInsert es k v) := by
  induction es with
  | nil => exact ⟨hek, hv, rfl, trivial⟩
  | cons p rest ih =>
      obtain ⟨k0, v0⟩ := p
      obtain ⟨hek0, hv0, hget0, hrest⟩ := hwf
      simp only [dictInsert]
      by_cases hk0 : k0 = k
      · rw [if_pos hk0]
        subst hk0
        exact ⟨hek, hv, hget0, hrest⟩
      · rw [if_neg hk0]
        exact ⟨hek0, hv0, dictGet_insert_other rest k k0 v
          (fun h => hk0 h.symm) hget0, ih hrest⟩

theorem dictInsert_wf_tab (es : Entries) (k : Tok) (v : FgtConfigNode)
    (hwf : WfTabEntries es) (hk : wfTok k = true) (ho : isObject v = true)
    (hv : WfNode v) : WfTabEntries (dictInsert es k v) := by
  induction es with
  | nil => exact ⟨hk, ho, hv, rfl, trivial⟩
  | cons p rest ih =>
      obtain ⟨k0, v0⟩ := p
      obtain ⟨hk0, ho0, hv0, hget0, hrest⟩ := hwf
      simp only [dictInsert]
      by_cases hkk : k0 = k
      · rw [if_pos hkk]
        subst hkk
        exact ⟨hk0, ho, hv, hget0, hrest⟩
      · rw [if_neg hkk]
        exact ⟨hk0, ho0, hv0, dictGet_insert_other rest k k0 v
          (fun h => hkk h.symm) hget0, ih hrest⟩

theorem dictInsert_wf_vdoms (vd : List (Tok × Entries)) (k : Tok)
    (es : Entries) (hwf : WfVdoms vd) (hk : WfKey k)
    (hes : WfObjEntries es) : WfVdoms (dictInsert vd k es) := by
  induction vd with
  | nil => exact ⟨hk, hes, rfl, trivial⟩
  | cons p rest ih =>
      obtain ⟨k0, es0⟩ := p
      obtain ⟨hk0, hes0, hget0, hrest⟩ := hwf
      simp only [dictInsert]
      by_cases hkk : k0 = k
      · rw [if_pos hkk]
        subst hkk
        exact ⟨hk0, hes, hget0, hrest⟩
      · rw [if_neg hkk]
        exact ⟨hk0, hes0, dictGet_insert_other rest k k0 es
          (fun h => hkk h.symm) hget0, ih hrest⟩

theorem wfTok_WfKey (k : Tok) (h : wfTok k = true) : WfKey k :=
  ⟨[k], by simp, by intro t ht; simp at ht; subst ht; exact h, rfl⟩

theorem dictInsert_ne_nil {α : Type} (d : List (Tok × α)) (k : Tok) (v : α) :
    dictInsert d k v ≠ [] := by
  cases d with
  | nil => simp [dictInsert]
  | cons p rest =>
      obtain ⟨k0, v0⟩ := p
      simp only [dictInsert]
      split <;> simp

theorem headD_mem {α : Type} [Inhabited α] (ts : List α) (dflt : α)
    (h : ts ≠ []) : ts.headD dflt ∈ ts := by
  match ts with
  | [] => exact absurd rfl h
  | t :: rest => simp

theorem isBody_WfEntryKey (k : Tok) (v : FgtConfigNode)
    (hb : isBody v = true) (hk : WfKey k) : WfEntryKey k v := by
  cases v with
  | set ps => simp [isBody, isSet, isObject, isTable] at hb
  | unset => simp [isBody, isSet, isObject, isTable] at hb
  | object es => exact hk
  | table es => exact hk

/-- Every tree a parser function returns is well formed, and the lexer
state it leaves behind holds only classified pushback tokens. -/
theorem parser_wf (f : Nat) :
    (∀ (e : Tok) (lx : Lexer) (kv : Tok × FgtConfigNode) (lx' : Lexer),
      WfLexer lx → _parse_config_command f e lx = .ok (kv, lx') →
      WfEntryKey kv.1 kv.2 ∧ WfNode kv.2 ∧ WfLexer lx') ∧
    (∀ (vd : Bool) (lx : Lexer) (kv : Tok × FgtConfigNode) (lx' : Lexer),
      WfLexer lx → _parse_table_entry f vd lx = .ok (kv, lx') →
      wfTok kv.1 = true ∧ isObject kv.2 = true ∧ WfNode kv.2
        ∧ WfLexer lx') ∧
    (∀ (vd : Bool) (cfg : Entries) (lx : Lexer) (cfg' : Entries)
        (lx' : Lexer),
      WfLexer lx → WfObjEntries cfg →
      table_entry_loop f vd cfg lx = .ok (cfg', lx') →
      WfObjEntries cfg' ∧ WfLexer lx') ∧
    (∀ (lx : Lexer) (kv : Tok × FgtConfigNode) (lx' : Lexer),
      WfLexer lx → _parse_config f lx = .ok (kv, lx') →
      WfKey kv.1 ∧ WfNode kv.2 ∧ isBody kv.2 = true ∧ WfLexer lx') ∧
    (∀ (vd : Bool) (token : Tok) (cfg : Entries) (lx : Lexer)
        (cfg' : Entries) (lx' : Lexer),
      WfLexer lx → WfTabEntries cfg →
      config_table_loop f vd token cfg lx = .ok (cfg', lx') →
      WfTabEntries cfg' ∧ (cfg' = [] → cfg = [] ∧ token = strT "end")
        ∧ WfLexer lx') ∧
    (∀ (token : Tok) (cfg : Entries) (lx : Lexer) (cfg' : Entries)
        (lx' : Lexer),
      WfLexer lx → WfObjEntries cfg →
      config_object_loop f token cfg lx = .ok (cfg', lx') →
      WfObjEntries cfg' ∧ WfLexer lx') := by
  induction f with
  | zero =>
      refine ⟨?_, ?_, ?_, ?_, ?_, ?_⟩
      · intro e lx kv lx' _ h; simp [_parse_config_command] at h
      · intro vd lx kv lx' _ h; simp [_parse_table_entry] at h
      · intro vd cfg lx cfg' lx' _ _ h; simp [table_entry_loop] at h
      · intro lx kv lx' _ h; simp [_parse_config] at h
      · intro vd token cfg lx cfg' lx' _ _ h; simp [config_table_loop] at h
      · intro token cfg lx cfg' lx' _ _ h; simp [config_object_loop] at h
  | succ f ih =>
      obtain ⟨ihA, ihB, ihC, ihD, ihE, ihF⟩ := ih
      refine ⟨?_, ?_, ?_, ?_, ?_, ?_⟩
      · -- _parse_config_command
        intro e lx kv lx' hwl h
        simp only [_parse_config_command] at h
        by_cases hset : e = strT "set"
        · rw [if_pos hset] at h
          rw [_parse_set_command.eq_def] at h
          cases hnp : next_parameters lx with
          | error e2 => rw [hnp] at h; simp at h
          | ok p =>
              obtain ⟨ts, lx1⟩ := p
              rw [hnp] at h
              simp only [] at h
              obtain ⟨hts, hwl1⟩ := next_parameters_wf lx ts lx1 hwl hnp
              by_cases hlen : ts.length < 2
              · rw [if_pos hlen] at h; simp at h
              · rw [if_neg hlen] at h
                cases h
                have htsne : ts ≠ [] := by
                  intro h0; subst h0; simp at hlen
                refine ⟨hts _ (headD_mem ts [] htsne), ⟨?_, ?_⟩, hwl1⟩
                · intro h0
                  have := congrArg List.length h0
                  simp at this
                  omega
                · intro x hx
                  exact hts x (List.mem_of_mem_drop hx)
        · rw [if_neg hset] at h
          by_cases huns : e = strT "unset"
          · rw [if_pos huns] at h
            rw [_parse_unset_command.eq_def] at h
            cases hnp : next_parameters lx with
            | error e2 => rw [hnp] at h; simp at h
            | ok p =>
                obtain ⟨ts, lx1⟩ := p
                rw [hnp] at h
                simp only [] at h
                obtain ⟨hts, hwl1⟩ := next_parameters_wf lx ts lx1 hwl hnp
                by_cases hlen : ts.length ≠ 1
                · rw [if_pos hlen] at h; simp at h
                · rw [if_neg hlen] at h
                  cases h
                  have htsne : ts ≠ [] := by
                    intro h0; subst h0; simp at hlen
                  exact ⟨hts _ (headD_mem ts [] htsne), trivial, hwl1⟩
          · rw [if_neg huns] at h
            by_cases hcfg : e = strT "config"
            · rw [if_pos hcfg] at h
              obtain ⟨hk, hv, hb, hwl'⟩ := ihD lx kv lx' hwl h
              exact ⟨isBody_WfEntryKey kv.1 kv.2 hb hk, hv, hwl'⟩
            · rw [if_neg hcfg] at h
              simp at h
      · -- _parse_table_entry
        intro vd lx kv lx' hwl h
        simp only [_parse_table_entry] at h
        cases hnp : next_parameters lx with
        | error e2 => rw [hnp] at h; simp at h
        | ok p =>
            obtain ⟨ek, lx1⟩ := p
            rw [hnp] at h
            simp only [] at h
            obtain ⟨hek, hwl1⟩ := next_parameters_wf lx ek lx1 hwl hnp
            by_cases hlen : ek.length ≠ 1
            · rw [if_pos hlen] at h; simp at h
            · rw [if_neg hlen] at h
              cases htl : table_entry_loop f vd [] lx1 with
              | error e2 => rw [htl] at h; simp at h
              | ok p2 =>
                  obtain ⟨cfg, lx2⟩ := p2
                  rw [htl] at h
                  simp only [] at h
                  cases h
                  obtain ⟨hcfg, hwl2⟩ := ihC vd [] lx1 cfg _ hwl1 trivial htl
                  have hekne : ek ≠ [] := by
                    intro h0; subst h0; simp at hlen
                  exact ⟨hek _ (headD_mem ek [] hekne), rfl, hcfg, hwl2⟩
      · -- table_entry_loop
        intro vd cfg lx cfg' lx' hwl hcfg h
        simp only [table_entry_loop] at h
        cases hsnl : next_snl_token true lx with
        | error e2 => rw [hsnl] at h; simp at h
        | ok p =>
            obtain ⟨token, lx1⟩ := p
            rw [hsnl] at h
            simp only [] at h
            obtain ⟨hct, hwl1⟩ := next_snl_token_class true lx token lx1 hwl hsnl
            by_cases hterm : token = strT "next" ∨ (vd = true ∧ token = strT "end")
            · rw [if_pos hterm] at h
              by_cases hende : vd = true ∧ token = strT "end"
              · rw [if_pos hende] at h
                cases h
                refine ⟨hcfg, ?_⟩
                intro x hx
                simp [push_token] at hx
                subst hx
                exact hct
              · rw [if_neg hende] at h
                cases h
                exact ⟨hcfg, hwl1⟩
            · rw [if_neg hterm] at h
              cases hcc : _parse_config_command f token lx1 with
              | error e2 => rw [hcc] at h; simp at h
              | ok p2 =>
                  obtain ⟨kv2, lx2⟩ := p2
                  obtain ⟨k2, v2⟩ := kv2
                  rw [hcc] at h
                  simp only [] at h
                  obtain ⟨hek2, hv2, hwl2⟩ := ihA token lx1 (k2, v2) lx2 hwl1 hcc
                  exact ihC vd (dictInsert cfg k2 v2) lx2 cfg' lx' hwl2
                    (dictInsert_wf_obj cfg k2 v2 hcfg hek2 hv2) h
      · -- _parse_config
        intro lx kv lx' hwl h
        simp only [_parse_config] at h
        cases hnp : next_parameters lx with
        | error e2 => rw [hnp] at h; simp at h
        | ok p =>
            obtain ⟨ts, lx1⟩ := p
            rw [hnp] at h
            simp only [] at h
            obtain ⟨hts, hwl1⟩ := next_parameters_wf lx ts lx1 hwl hnp
            by_cases hlen : ts.length = 0
            · rw [if_pos hlen] at h; simp at h
            · rw [if_neg hlen] at h
              cases hsnl : next_snl_token true lx1 with
              | error e2 => rw [hsnl] at h; simp at h
              | ok p2 =>
                  obtain ⟨token, lx2⟩ := p2
                  rw [hsnl] at h
                  simp only [] at h
                  obtain ⟨hct, hwl2⟩ :=
                    next_snl_token_class true lx1 token lx2 hwl1 hsnl
                  have htsne : ts ≠ [] := by
                    intro h0; subst h0; simp at hlen
                  have hkey : WfKey (joinSp ts) := ⟨ts, htsne, hts, rfl⟩
                  by_cases hedit : token = strT "edit"
                  · rw [if_pos hedit] at h
                    cases htl : config_table_loop f
                        (decide (ts.headD [] = VDOM)) token [] lx2 with
                    | error e2 => rw [htl] at h; simp at h
                    | ok p3 =>
                        obtain ⟨cfg, lx3⟩ := p3
                        rw [htl] at h
                        simp only [] at h
                        cases h
                        obtain ⟨hcfg, hne, hwl3⟩ := ihE _ token [] lx2 cfg _
                          hwl2 trivial htl
                        refine ⟨hkey, ⟨?_, hcfg⟩, rfl, hwl3⟩
                        intro h0
                        obtain ⟨-, hte⟩ := hne h0
                        rw [hedit] at hte
                        exact absurd hte (by decide)
                  · rw [if_neg hedit] at h
                    cases hol : config_object_loop f token [] lx2 with
                    | error e2 => rw [hol] at h; simp at h
                    | ok p3 =>
                        obtain ⟨cfg, lx3⟩ := p3
                        rw [hol] at h
                        simp only [] at h
                        cases h
                        obtain ⟨hcfg, hwl3⟩ := ihF token [] lx2 cfg _ hwl2
                          trivial hol
                        exact ⟨hkey, hcfg, rfl, hwl3⟩
      · -- config_table_loop
        intro vd token cfg lx cfg' lx' hwl hcfg h
        simp only [config_table_loop] at h
        by_cases hend : token = strT "end"
        · rw [if_pos hend] at h
          cases h
          exact ⟨hcfg, fun h0 => ⟨h0, hend⟩, hwl⟩
        · rw [if_neg hend] at h
          cases hte : _parse_table_entry f vd lx with
          | error e2 => rw [hte] at h; simp at h
          | ok p =>
              obtain ⟨kv2, lx1⟩ := p
              obtain ⟨tk, tv⟩ := kv2
              rw [hte] at h
              simp only [] at h
              obtain ⟨htk, hto, htv, hwl1⟩ := ihB vd lx (tk, tv) lx1 hwl hte
              cases hsnl : next_snl_token true lx1 with
              | error e2 => rw [hsnl] at h; simp at h
              | ok p2 =>
                  obtain ⟨token2, lx2⟩ := p2
                  rw [hsnl] at h
                  simp only [] at h
                  obtain ⟨hct2, hwl2⟩ :=
                    next_snl_token_class true lx1 token2 lx2 hwl1 hsnl
                  obtain ⟨hcfg', hne', hwl'⟩ := ihE vd token2
                    (dictInsert cfg tk tv) lx2 cfg' lx' hwl2
                    (dictInsert_wf_tab cfg tk tv hcfg htk hto htv) h
                  refine ⟨hcfg', ?_, hwl'⟩
                  intro h0
                  obtain ⟨hnil, -⟩ := hne' h0
                  exact absurd hnil (dictInsert_ne_nil cfg tk tv)
      · -- config_object_loop
        intro token cfg lx cfg' lx' hwl hcfg h
        simp only [config_object_loop] at h
        by_cases hend : token = strT "end"
        · rw [if_pos hend] at h
          cases h
          exact ⟨hcfg, hwl⟩
        · rw [if_neg hend] at h
          cases hcc : _parse_config_command f token lx with
          | error e2 => rw [hcc] at h; simp at h
          | ok p =>
              obtain ⟨kv2, lx1⟩ := p
              obtain ⟨k2, v2⟩ := kv2
              rw [hcc] at h
              simp only [] at h
              obtain ⟨hek2, hv2, hwl1⟩ := ihA token lx (k2, v2) lx1 hwl hcc
              cases hsnl : next_snl_token true lx1 with
              | error e2 => rw [hsnl] at h; simp at h
              | ok p2 =>
                  obtain ⟨token2, lx2⟩ := p2
                  rw [hsnl] at h
                  simp only [] at h
                  obtain ⟨hct2, hwl2⟩ :=
                    next_snl_token_class true lx1 token2 lx2 hwl1 hsnl
                  exact ihF token2 (dictInsert cfg k2 v2) lx2 cfg' lx' hwl2
                    (dictInsert_wf_obj cfg k2 v2 hcfg hek2 hv2) h

theorem ClassTok_comment (t : Tok) (hc : ClassTok t)
    (h : tok_is_comment t = true) : t.head? = some '#' ∧ '\n' ∉ t := by
  rcases hc with hc | hc | hc | hc
  · have : t = [] := by simpa [tok_is_eos, List.isEmpty_iff] using hc
    subst this
    simp [tok_is_comment] at h
  · subst hc
    simp [tok_is_comment] at h
  · exact hc
  · exact absurd h (by simp [(wfTok_class t hc).2.2])

theorem WfObjEntries_mem (es : Entries) (h : WfObjEntries es) :
    ∀ kv ∈ es, WfEntryKey kv.1 kv.2 ∧ WfNode kv.2 := by
  induction es with
  | nil => intro kv hkv; cases hkv
  | cons p rest ih =>
      obtain ⟨k, v⟩ := p
      obtain ⟨hek, hv, -, hrest⟩ := h
      intro kv hkv
      rcases List.mem_cons.mp hkv with hkv | hkv
      · subst hkv; exact ⟨hek, hv⟩
      · exact ih hrest kv hkv

theorem WfTabEntries_mem (es : Entries) (h : WfTabEntries es) :
    ∀ kv ∈ es, wfTok kv.1 = true ∧ WfNode kv.2 := by
  induction es with
  | nil => intro kv hkv; cases hkv
  | cons p rest ih =>
      obtain ⟨k, v⟩ := p
      obtain ⟨hk, -, hv, -, hrest⟩ := h
      intro kv hkv
      rcases List.mem_cons.mp hkv with hkv | hkv
      · subst hkv; exact ⟨hk, hv⟩
      · exact ih hrest kv hkv

theorem WfTab_to_WfObj (es : Entries) (h : WfTabEntries es) :
    WfObjEntries es := by
  induction es with
  | nil => trivial
  | cons p rest ih =>
      obtain ⟨k, v⟩ := p
      obtain ⟨hk, ho, hv, hget, hrest⟩ := h
      refine ⟨?_, hv, hget, ih hrest⟩
      cases v with
      | set ps => simp [isObject] at ho
      | unset => simp [isObject] at ho
      | object es2 => exact wfTok_WfKey k hk
      | table es2 => simp [isObject] at ho

theorem dictGet_some_mem {α : Type} (d : List (Tok × α)) (k : Tok) (v : α)
    (h : dictGet d k = some v) : (k, v) ∈ d := by
  induction d with
  | nil => simp [dictGet] at h
  | cons p rest ih =>
      obtain ⟨k0, v0⟩ := p
      simp only [dictGet] at h
      by_cases hk0 : k0 = k
      · rw [if_pos hk0] at h
        cases h
        subst hk0
        simp
      · rw [if_neg hk0] at h
        simp [ih h]

theorem add_vdoms_wf (items : Entries) :
    ∀ (cm : List Tok) (vd vd' : List (Tok × Entries)),
      WfVdoms vd →
      (∀ kv ∈ items, ∀ es2, kv.2 = .object es2 →
        WfKey kv.1 ∧ WfObjEntries es2) →
      add_vdoms cm items vd = .ok vd' → WfVdoms vd' := by
  induction items with
  | nil =>
      intro cm vd vd' hvd _ h
      simp only [add_vdoms] at h
      cases h
      exact hvd
  | cons p rest ih =>
      intro cm vd vd' hvd hitems h
      obtain ⟨k, v⟩ := p
      simp only [add_vdoms] at h
      cases v with
      | set ps => simp at h
      | unset => simp at h
      | table es => simp at h
      | object es =>
          cases hcv : comments_version cm with
          | error e => rw [hcv] at h; simp at h
          | ok x =>
              rw [hcv] at h
              simp only [] at h
              obtain ⟨hk, hes⟩ := hitems (k, .object es) (by simp) es rfl
              exact ih cm (dictInsert vd k es) vd'
                (dictInsert_wf_vdoms vd k es hvd hk hes)
                (fun kv hkv => hitems kv (by simp [hkv])) h

theorem comments_loop_wf (f : Nat) :
    ∀ (acc : List Tok) (lx : Lexer) (cm : List Tok) (t : Tok) (lx' : Lexer),
      WfLexer lx → (∀ c ∈ acc, c.head? = some '#' ∧ '\n' ∉ c) →
      comments_loop f acc lx = .ok (cm, t, lx') →
      (∀ c ∈ cm, c.head? = some '#' ∧ '\n' ∉ c) ∧ WfLexer lx' := by
  induction f with
  | zero => intro acc lx cm t lx' _ _ h; simp [comments_loop] at h
  | succ f ih =>
      intro acc lx cm t lx' hwl hacc h
      simp only [comments_loop] at h
      cases hsnl : next_snl_token false lx with
      | error e => rw [hsnl] at h; simp at h
      | ok p =>
          obtain ⟨t0, lx0⟩ := p
          rw [hsnl] at h
          simp only [] at h
          obtain ⟨hct, hwl0⟩ := next_snl_token_class false lx t0 lx0 hwl hsnl
          by_cases hcom : tok_is_comment t0 = true
          · rw [if_pos hcom] at h
            refine ih (acc ++ [t0]) lx0 cm t lx' hwl0 ?_ h
            intro c hc
            rcases List.mem_append.mp hc with hc | hc
            · exact hacc c hc
            · have : c = t0 := by simpa using hc
              subst this
              exact ClassTok_comment c hct hcom
          · rw [if_neg hcom] at h
            cases h
            exact ⟨hacc, hwl0⟩

theorem top_loop_wf (f : Nat) :
    ∀ (cm : List Tok) (token : Tok) (g : Entries)
      (vd : List (Tok × Entries)) (lx : Lexer) (g' : Entries)
      (vd' : List (Tok × Entries)) (lx' : Lexer),
      WfLexer lx → WfObjEntries g → (∀ kv ∈ g, kv.1 ≠ VDOM) → WfVdoms vd →
      top_loop f cm token g vd lx = .ok (g', vd', lx') →
      WfObjEntries g' ∧ (∀ kv ∈ g', kv.1 ≠ VDOM) ∧ WfVdoms vd' := by
  induction f with
  | zero => intro cm token g vd lx g' vd' lx' _ _ _ _ h; simp [top_loop] at h
  | succ f ih =>
      intro cm token g vd lx g' vd' lx' hwl hg hgk hvd h
      simp only [top_loop] at h
      by_cases heos : tok_is_eos token = true
      · rw [if_pos heos] at h
        cases h
        exact ⟨hg, hgk, hvd⟩
      · rw [if_neg heos] at h
        by_cases hcfg : token = strT "config"
        · rw [if_pos hcfg] at h
          cases hpc : _parse_config f lx with
          | error e => rw [hpc] at h; simp at h
          | ok p =>
              obtain ⟨kv, lx1⟩ := p
              obtain ⟨k, v⟩ := kv
              rw [hpc] at h
              simp only [] at h
              obtain ⟨hk, hv, hb, hwl1⟩ :=
                (parser_wf f).2.2.2.1 lx (k, v) lx1 hwl hpc
              have hitems : ∀ kv2 ∈ bodyItems v, ∀ es2,
                  kv2.2 = .object es2 → WfKey kv2.1 ∧ WfObjEntries es2 := by
                intro kv2 hkv2 es2 hes2
                cases v with
                | set ps => simp [isBody, isSet, isObject, isTable] at hb
                | unset => simp [isBody, isSet, isObject, isTable] at hb
                | object es =>
                    obtain ⟨hek2, hv2⟩ :=
                      WfObjEntries_mem es hv kv2 (by simpa [bodyItems] using hkv2)
                    rw [hes2] at hek2 hv2
                    exact ⟨hek2, hv2⟩
                | table es =>
                    obtain ⟨hk2, hv2⟩ :=
                      WfTabEntries_mem es hv.2 kv2 (by simpa [bodyItems] using hkv2)
                    rw [hes2] at hv2
                    exact ⟨wfTok_WfKey kv2.1 hk2, hv2⟩
              by_cases hkv : k = VDOM
              · rw [if_pos hkv] at h
                cases hav : add_vdoms cm (bodyItems v) vd with
                | error e => rw [hav] at h; simp at h
                | ok vd2 =>
                    rw [hav] at h
                    simp only [] at h
                    rw [if_pos hkv] at h
                    cases hsnl : next_snl_token false lx1 with
                    | error e => rw [hsnl] at h; simp at h
                    | ok p2 =>
                        obtain ⟨t2, lx2⟩ := p2
                        rw [hsnl] at h
                        simp only [] at h
                        obtain ⟨-, hwl2⟩ :=
                          next_snl_token_class false lx1 t2 lx2 hwl1 hsnl
                        exact ih cm t2 g vd2 lx2 g' vd' lx' hwl2 hg hgk
                          (add_vdoms_wf (bodyItems v) cm vd vd2 hvd hitems hav)
                          h
              · rw [if_neg hkv] at h
                simp only [] at h
                rw [if_neg hkv] at h
                cases hsnl : next_snl_token false lx1 with
                | error e => rw [hsnl] at h; simp at h
                | ok p2 =>
                    obtain ⟨t2, lx2⟩ := p2
                    rw [hsnl] at h
                    simp only [] at h
                    obtain ⟨-, hwl2⟩ :=
                      next_snl_token_class false lx1 t2 lx2 hwl1 hsnl
                    exact ih cm t2 (dictInsert g k v) vd lx2 g' vd' lx' hwl2
                      (dictInsert_wf_obj g k v hg
                        (isBody_WfEntryKey k v hb hk) hv)
                      (dictInsert_forall g k v (fun kv2 => kv2.1 ≠ VDOM)
                        hgk hkv)
                      hvd h
        · rw [if_neg hcfg] at h
          simp at h

/-- Everything `FgtConfigParser.parse` returns is well formed. -/
theorem parse_wf (D : Tok) (C : FgtConfig) (h : parse D = .ok C) :
    WfConfig C := by
  simp only [parse] at h
  cases hcm : comments_loop (2 * D.length + 16) [] ⟨D, none, none⟩ with
  | error e => rw [hcm] at h; simp at h
  | ok p =>
      obtain ⟨cm, t, lx1⟩ := p
      rw [hcm] at h
      simp only [] at h
      obtain ⟨hcmwf, hwl1⟩ := comments_loop_wf _ [] _ cm t lx1
        (by intro x hx; cases hx) (by intro c hc; cases hc) hcm
      cases htl : top_loop (2 * D.length + 16) cm t [] [] lx1 with
      | error e => rw [htl] at h; simp at h
      | ok p2 =>
          obtain ⟨g, vd, lx2⟩ := p2
          rw [htl] at h
          simp only [] at h
          obtain ⟨hg, hgk, hvd⟩ := top_loop_wf _ cm t [] [] lx1 g vd lx2
            hwl1 trivial (by intro kv hkv; cases hkv) trivial htl
          by_cases hvde : vd.isEmpty = true
          · rw [if_pos hvde] at h
            simp only [] at h
            cases hver : comments_version cm with
            | error e => rw [hver] at h; simp at h
            | ok x =>
                rw [hver] at h
                simp only [] at h
                obtain ⟨hall, hC⟩ := make_ok h
                subst hC
                have hvdnil : vd = [] := by
                  simpa [List.isEmpty_iff] using hvde
                exact ⟨⟨hcmwf, x, hver⟩, hg,
                  fun kv hkv => List.all_eq_true.mp hall kv hkv,
                  hvd, fun _ => hgk⟩
          · rw [if_neg hvde] at h
            cases hget : dictGet g (strT "global") with
            | none => rw [hget] at h; simp at h
            | some v =>
                rw [hget] at h
                simp only [] at h
                cases hver : comments_version cm with
                | error e => rw [hver] at h; simp at h
                | ok x =>
                    rw [hver] at h
                    simp only [] at h
                    obtain ⟨hall, hC⟩ := make_ok h
                    subst hC
                    have hmem := dictGet_some_mem g (strT "global") v hget
                    obtain ⟨-, hv⟩ := WfObjEntries_mem g hg _ hmem
                    have hbody : WfObjEntries (bodyItems v) := by
                      cases v with
                      | set ps => exact trivial
                      | unset => exact trivial
                      | object es => exact hv
                      | table es => exact WfTab_to_WfObj es hv.2
                    refine ⟨⟨hcmwf, x, hver⟩, hbody,
                      fun kv hkv => List.all_eq_true.mp hall kv hkv,
                      hvd, fun h0 => ?_⟩
                    have h0' : vd = [] := h0
                    exact absurd (by simp [h0'] : vd.isEmpty = true) hvde

/-! ### Reading the remaining canonical states -/

theorem next_snl_token_eos_false :
    next_snl_token false ⟨[], none, none⟩ = .ok ([], ⟨[], none, none⟩) := rfl

theorem next_snl_token_pbtok (b : Bool) (t : Tok) (s : List Char)
    (ch : Option PChar) (hne : tok_is_eol t = false) :
    next_snl_token b ⟨s, ch, some t⟩ = .ok (t, ⟨s, ch, none⟩) := by
  have heos : tok_is_eos t = false := by
    simp only [tok_is_eol, Bool.or_eq_false_iff] at hne
    exact hne.2
  simp only [next_snl_token]
  rw [next_snl_go_step (Lexer.mu ⟨s, ch, some t⟩) ⟨s, ch, some t⟩
    ⟨s, ch, none⟩ t rfl]
  rw [if_neg (by simp [hne])]
  simp only []
  rw [if_neg (by simp [heos])]

theorem next_snl_token_comment (b : Bool) (body s : List Char)
    (hb : '\n' ∉ body) :
    next_snl_token b ⟨('#' :: body) ++ '\n' :: s, none, none⟩
      = .ok ('#' :: body, ⟨s, none, none⟩) := by
  simp only [next_snl_token]
  rw [next_snl_go_step (Lexer.mu ⟨('#' :: body) ++ '\n' :: s, none, none⟩)
    _ _ _ (next_token_comment body s hb)]
  rw [if_neg (by simp [tok_is_eol])]
  simp only []
  rw [if_neg (by simp [tok_is_eos])]

theorem comments_loop_comment (f : Nat) (acc : List Tok) (lx lx1 : Lexer)
    (t : Tok) (h : next_snl_token false lx = .ok (t, lx1))
    (hc : tok_is_comment t = true) :
    comments_loop (f + 1) acc lx = comments_loop f (acc ++ [t]) lx1 := by
  conv_lhs => rw [comments_loop]
  rw [h]
  simp only []
  rw [if_pos hc]

theorem comments_loop_stop (f : Nat) (acc : List Tok) (lx lx1 : Lexer)
    (t : Tok) (h : next_snl_token false lx = .ok (t, lx1))
    (hc : tok_is_comment t = false) :
    comments_loop (f + 1) acc lx = .ok (acc, t, lx1) := by
  conv_lhs => rw [comments_loop]
  rw [h]
  simp only []
  rw [if_neg (by simp [hc])]

/-- The comment-collection loop consumes exactly the rendered comment
lines, one fuel unit each. -/
theorem comments_render (cs : List Tok) :
    ∀ (f : Nat) (acc : List Tok) (s : List Char),
      (∀ c ∈ cs, c.head? = some '#' ∧ '\n' ∉ c) →
      comments_loop (f + cs.length) acc ⟨linesText cs ++ s, none, none⟩
        = comments_loop f (acc ++ cs) ⟨s, none, none⟩ := by
  induction cs with
  | nil => intro f acc s _; simp [linesText]
  | cons c rest ih =>
      intro f acc s hwf
      obtain ⟨hh, hnl⟩ := hwf c (by simp)
      obtain ⟨body, rfl⟩ : ∃ body, c = '#' :: body := by
        match c, hh with
        | x :: body, hh =>
            simp at hh
            subst hh
            exact ⟨body, rfl⟩
      have htext : linesText (('#' :: body) :: rest) ++ s
          = ('#' :: body) ++ '\n' :: (linesText rest ++ s) := by
        simp [linesText]
      rw [htext]
      have hsnl := next_snl_token_comment false body (linesText rest ++ s)
        (by simpa using hnl)
      rw [show f + (('#' :: body) :: rest).length
          = (f + rest.length) + 1 from by simp; omega]
      rw [comments_loop_comment (f + rest.length) acc _ _ _ hsnl
        (by simp [tok_is_comment])]
      rw [ih f (acc ++ ['#' :: body]) s
        (fun x hx => hwf x (by simp [hx]))]
      simp

theorem next_snl_false_of_true (lx : Lexer) (t : Tok) (lx' : Lexer)
    (h : next_snl_token true lx = .ok (t, lx')) :
    next_snl_token false lx = .ok (t, lx') := by
  simp only [next_snl_token] at h ⊢
  cases hgo : next_snl_go (lx.mu + 1) lx with
  | error e => rw [hgo] at h; simp at h
  | ok p =>
      obtain ⟨t0, lx0⟩ := p
      rw [hgo] at h
      simp only [] at h
      simp only []
      by_cases he : tok_is_eos t0 = true
      · rw [if_pos (by simp [he])] at h
        simp at h
      · rw [if_neg (by simp [he])] at h
        rw [if_neg (by simp)]
        exact h

theorem top_loop_eos (f : Nat) (cm : List Tok) (token : Tok) (g : Entries)
    (vd : List (Tok × Entries)) (lx : Lexer)
    (h : tok_is_eos token = true) :
    top_loop (f + 1) cm token g vd lx = .ok (g, vd, lx) := by
  conv_lhs => rw [top_loop]
  rw [if_pos h]

theorem top_loop_config_glb (f : Nat) (cm : List Tok) (g : Entries)
    (vd : List (Tok × Entries)) (lx lx1 lx2 : Lexer) (k : Tok)
    (v : FgtConfigNode) (token' : Tok)
    (h1 : _parse_config f lx = .ok ((k, v), lx1))
    (hk : ¬ k = VDOM)
    (h2 : next_snl_token false lx1 = .ok (token', lx2)) :
    top_loop (f + 1) cm (strT "config") g vd lx
      = top_loop f cm token' (dictInsert g k v) vd lx2 := by
  conv_lhs => rw [top_loop]
  rw [if_neg (show ¬ tok_is_eos (strT "config") = true by decide),
    if_pos rfl, h1]
  simp only []
  rw [if_neg hk]
  simp only []
  rw [if_neg hk, h2]

theorem top_loop_config_vdom (f : Nat) (cm : List Tok) (g : Entries)
    (vd vd' : List (Tok × Entries)) (lx lx1 lx2 : Lexer)
    (v : FgtConfigNode) (token' : Tok)
    (h1 : _parse_config f lx = .ok ((VDOM, v), lx1))
    (h2 : add_vdoms cm (bodyItems v) vd = .ok vd')
    (h3 : next_snl_token false lx1 = .ok (token', lx2)) :
    top_loop (f + 1) cm (strT "config") g vd lx
      = top_loop f cm token' g vd' lx2 := by
  conv_lhs => rw [top_loop]
  rw [if_neg (show ¬ tok_is_eos (strT "config") = true by decide),
    if_pos rfl, h1]
  simp only []
  rw [if_pos trivial, h2]
  simp only []
  rw [if_pos trivial, h3]

/-- Reparsing the rendered top-level blocks of a single-vdom
configuration. -/
theorem top_loop_root (es : Entries) :
    ∀ (f : Nat) (cm : List Tok) (g : Entries) (vd : List (Tok × Entries)),
      WfObjEntries es → (∀ kv ∈ es, isBody kv.2 = true) →
      (∀ kv ∈ es, kv.1 ≠ VDOM) → costLoopO es ≤ f →
      ∃ tok lx₀ lxf,
        next_snl_token false
            ⟨linesText (renderList false 0 es), none, none⟩
          = .ok (tok, lx₀)
        ∧ tok_is_comment tok = false
        ∧ top_loop f cm tok g vd lx₀ = .ok (dictFold g es, vd, lxf) := by
  induction es with
  | nil =>
      intro f cm g vd _ _ _ hf
      have hf' : 1 ≤ f := hf
      obtain ⟨f', rfl⟩ : ∃ f', f = f' + 1 := ⟨f - 1, by omega⟩
      refine ⟨[], ⟨[], none, none⟩, ⟨[], none, none⟩, ?_, by decide, ?_⟩
      · rw [show linesText (renderList false 0 ([] : Entries)) = []
            from rfl]
        exact next_snl_token_eos_false
      · exact top_loop_eos f' cm [] g vd _ (by decide)
  | cons p rest ih =>
      intro f cm g vd hwf hbody hkv hf
      obtain ⟨k, v⟩ := p
      obtain ⟨hek, hv, hget, hrest⟩ := hwf
      have hb : isBody v = true := hbody (k, v) (by simp)
      have hf' : 1 + costN v + costLoopO rest ≤ f := hf
      obtain ⟨f', rfl⟩ : ∃ f', f = f' + 1 := ⟨f - 1, by omega⟩
      obtain ⟨lx₁, hsnl1, hcc⟩ := (parse_render_aux (sizeOf v)).1 v le_rfl
        k 0 (f' + 1) (linesText (renderList false 0 rest)) hek hv (by omega)
      obtain ⟨tok', lx₀', lxf, hsnl2, hcm2, hloop'⟩ :=
        ih (f') cm (dictInsert g k v) vd hrest
          (fun kv hkv2 => hbody kv (by simp [hkv2]))
          (fun kv hkv2 => hkv kv (by simp [hkv2])) (by omega)
      have hkwcfg : kwOf v = strT "config" := by
        cases v with
        | set ps => simp [isBody, isSet, isObject, isTable] at hb
        | unset => simp [isBody, isSet, isObject, isTable] at hb
        | object es2 => rfl
        | table es2 => rfl
      have hccfg : _parse_config f' lx₁ = .ok ((k, v),
          lxPost v (linesText (renderList false 0 rest))) := by
        obtain ⟨f'', rfl⟩ : ∃ f'', f' = f'' + 1 := by
          have := costN_pos v
          exact ⟨f' - 1, by omega⟩
        rw [← cc_config (f'' + 1) lx₁, ← hkwcfg]
        exact hcc
      refine ⟨kwOf v, lx₁, lxf, ?_, ?_, ?_⟩
      · have htext : linesText (renderList false 0 ((k, v) :: rest))
            = linesText (renderItem false 0 k v)
              ++ linesText (renderList false 0 rest) := by
          simp [renderList, linesText_append]
        rw [htext]
        exact next_snl_false_of_true _ _ _ hsnl1
      · rw [hkwcfg]
        decide
      · rw [hkwcfg]
        rw [top_loop_config_glb f' cm g vd lx₁
          (lxPost v (linesText (renderList false 0 rest))) lx₀' k v tok'
          hccfg (hkv (k, v) (by simp)) ?_]
        · exact hloop'
        · rw [next_snl_lxPost]
          exact hsnl2

/-! ### The parsing cost of rendered text is bounded by its length -/

theorem cost_length_aux (n : Nat) :
    (∀ (v : FgtConfigNode), sizeOf v ≤ n →
      ∀ (b : Bool) (d : Nat) (k : Tok),
        costN v + 1 ≤ (linesText (renderItem b d k v)).length) ∧
    (∀ (es : Entries), sizeOf es ≤ n →
      ∀ (d : Nat),
        costLoopO es ≤ (linesText (renderList false d es)).length + 1) ∧
    (∀ (tes : Entries), sizeOf tes ≤ n →
      ∀ (d : Nat),
        costLoopT tes ≤ (linesText (renderList true d tes)).length + 1) := by
  induction n using Nat.strong_induction_on with
  | _ n ih =>
  refine ⟨?_, ?_, ?_⟩
  · intro v hv b d k
    cases v with
    | set ps =>
        have h4 : (strT "set ").length = 4 := rfl
        simp [costN, renderItem, linesText, h4]
        omega
    | unset =>
        have h6 : (strT "unset ").length = 6 := rfl
        simp [costN, renderItem, linesText, h6]
        omega
    | object es =>
        have hsz : sizeOf es < n := by
          have h1 : sizeOf es < sizeOf (FgtConfigNode.object es) := by
            simp [FgtConfigNode.object.sizeOf_spec]
          omega
        have hih := ((ih (sizeOf es) hsz).2.1) es le_rfl (d + 1)
        have h7 : (strT "config ").length = 7 := rfl
        have h5 : (strT "edit ").length = 5 := rfl
        have h3 : (strT "end").length = 3 := rfl
        have h4 : (strT "next").length = 4 := rfl
        cases b <;>
          simp [costN, renderItem, linesText, linesText_append, h7, h5, h3,
            h4] <;>
          omega
    | table tes =>
        have hsz : sizeOf tes < n := by
          have h1 : sizeOf tes < sizeOf (FgtConfigNode.table tes) := by
            simp [FgtConfigNode.table.sizeOf_spec]
          omega
        have hih := ((ih (sizeOf tes) hsz).2.2) tes le_rfl (d + 1)
        have h7 : (strT "config ").length = 7 := rfl
        have h5 : (strT "edit ").length = 5 := rfl
        have h3 : (strT "end").length = 3 := rfl
        have h4 : (strT "next").length = 4 := rfl
        cases b <;>
          simp [costN, renderItem, linesText, linesText_append, h7, h5, h3,
            h4] <;>
          omega
  · intro es hes d
    cases es with
    | nil => simp [costLoopO, renderList, linesText]
    | cons p rest =>
        obtain ⟨k, v⟩ := p
        have hszv : sizeOf v < n := by
          have h1 : sizeOf v < sizeOf ((k, v) :: rest) := by simp; omega
          omega
        have hszr : sizeOf rest < n := by
          have h1 : sizeOf rest < sizeOf ((k, v) :: rest) := by simp
          omega
        have hihv := ((ih (sizeOf v) hszv).1) v le_rfl false d k
        have hihr := ((ih (sizeOf rest) hszr).2.1) rest le_rfl d
        simp only [costLoopO, renderList, linesText_append,
          List.length_append]
        omega
  · intro tes htes d
    cases tes with
    | nil => simp [costLoopT, renderList, linesText]
    | cons p rest =>
        obtain ⟨k, v⟩ := p
        have hszv : sizeOf v < n := by
          have h1 : sizeOf v < sizeOf ((k, v) :: rest) := by simp; omega
          omega
        have hszr : sizeOf rest < n := by
          have h1 : sizeOf rest < sizeOf ((k, v) :: rest) := by simp
          omega
        have hihv := ((ih (sizeOf v) hszv).1) v le_rfl true d k
        have hihr := ((ih (sizeOf rest) hszr).2.2) rest le_rfl d
        cases v with
        | set ps =>
            have hc := costN_pos (FgtConfigNode.set ps)
            simp only [costLoopT, renderList, linesText_append,
              List.length_append]
            simp only [costN] at hc hihv
            omega
        | unset =>
            simp only [costLoopT, renderList, linesText_append,
              List.length_append]
            simp only [costN] at hihv
            omega
        | object es =>
            have hbody : costLoopO es
                ≤ (linesText (renderList false (d + 1) es)).length + 1 := by
              have hszes : sizeOf es < n := by
                have h1 : sizeOf es < sizeOf (FgtConfigNode.object es) := by
                  simp [FgtConfigNode.object.sizeOf_spec]
                have h2 : sizeOf (FgtConfigNode.object es)
                    < sizeOf ((k, FgtConfigNode.object es) :: rest) := by
                  simp
                  omega
                omega
              exact ((ih (sizeOf es) hszes).2.1) es le_rfl (d + 1)
            simp only [costLoopT, costN, renderList, linesText_append,
              List.length_append] at hihv ⊢
            omega
        | table es2 =>
            simp only [costLoopT, renderList, linesText_append,
              List.length_append]
            simp only [costN] at hihv
            omega

theorem linesText_count (cs : List Tok) :
    cs.length ≤ (linesText cs).length := by
  induction cs with
  | nil => simp [linesText]
  | cons c rest ih =>
      simp [linesText]
      omega

/-! ### The round trip on a single-vdom configuration -/

theorem renderItem_ne_nil (b : Bool) (d : Nat) (k : Tok)
    (v : FgtConfigNode) : renderItem b d k v ≠ [] := by
  cases v <;> simp [renderItem]

theorem renderList_ne_nil (es : Entries) (b : Bool) (d : Nat)
    (h : es ≠ []) : renderList b d es ≠ [] := by
  match es with
  | [] => exact absurd rfl h
  | (k, v) :: rest =>
      simp only [renderList]
      intro h0
      rcases List.append_eq_nil.mp h0 with ⟨h1, -⟩
      exact renderItem_ne_nil b d k v h1

theorem make_of_all (cm : List Tok) (r : Entries)
    (vd : List (Tok × Entries)) (h : ∀ kv ∈ r, isBody kv.2 = true) :
    FgtConfig.make cm r vd = .ok ⟨cm, r, vd⟩ := by
  unfold FgtConfig.make
  rw [if_pos (List.all_eq_true.mpr h)]

theorem write_comments_part (cm : List Tok) :
    (if True ∧ cm ≠ [] then joinNL cm ++ ['\n'] else []) = linesText cm := by
  by_cases hcm : cm = []
  · subst hcm
    simp [linesText]
  · rw [if_pos ⟨trivial, hcm⟩, joinNL_linesText cm hcm]

theorem write_if_comments (cm : List Tok) :
    (if true = true ∧ cm ≠ [] then joinNL cm ++ ['\n'] else [])
      = linesText cm := by
  by_cases hcm : cm = []
  · rw [if_neg (by simp [hcm])]
    simp [hcm, linesText]
  · rw [if_pos ⟨rfl, hcm⟩, joinNL_linesText cm hcm]

theorem write_flat (C : FgtConfig) (hflat : C.vdoms = [])
    (hroot : C.root ≠ []) :
    C.write true none
      = linesText C.comments ++ linesText (renderList false 0 C.root) := by
  rw [FgtConfig.write, make_config_flat C hflat, List.append_assoc,
    joinNL_linesText _ (renderList_ne_nil C.root false 0 hroot),
    write_if_comments C.comments]

theorem write_flat_nil (C : FgtConfig) (hflat : C.vdoms = [])
    (hroot : C.root = []) :
    C.write true none = linesText C.comments ++ ['\n'] := by
  rw [FgtConfig.write, make_config_flat C hflat, hroot]
  rw [show renderList false 0 ([] : Entries) = [] from rfl]
  rw [show joinNL [] = ([] : Tok) from rfl]
  rw [List.append_assoc, write_if_comments C.comments]
  simp

/-- Serialize-then-parse is the identity on well-formed single-vdom
configurations. -/
theorem write_parse_flat (C : FgtConfig) (hwf : WfConfig C)
    (hflat : C.vdoms = []) : parse (C.write true none) = .ok C := by
  obtain ⟨⟨hcm, ver, hver⟩, hroot, hbody, hvdw, hnok⟩ := hwf
  have hkv : ∀ kv ∈ C.root, kv.1 ≠ VDOM := hnok hflat
  by_cases hrnil : C.root = []
  · rw [write_flat_nil C hflat hrnil]
    simp only [parse]
    generalize hF : 2 * (linesText C.comments ++ ['\n']).length + 16 = F
    have hcmlen : C.comments.length + 2 ≤ F := by
      have h1 := linesText_count C.comments
      simp [List.length_append] at hF
      omega
    obtain ⟨f1, rfl⟩ : ∃ f1, F = f1 + C.comments.length :=
      ⟨F - C.comments.length, by omega⟩
    rw [comments_render C.comments f1 [] ['\n'] hcm]
    obtain ⟨f2, rfl⟩ : ∃ f2, f1 = f2 + 1 := ⟨f1 - 1, by omega⟩
    have hread : next_snl_token false ⟨['\n'], none, none⟩
        = .ok ([], ⟨[], none, none⟩) := by
      rw [show (['\n'] : List Char) = '\n' :: [] from rfl,
        next_snl_token_nl]
      exact next_snl_token_eos_false
    rw [comments_loop_stop f2 ([] ++ C.comments) _ _ [] hread (by decide)]
    simp only [List.nil_append]
    rw [show f2 + 1 + C.comments.length = (f2 + C.comments.length) + 1
      from by omega]
    rw [top_loop_eos (f2 + C.comments.length) C.comments [] [] [] _
      (by decide)]
    simp only []
    rw [if_pos (by simp)]
    simp only []
    rw [hver]
    simp only []
    rw [make_of_all C.comments [] [] (by intro kv hkv2; cases hkv2)]
    rw [show (⟨C.comments, [], []⟩ : FgtConfig) = C from by
      obtain ⟨c1, c2, c3⟩ := C
      have h2 : c2 = [] := hrnil
      have h3 : c3 = [] := hflat
      subst h2
      subst h3
      rfl]
  · rw [write_flat C hflat hrnil]
    simp only [parse]
    generalize hF : 2 * (linesText C.comments
      ++ linesText (renderList false 0 C.root)).length + 16 = F
    have hclb := (cost_length_aux (sizeOf C.root)).2.1 C.root le_rfl 0
    have hcmlen : C.comments.length + 2 ≤ F := by
      have h1 := linesText_count C.comments
      simp [List.length_append] at hF
      omega
    have hcost : costLoopO C.root + C.comments.length + 1 ≤ F := by
      simp [List.length_append] at hF
      have h1 := linesText_count C.comments
      omega
    obtain ⟨f1, rfl⟩ : ∃ f1, F = f1 + C.comments.length :=
      ⟨F - C.comments.length, by omega⟩
    rw [comments_render C.comments f1 [] _ hcm]
    obtain ⟨tok, lx₀, lxf, hread, hnotcm, htop⟩ :=
      top_loop_root C.root (f1 + C.comments.length) C.comments [] []
        hroot hbody hkv (by omega)
    obtain ⟨f2, rfl⟩ : ∃ f2, f1 = f2 + 1 := ⟨f1 - 1, by omega⟩
    rw [comments_loop_stop f2 ([] ++ C.comments) _ _ tok hread hnotcm]
    simp only [List.nil_append]
    rw [htop]
    simp only []
    rw [dictFold_id C.root (WfObjEntries_nodup C.root hroot)]
    rw [if_pos (by simp)]
    simp only []
    rw [hver]
    simp only []
    rw [make_of_all C.comments C.root [] hbody]
    rw [show (⟨C.comments, C.root, []⟩ : FgtConfig) = C from by
      obtain ⟨c1, c2, c3⟩ := C
      have h3 : c3 = [] := hflat
      subst h3
      rfl]

/-! ### The round trip on a multi-vdom configuration -/

theorem strT_config_vdom (r : List Char) :
    strT "config vdom" ++ r = strT "config" ++ ' ' :: (VDOM ++ r) := rfl

theorem strT_config_global (r : List Char) :
    strT "config global" ++ r
      = strT "config" ++ ' ' :: (strT "global" ++ r) := rfl

theorem vdomEnumLines_render (l : List (Tok × Entries)) :
    vdomEnumLines l = renderList true 0 (enumEntries l) := by
  induction l with
  | nil => rfl
  | cons kv rest ih =>
      obtain ⟨k, es⟩ := kv
      simp [vdomEnumLines, enumEntries, renderList, renderItem, ind] at ih ⊢
      exact ih

theorem enumEntries_wf (l : List (Tok × Entries))
    (hk : ∀ kv ∈ l, wfTok kv.1 = true) (hnd : dictNodup l) :
    WfTabEntries (enumEntries l) := by
  induction l with
  | nil => trivial
  | cons kv rest ih =>
      obtain ⟨k, es⟩ := kv
      obtain ⟨hget, hnd'⟩ := hnd
      refine ⟨hk (k, es) (by simp), rfl, trivial, ?_, ?_⟩
      · clear ih hnd'
        induction rest with
        | nil => rfl
        | cons kv2 rest2 ih2 =>
            obtain ⟨k2, es2⟩ := kv2
            simp only [dictGet] at hget
            simp only [enumEntries, List.map_cons, dictGet]
            by_cases hkk : k2 = k
            · rw [if_pos hkk] at hget
              cases hget
            · rw [if_neg hkk] at hget
              rw [if_neg hkk]
              exact ih2 (fun kv2 hkv2 => hk kv2 (by
                rcases List.mem_cons.mp hkv2 with h | h
                · simp [h]
                · simp [h])) hget
      · exact ih (fun kv2 hkv2 => hk kv2 (by simp [hkv2])) hnd'

theorem enumEntries_nodup (l : List (Tok × Entries)) (hnd : dictNodup l) :
    dictNodup (enumEntries l) := by
  induction l with
  | nil => trivial
  | cons kv rest ih =>
      obtain ⟨k, es⟩ := kv
      obtain ⟨hget, hnd'⟩ := hnd
      refine ⟨?_, ih hnd'⟩
      clear ih hnd'
      induction rest with
      | nil => rfl
      | cons kv2 rest2 ih2 =>
          obtain ⟨k2, es2⟩ := kv2
          simp only [dictGet] at hget
          simp only [enumEntries, List.map_cons, dictGet]
          by_cases hkk : k2 = k
          · rw [if_pos hkk] at hget
            cases hget
          · rw [if_neg hkk] at hget
            rw [if_neg hkk]
            exact ih2 hget

theorem dictInsert_mid {α : Type} (a b : List (Tok × α)) (k : Tok)
    (x v : α) (h : dictGet a k = none) :
    dictInsert (a ++ (k, x) :: b) k v = a ++ (k, v) :: b := by
  induction a with
  | nil => simp [dictInsert]
  | cons p rest ih =>
      obtain ⟨k0, v0⟩ := p
      simp only [dictGet] at h
      by_cases hk0 : k0 = k
      · rw [if_pos hk0] at h
        cases h
      · rw [if_neg hk0] at h
        simp only [List.cons_append, dictInsert, if_neg hk0, List.append_eq]
        rw [ih h]

theorem add_vdoms_skel (l : List (Tok × Entries)) :
    ∀ (cm : List Tok) (vd : List (Tok × Entries)),
      (∃ x, comments_version cm = .ok x) → dictNodup l →
      (∀ kv ∈ l, dictGet vd kv.1 = none) →
      add_vdoms cm (enumEntries l) vd = .ok (vd ++ vdomSkel l) := by
  induction l with
  | nil =>
      intro cm vd _ _ _
      simp [enumEntries, add_vdoms, vdomSkel]
  | cons kv rest ih =>
      intro cm vd hver hnd hget
      obtain ⟨k, es⟩ := kv
      obtain ⟨hgk, hnd'⟩ := hnd
      obtain ⟨x, hx⟩ := hver
      simp only [enumEntries, List.map_cons, add_vdoms]
      rw [hx]
      simp only []
      rw [dictInsert_append vd k [] (hget (k, es) (by simp))]
      rw [show add_vdoms cm (List.map (fun kv => (kv.1,
          FgtConfigNode.object [])) rest) (vd ++ [(k, [])])
          = add_vdoms cm (enumEntries rest) (vd ++ [(k, [])]) from rfl]
      have hget' : ∀ kv2 ∈ rest, dictGet (vd ++ [(k, [])]) kv2.1
          = none := by
        intro kv2 hkv2
        rw [dictGet_append_none]
        refine ⟨hget kv2 (by simp [hkv2]), ?_⟩
        simp only [dictGet]
        have hne : ¬ k = kv2.1 := by
          intro hkk
          subst hkk
          exact dictGet_mem rest kv2.1 kv2.2 (by simpa using hkv2) hgk
        rw [if_neg hne]
      rw [ih cm (vd ++ [(k, [])]) ⟨x, hx⟩ hnd' hget']
      simp [vdomSkel]

/-- Reparsing the rendered per-tenant `config vdom` blocks: each one
refills the skeleton entry for its tenant key in place. -/
theorem top_loop_vdoms (l : List (Tok × Entries)) :
    ∀ (f : Nat) (cm : List Tok) (g : Entries) (pre : List (Tok × Entries)),
      (∀ kv ∈ l, wfTok kv.1 = true) →
      (∀ kv ∈ l, WfObjEntries kv.2) →
      dictNodup l →
      (∀ kv ∈ l, dictGet pre kv.1 = none) →
      (∃ x, comments_version cm = .ok x) →
      costVB l ≤ f →
      ∃ tok lx₀ lxf,
        next_snl_token false ⟨linesText (vdomBodyLines l), none, none⟩
          = .ok (tok, lx₀)
        ∧ tok_is_comment tok = false
        ∧ top_loop f cm tok g (pre ++ vdomSkel l) lx₀
          = .ok (g, pre ++ l, lxf) := by
  induction l with
  | nil =>
      intro f cm g pre _ _ _ _ _ hf
      have hf' : 1 ≤ f := hf
      obtain ⟨f', rfl⟩ : ∃ f', f = f' + 1 := ⟨f - 1, by omega⟩
      refine ⟨[], ⟨[], none, none⟩, ⟨[], none, none⟩, ?_, by decide, ?_⟩
      · rw [show linesText (vdomBodyLines []) = [] from rfl]
        exact next_snl_token_eos_false
      · rw [top_loop_eos f' cm [] g (pre ++ vdomSkel []) _ (by decide)]
        rfl
  | cons kv rest ih =>
      intro f cm g pre hwk hwes hnd hpre hver hf
      obtain ⟨k, es⟩ := kv
      obtain ⟨hndk, hnd'⟩ := hnd
      obtain ⟨x, hx⟩ := hver
      have hkwf : wfTok k = true := hwk (k, es) (by simp)
      have heswf : WfObjEntries es := hwes (k, es) (by simp)
      have hprek : dictGet pre k = none := hpre (k, es) (by simp)
      have hf' : 4 + costLoopO es + costVB rest ≤ f := hf
      obtain ⟨f1, rfl⟩ : ∃ f1, f = f1 + 1 := ⟨f - 1, by omega⟩
      obtain ⟨f2, rfl⟩ : ∃ f2, f1 = f2 + 1 := ⟨f1 - 1, by omega⟩
      obtain ⟨f3, rfl⟩ : ∃ f3, f2 = f3 + 1 := ⟨f2 - 1, by omega⟩
      obtain ⟨f4, rfl⟩ : ∃ f4, f3 = f4 + 1 := ⟨f3 - 1, by omega⟩
      obtain ⟨tok', lx₀', lxf, hread', hncm', htop'⟩ :=
        ih (f4 + 1 + 1 + 1) cm g (pre ++ [(k, es)])
          (fun kv2 hkv2 => hwk kv2 (by simp [hkv2]))
          (fun kv2 hkv2 => hwes kv2 (by simp [hkv2]))
          hnd'
          (by
            intro kv2 hkv2
            rw [dictGet_append_none]
            refine ⟨hpre kv2 (by simp [hkv2]), ?_⟩
            simp only [dictGet]
            have hne : ¬ k = kv2.1 := by
              intro hkk
              subst hkk
              exact dictGet_mem rest kv2.1 kv2.2 (by simpa using hkv2) hndk
            rw [if_neg hne])
          ⟨x, hx⟩ (by omega)
      -- the body loop on the tenant root, terminated by the vdom `end`
      have hD := (parse_render_aux (sizeOf es)).2.2.1 es le_rfl 0 [] f4 true
        [] (strT "end") ('\n' :: linesText (vdomBodyLines rest)) heswf
        (by omega) (by intro c hc; cases hc) (Or.inr ⟨rfl, rfl⟩)
      rw [if_neg (by decide)] at hD
      rw [dictFold_id es (WfObjEntries_nodup es heswf)] at hD
      rw [List.append_nil] at hD
      -- the edit entry
      have hNPL1 := next_parameters_line [k]
        (linesText (renderList false 0 es) ++ strT "end"
          ++ '\n' :: '\n' :: linesText (vdomBodyLines rest))
        (by simp) (by intro t ht; simp at ht; subst ht; exact hkwf)
      rw [show joinSp [k] = k from rfl] at hNPL1
      have hPTE := parse_table_entry_ok f4 true _ _ _ k es hNPL1 hD
      -- the table loop sees `edit`, the entry, then the pushed-back `end`
      have hsnlE : next_snl_token true
          ⟨'\n' :: linesText (vdomBodyLines rest), some (some '\n'),
            some (strT "end")⟩
          = .ok (strT "end",
              ⟨'\n' :: linesText (vdomBodyLines rest), some (some '\n'),
                none⟩) :=
        next_snl_token_pbtok true (strT "end") _ _ (by decide)
      have hCTL : config_table_loop (f4 + 1 + 1) true (strT "edit") []
          ⟨k ++ '\n' :: (linesText (renderList false 0 es) ++ strT "end"
            ++ '\n' :: '\n' :: linesText (vdomBodyLines rest)),
            some (some ' '), none⟩
          = .ok ([(k, FgtConfigNode.object es)],
              ⟨'\n' :: linesText (vdomBodyLines rest), some (some '\n'),
                none⟩) := by
        rw [config_table_loop_cont (f4 + 1) true (strT "edit") [] _ _ _
          k (FgtConfigNode.object es) (strT "end") (by decide) hPTE hsnlE]
        exact config_table_loop_end f4 true _ _
      -- the whole `config vdom` statement
      have hNPL0 := next_parameters_line [VDOM]
        (strT "edit" ++ ' ' :: (k ++ '\n' ::
          (linesText (renderList false 0 es) ++ strT "end"
            ++ '\n' :: '\n' :: linesText (vdomBodyLines rest))))
        (by simp) (by intro t ht; simp at ht; subst ht; rfl)
      rw [show joinSp [VDOM] = VDOM from rfl] at hNPL0
      have hsnlEdit : next_snl_token true
          ⟨strT "edit" ++ ' ' :: (k ++ '\n' ::
            (linesText (renderList false 0 es) ++ strT "end"
              ++ '\n' :: '\n' :: linesText (vdomBodyLines rest))),
            none, none⟩
          = .ok (strT "edit",
              ⟨k ++ '\n' :: (linesText (renderList false 0 es) ++ strT "end"
                ++ '\n' :: '\n' :: linesText (vdomBodyLines rest)),
                some (some ' '), none⟩) :=
        next_snl_token_word true (strT "edit") ' ' _ (by rfl) (by rfl)
      have h1 := parse_config_tab (f4 + 1 + 1) _ _ _ _ [VDOM]
        [(k, FgtConfigNode.object es)] hNPL0 (by simp) hsnlEdit
        (by
          rw [show decide ((([VDOM] : List Tok).headD []) = VDOM) = true
            from rfl]
          exact hCTL)
      rw [show joinSp [VDOM] = VDOM from rfl] at h1
      -- the tenant-map update
      have h2 : add_vdoms cm (bodyItems
            (FgtConfigNode.table [(k, FgtConfigNode.object es)]))
          (pre ++ vdomSkel ((k, es) :: rest))
          = .ok (pre ++ (k, es) :: vdomSkel rest) := by
        simp only [bodyItems, add_vdoms]
        rw [hx]
        simp only []
        rw [show pre ++ vdomSkel ((k, es) :: rest)
            = pre ++ (k, ([] : Entries)) :: vdomSkel rest from rfl]
        rw [dictInsert_mid pre (vdomSkel rest) k [] es hprek]
      -- the hand-off read to the remaining blocks
      have h3 : next_snl_token false
          ⟨'\n' :: linesText (vdomBodyLines rest), some (some '\n'), none⟩
          = .ok (tok', lx₀') := by
        rw [next_snl_token_pb, next_snl_token_nl, next_snl_token_nl]
        exact hread'
      have htext : linesText (vdomBodyLines ((k, es) :: rest))
          = strT "config" ++ ' ' :: (VDOM ++ '\n' ::
              (strT "edit" ++ ' ' :: (k ++ '\n' ::
                (linesText (renderList false 0 es) ++ strT "end"
                  ++ '\n' :: '\n' :: linesText (vdomBodyLines rest))))) := by
        simp [vdomBodyLines, linesText, linesText_append, strT_config_vdom,
          strT_edit_sp]
      refine ⟨strT "config", ⟨VDOM ++ '\n' ::
          (strT "edit" ++ ' ' :: (k ++ '\n' ::
            (linesText (renderList false 0 es) ++ strT "end"
              ++ '\n' :: '\n' :: linesText (vdomBodyLines rest)))),
          some (some ' '), none⟩, lxf, ?_, by decide, ?_⟩
      · rw [htext]
        exact next_snl_token_word false (strT "config") ' ' _ (by rfl)
          (by rfl)
      · rw [top_loop_config_vdom (f4 + 1 + 1 + 1) cm g
          (pre ++ vdomSkel ((k, es) :: rest))
          (pre ++ (k, es) :: vdomSkel rest) _ _ lx₀'
          (FgtConfigNode.table [(k, FgtConfigNode.object es)]) tok'
          h1 h2 h3]
        rw [show pre ++ (k, es) :: vdomSkel rest
            = (pre ++ [(k, es)]) ++ vdomSkel rest from by simp]
        rw [show pre ++ (k, es) :: rest = (pre ++ [(k, es)]) ++ rest
            from by simp]
        exact htop'

theorem costVB_bound (l : List (Tok × Entries)) :
    costVB l ≤ (linesText (vdomBodyLines l)).length + 1 := by
  induction l with
  | nil => simp [costVB, vdomBodyLines, linesText]
  | cons kv rest ih =>
      obtain ⟨k, es⟩ := kv
      have hb := (cost_length_aux (sizeOf es)).2.1 es le_rfl 0
      have h12 : (strT "config vdom").length = 11 := rfl
      have h5 : (strT "edit ").length = 5 := rfl
      have h3 : (strT "end").length = 3 := rfl
      simp only [costVB, vdomBodyLines, linesText, linesText_append,
        List.length_cons, List.length_append, h12, h5, h3]
      simp only [List.length_append] at hb ih ⊢
      omega

theorem WfVdoms_mem (vd : List (Tok × Entries)) (h : WfVdoms vd) :
    ∀ kv ∈ vd, WfObjEntries kv.2 := by
  induction vd with
  | nil => intro kv hkv; cases hkv
  | cons p rest ih =>
      obtain ⟨k, es⟩ := p
      obtain ⟨-, hes, -, hrest⟩ := h
      intro kv hkv
      rcases List.mem_cons.mp hkv with hkv | hkv
      · subst hkv; exact hes
      · exact ih hrest kv hkv

/-- Serialize-then-parse is the identity on well-formed multi-vdom
configurations whose tenant keys are single tokens. -/
theorem write_parse_vdom (C : FgtConfig) (hwf : WfConfig C)
    (htk : TenantKeysWf C) (hv : C.vdoms ≠ []) :
    parse (C.write true none) = .ok C := by
  obtain ⟨⟨hcm, ver, hver⟩, hroot, hbody, hvdw, -⟩ := hwf
  have hmv : C.multi_vdom = true := by
    simp [FgtConfig.multi_vdom, List.isEmpty_iff, hv]
  have henum_ne : enumEntries C.vdoms ≠ [] := by
    simp [enumEntries, hv]
  have hnd : dictNodup C.vdoms := WfVdoms_nodup C.vdoms hvdw
  have hvdm := WfVdoms_mem C.vdoms hvdw
  -- the rendered text
  have hwrite : C.write true none
      = linesText C.comments
        ++ ('\n' :: (strT "config" ++ ' ' :: (VDOM ++ '\n' ::
            (linesText (renderList true 0 (enumEntries C.vdoms))
              ++ strT "end" ++ '\n' :: '\n' :: (strT "config" ++ ' ' ::
                (strT "global" ++ '\n' ::
                  (linesText (renderList false 0 C.root) ++ strT "end"
                    ++ '\n' :: '\n' ::
                      linesText (vdomBodyLines C.vdoms)))))))) := by
    rw [FgtConfig.write, make_config_vdom C hmv, write_if_comments C.comments,
      List.append_assoc, joinNL_linesText _ (by simp)]
    congr 1
    simp [linesText, linesText_append, strT_config_vdom, strT_config_global,
      strT_edit_sp, vdomEnumLines_render]
  rw [hwrite]
  simp only [parse]
  generalize hF : 2 * (linesText C.comments ++ _).length + 16 = F
  -- cost bounds
  have hbE := (cost_length_aux (sizeOf (enumEntries C.vdoms))).2.2
    (enumEntries C.vdoms) le_rfl 0
  have hbR := (cost_length_aux (sizeOf C.root)).2.1 C.root le_rfl 0
  have hbV := costVB_bound C.vdoms
  have hcmc := linesText_count C.comments
  have hflen : C.comments.length + 2 ≤ F ∧
      costLoopT (enumEntries C.vdoms) + 4 ≤ F ∧
      costLoopO C.root + 4 ≤ F ∧ costVB C.vdoms + 3 ≤ F := by
    simp only [List.length_append, List.length_cons] at hF
    simp only [List.length_append] at hbE hbR hbV
    omega
  obtain ⟨hflen1, hflen2, hflen3, hflen4⟩ := hflen
  obtain ⟨f1, rfl⟩ : ∃ f1, F = f1 + C.comments.length :=
    ⟨F - C.comments.length, by omega⟩
  rw [comments_render C.comments f1 [] _ hcm]
  obtain ⟨f2, rfl⟩ : ∃ f2, f1 = f2 + 1 := ⟨f1 - 1, by omega⟩
  -- first token: skip the leading blank line, read `config`
  have hread0 : next_snl_token false
      ⟨'\n' :: (strT "config" ++ ' ' :: (VDOM ++ '\n' ::
        (linesText (renderList true 0 (enumEntries C.vdoms))
          ++ strT "end" ++ '\n' :: '\n' :: (strT "config" ++ ' ' ::
            (strT "global" ++ '\n' ::
              (linesText (renderList false 0 C.root) ++ strT "end"
                ++ '\n' :: '\n' ::
                  linesText (vdomBodyLines C.vdoms))))))), none, none⟩
      = .ok (strT "config", ⟨VDOM ++ '\n' ::
          (linesText (renderList true 0 (enumEntries C.vdoms))
            ++ strT "end" ++ '\n' :: '\n' :: (strT "config" ++ ' ' ::
              (strT "global" ++ '\n' ::
                (linesText (renderList false 0 C.root) ++ strT "end"
                  ++ '\n' :: '\n' ::
                    linesText (vdomBodyLines C.vdoms))))),
          some (some ' '), none⟩) := by
    rw [next_snl_token_nl]
    exact next_snl_token_word false (strT "config") ' ' _ (by rfl) (by rfl)
  rw [comments_loop_stop f2 ([] ++ C.comments) _ _ _ hread0 (by decide)]
  simp only [List.nil_append]
  -- fuel shape for the three top-loop steps
  obtain ⟨fB, hfB⟩ : ∃ fB, f2 + 1 + C.comments.length = fB + 1 + 1 + 1 :=
    ⟨f2 + C.comments.length - 2, by omega⟩
  have hfB2 : costLoopO C.root ≤ fB := by omega
  have hfBE : costLoopT (enumEntries C.vdoms) ≤ fB + 1 := by omega
  have hfBV : costVB C.vdoms ≤ fB + 1 := by omega
  rw [hfB]
  -- the enumeration block
  obtain ⟨tokE, lxE, hreadE, htokE, hloopE⟩ :=
    (parse_render_aux (sizeOf (enumEntries C.vdoms))).2.2.2
      (enumEntries C.vdoms) le_rfl 0 [] (fB + 1) true []
      ('\n' :: (strT "config" ++ ' ' :: (strT "global" ++ '\n' ::
        (linesText (renderList false 0 C.root) ++ strT "end"
          ++ '\n' :: '\n' :: linesText (vdomBodyLines C.vdoms)))))
      (enumEntries_wf C.vdoms htk hnd) hfBE (by intro c hc; cases hc)
  rw [List.append_nil] at hreadE
  have htokE' : tokE = strT "edit" := htokE henum_ne
  subst htokE'
  rw [dictFold_id _ (enumEntries_nodup C.vdoms hnd)] at hloopE
  have hNPL0 := next_parameters_line [VDOM]
    (linesText (renderList true 0 (enumEntries C.vdoms))
      ++ strT "end" ++ '\n' :: '\n' :: (strT "config" ++ ' ' ::
        (strT "global" ++ '\n' ::
          (linesText (renderList false 0 C.root) ++ strT "end"
            ++ '\n' :: '\n' :: linesText (vdomBodyLines C.vdoms)))))
    (by simp) (by intro t ht; simp at ht; subst ht; rfl)
  rw [show joinSp [VDOM] = VDOM from rfl] at hNPL0
  have h1E := parse_config_tab (fB + 1) _ _ _ _ [VDOM]
    (enumEntries C.vdoms) hNPL0 (by simp) hreadE
    (by
      rw [show decide ((([VDOM] : List Tok).headD []) = VDOM) = true
        from rfl]
      exact hloopE)
  rw [show joinSp [VDOM] = VDOM from rfl] at h1E
  have h2E := add_vdoms_skel C.vdoms C.comments [] ⟨ver, hver⟩ hnd
    (by intro kv hkv; rfl)
  rw [List.nil_append] at h2E
  -- the global block
  obtain ⟨tokG, lxG, hreadG, htokG, hloopG⟩ :=
    (parse_render_aux (sizeOf C.root)).2.1 C.root le_rfl 0 [] fB []
      ('\n' :: linesText (vdomBodyLines C.vdoms)) hroot hfB2
      (by intro c hc; cases hc)
  rw [List.append_nil] at hreadG
  rw [dictFold_id C.root (WfObjEntries_nodup C.root hroot)] at hloopG
  have hNPLG := next_parameters_line [strT "global"]
    (linesText (renderList false 0 C.root) ++ strT "end"
      ++ '\n' :: '\n' :: linesText (vdomBodyLines C.vdoms))
    (by simp) (by intro t ht; simp at ht; subst ht; rfl)
  rw [show joinSp [strT "global"] = strT "global" from rfl] at hNPLG
  have h1G := parse_config_obj fB _ _ _ _ [strT "global"] tokG C.root
    hNPLG (by simp) hreadG htokG hloopG
  rw [show joinSp [strT "global"] = strT "global" from rfl] at h1G
  -- the tenant blocks
  obtain ⟨tokV, lxV, lxVf, hreadV, hncmV, htopV⟩ :=
    top_loop_vdoms C.vdoms (fB + 1) C.comments
      (dictInsert [] (strT "global") (FgtConfigNode.object C.root)) []
      htk hvdm hnd (by intro kv hkv; rfl) ⟨ver, hver⟩ hfBV
  simp only [List.nil_append] at htopV
  -- chain the three steps
  rw [top_loop_config_vdom (fB + 1 + 1) C.comments [] [] (vdomSkel C.vdoms)
    _ _ _ (FgtConfigNode.table (enumEntries C.vdoms)) (strT "config")
    h1E h2E ?hv3]
  case hv3 =>
    rw [next_snl_token_pb, next_snl_token_nl, next_snl_token_nl]
    exact next_snl_token_word false (strT "config") ' ' _ (by rfl) (by rfl)
  rw [top_loop_config_glb (fB + 1) C.comments [] (vdomSkel C.vdoms)
    _ _ _ (strT "global") (FgtConfigNode.object C.root) tokV
    h1G (by decide) ?hg3]
  case hg3 =>
    rw [next_snl_token_pb, next_snl_token_nl, next_snl_token_nl]
    exact hreadV
  rw [htopV]
  simp only []
  rw [if_neg (by simp [List.isEmpty_iff, hv])]
  rw [show dictGet (dictInsert [] (strT "global")
      (FgtConfigNode.object C.root)) (strT "global")
      = some (FgtConfigNode.object C.root) from rfl]
  simp only [bodyItems]
  rw [hver]
  simp only []
  rw [make_of_all C.comments C.root C.vdoms hbody]

/-- The round trip `parse ∘ write` is the identity on every well-formed
configuration whose tenant keys are single parameter tokens. -/
theorem write_parse (C : FgtConfig) (hwf : WfConfig C)
    (htk : TenantKeysWf C) : parse (C.write true none) = .ok C := by
  by_cases hv : C.vdoms = []
  · exact write_parse_flat C hwf hv
  · exact write_parse_vdom C hwf htk hv

/-- C1 (counterexample): serializing the parse of a syntactically valid
document does not reproduce it line-for-line modulo leading/trailing
whitespace — interior whitespace in a `config` key collapses — and for a
document whose `config vdom` block is object-bodied, the serialized form
does not even reparse (the multi-token tenant key breaks the synthetic
`edit` line), so the cycle has no fixed point at all. -/
theorem C1_counterexample :
    (∃ C, parse (strT "config a  b\nend\n") = .ok C
      ∧ (splitLines (C.write true none)).map pyStrip
          ≠ (splitLines (strT "config a  b\nend\n")).map pyStrip)
    ∧ (∃ C,
        parse (strT
            "config vdom\nconfig a b\nset x 1\nend\nend\nconfig global\nend\n")
          = .ok C
        ∧ parse (C.write true none)
          = .error (.syntaxError .invalidTable)) :=
  ⟨⟨⟨[], [(strT "a b", FgtConfigNode.object [])], []⟩, rfl, by decide⟩,
   ⟨⟨[], [], [(strT "a b", [(strT "x", FgtConfigNode.set [strT "1"])])]⟩,
     rfl, rfl⟩⟩

/-- C1 (amended): the parse/serialize cycle is a stable fixed point from
the first serialization onwards: if `D` parses to `C` and every tenant
key of `C` is a single parameter token, then parsing `write C` returns
exactly `C` again, so all further cycles repeat the same document. -/
theorem C1_roundtrip_fixed_point (D : Tok) (C : FgtConfig)
    (h : parse D = .ok C) (htk : TenantKeysWf C) :
    parse (C.write true none) = .ok C :=
  write_parse C (parse_wf D C h) htk

theorem C1_roundtrip_fixed_point_witness :
    parse (strT "config a\nend\n")
      = .ok ⟨[], [(strT "a", FgtConfigNode.object [])], []⟩
    ∧ TenantKeysWf ⟨[], [(strT "a", FgtConfigNode.object [])], []⟩
    ∧ parse (FgtConfig.write
        ⟨[], [(strT "a", FgtConfigNode.object [])], []⟩ true none)
      = .ok ⟨[], [(strT "a", FgtConfigNode.object [])], []⟩ :=
  ⟨rfl, fun kv hkv => absurd hkv (by simp),
    C1_roundtrip_fixed_point (strT "config a\nend\n") _ rfl
      (fun kv hkv => absurd hkv (by simp))⟩

/-- C3: for the canonical multi-tenant documents — a `config vdom` block
enumerating tenant names, a `config global` block, and per-tenant
`config vdom` blocks, as `write` lays them out — `parse` returns a
configuration with the multi-tenant flag set, the tenant map holding
exactly the enumerated names (each with its own root), and `root` equal
to the contents of the `global` block only; with no tenants the flag is
false and `root` holds all top-level blocks. -/
theorem C3_vdom_structure (cm : List Tok) (root : Entries)
    (vdoms : List (Tok × Entries))
    (hwf : WfConfig ⟨cm, root, vdoms⟩)
    (htk : TenantKeysWf ⟨cm, root, vdoms⟩) :
    (vdoms ≠ [] →
      ∃ C, parse (FgtConfig.write ⟨cm, root, vdoms⟩ true none) = .ok C
        ∧ C.multi_vdom = true ∧ C.vdoms = vdoms ∧ C.root = root)
    ∧ (vdoms = [] →
      ∃ C, parse (FgtConfig.write ⟨cm, root, vdoms⟩ true none) = .ok C
        ∧ C.multi_vdom = false ∧ C.root = root ∧ C.vdoms = []) := by
  constructor
  · intro hv
    refine ⟨⟨cm, root, vdoms⟩, write_parse_vdom _ hwf htk hv, ?_, rfl, rfl⟩
    simp [FgtConfig.multi_vdom, List.isEmpty_iff, hv]
  · intro hv
    refine ⟨⟨cm, root, vdoms⟩, write_parse_flat _ hwf hv, ?_, rfl, ?_⟩
    · simp [FgtConfig.multi_vdom, hv]
    · exact hv

theorem C3_vdom_structure_witness :
    ∃ C, parse (FgtConfig.write
        ⟨[], [(strT "a", FgtConfigNode.object [])], [(strT "root", [])]⟩
        true none) = .ok C
      ∧ C.multi_vdom = true ∧ C.vdoms = [(strT "root", [])]
      ∧ C.root = [(strT "a", FgtConfigNode.object [])] :=
  (C3_vdom_structure [] [(strT "a", FgtConfigNode.object [])]
    [(strT "root", [])]
    ⟨⟨fun c hc => absurd hc (by simp), _, rfl⟩,
     ⟨⟨[strT "a"], by simp,
        fun t ht => by simp at ht; subst ht; rfl, rfl⟩,
      trivial, rfl, trivial⟩,
     fun kv hkv => by simp at hkv; subst hkv; rfl,
     ⟨⟨[strT "root"], by simp,
        fun t ht => by simp at ht; subst ht; rfl, rfl⟩,
      trivial, rfl, trivial⟩,
     fun h0 => absurd h0 (by simp)⟩
    (fun kv hkv => by simp at hkv; subst hkv; rfl)).1 (by simp)

end Fgt
